import Mathlib

/-!
Shallow embedding of the graph-dataset utilities of `src/data/util.py`
(masking, sampling, label alignment, symmetrization, connected components,
graph normalization, subgraph selection, stratified splitting, integrity
checking), together with theorems settling the frozen claims about them.

Modelling conventions:
* a numpy boolean mask of shape `[N]` is a `List Bool` of length `N`;
* an attribute matrix is a `List α` of its rows (the rows are opaque: the
  code only filters them, it never looks inside);
* a label vector is a `List Int` (the code uses `-1` as an undefined
  sentinel in `remap_labels`);
* `edge_index : ndarray [2, E]` is a `List (Nat × Nat)` of (source, target)
  pairs;
* a Python `dict` is an insertion-ordered association list `List (κ × ν)`;
  iteration order is list order, as in CPython;
* operations that can raise (`ValueError` on empty reductions, failed
  `assert`s, `KeyError`) return `Option`/`Except`;
* `np.random` shuffling is an explicit parameter `shuffle : List Nat →
  List Nat`, constrained to be a permutation in the theorems.
-/

namespace DataUtil

/-! ### Generic list helpers (mask arithmetic) -/

/-- Number of `true` entries of a boolean mask (`mask.sum()`). -/
def countTrue : List Bool → Nat
  | [] => 0
  | true :: m => countTrue m + 1
  | false :: m => countTrue m

/-- Row filtering by a boolean mask (`x[mask]` for an `[N, ...]` array):
keeps the entries at the positions where the mask is `true`, in order. -/
def maskFilter {α : Type} : List Bool → List α → List α
  | true :: m, a :: l => a :: maskFilter m l
  | false :: m, _ :: l => maskFilter m l
  | _, _ => []

/-- Positions of the `true` entries of a mask, ascending (`np.where(mask)[0]`). -/
def trueIdxs : List Bool → List Nat
  | [] => []
  | b :: m => if b then 0 :: (trueIdxs m).map (· + 1) else (trueIdxs m).map (· + 1)

/-- The dense position a masked old position is sent to: the number of `true`
entries strictly before it (the `enumerate`-built `idx_mapping` of
`graph_select_idxs`). -/
def maskRank (mask : List Bool) (i : Nat) : Nat :=
  countTrue (mask.take i)

theorem countTrue_append (m m' : List Bool) :
    countTrue (m ++ m') = countTrue m + countTrue m' := by
  induction m with
  | nil => simp [countTrue]
  | cons b m ih => cases b <;> simp [countTrue, ih] <;> omega

theorem countTrue_le_length (m : List Bool) : countTrue m ≤ m.length := by
  induction m with
  | nil => simp [countTrue]
  | cons b m ih => cases b <;> simp [countTrue] <;> omega

theorem countTrue_eq_length_iff (m : List Bool) :
    countTrue m = m.length ↔ ∀ b ∈ m, b = true := by
  induction m with
  | nil => simp [countTrue]
  | cons b m ih =>
    have hle := countTrue_le_length m
    cases b
    · show countTrue m = m.length + 1 ↔ _
      constructor
      · intro h
        omega
      · intro h
        cases h false (List.mem_cons_self _ _)
    · show countTrue m + 1 = m.length + 1 ↔ _
      constructor
      · intro h x hx
        rcases List.mem_cons.1 hx with rfl | h1
        · rfl
        · exact (ih.1 (by omega)) x h1
      · intro h
        have : countTrue m = m.length :=
          ih.2 (fun x hx => h x (List.mem_cons_of_mem _ hx))
        omega

theorem maskFilter_length {α : Type} (m : List Bool) (l : List α)
    (h : m.length = l.length) : (maskFilter m l).length = countTrue m := by
  induction m generalizing l with
  | nil => simp [maskFilter, countTrue]
  | cons b m ih =>
    cases l with
    | nil => simp at h
    | cons a l =>
      simp at h
      cases b <;> simp [maskFilter, countTrue, ih l h] <;> omega

theorem length_trueIdxs (m : List Bool) : (trueIdxs m).length = countTrue m := by
  induction m with
  | nil => simp [trueIdxs, countTrue]
  | cons b m ih => cases b <;> simp [trueIdxs, countTrue, ih] <;> omega

theorem mem_trueIdxs (m : List Bool) (i : Nat) :
    i ∈ trueIdxs m ↔ m.getD i false = true := by
  induction m generalizing i with
  | nil => simp [trueIdxs]
  | cons b m ih =>
    cases i with
    | zero =>
      cases b <;> simp [trueIdxs]
    | succ j =>
      rw [List.getD_cons_succ, ← ih]
      have hmem : (j + 1) ∈ (trueIdxs m).map (· + 1) ↔ j ∈ trueIdxs m := by
        constructor
        · intro h
          rcases List.mem_map.1 h with ⟨a, ha, he⟩
          have : a = j := by omega
          exact this ▸ ha
        · intro h
          exact List.mem_map.2 ⟨j, h, rfl⟩
      cases b
      · exact hmem
      · show (j + 1) ∈ 0 :: (trueIdxs m).map (· + 1) ↔ _
        rw [List.mem_cons]
        constructor
        · rintro (h | h)
          · omega
          · exact hmem.1 h
        · intro h
          exact Or.inr (hmem.2 h)

theorem trueIdxs_lt_length (m : List Bool) (i : Nat) (h : i ∈ trueIdxs m) :
    i < m.length := by
  by_contra hge
  rw [mem_trueIdxs] at h
  rw [List.getD_eq_default] at h
  · exact Bool.false_ne_true h
  · omega

theorem nodup_trueIdxs (m : List Bool) : (trueIdxs m).Nodup := by
  induction m with
  | nil => simp [trueIdxs]
  | cons b m ih =>
    have hmap : ((trueIdxs m).map (· + 1)).Nodup :=
      ih.map (fun a b h => by omega)
    cases b
    · simpa [trueIdxs] using hmap
    · show (0 :: (trueIdxs m).map (· + 1)).Nodup
      refine List.nodup_cons.2 ⟨?_, hmap⟩
      intro h
      rcases List.mem_map.1 h with ⟨a, _, ha⟩
      omega

/-! ### `sample_from_mask` (`src/data/util.py:109`)

```python
if mask.sum() < num_samples:
    raise SamplingError(...)
idxs = np.where(mask)[0]
rng.shuffle(idxs)
sample_mask = np.zeros_like(mask, dtype=bool)
sample_mask[idxs[:num_samples]] = True
return sample_mask
```
-/

/-- In-place fancy assignment `m[ps] = True`: set the listed positions of a
boolean mask to `true`, one after the other. -/
def markTrue (m : List Bool) (ps : List Nat) : List Bool :=
  ps.foldl (fun m i => m.set i true) m

/-- `sample_from_mask`.  The random state is modelled by the `shuffle`
parameter; `none` models the `SamplingError` raised when fewer than
`num_samples` vertices are available. -/
def sample_from_mask (shuffle : List Nat → List Nat) (mask : List Bool)
    (num_samples : Nat) : Option (List Bool) :=
  if countTrue mask < num_samples then none
  else
    let idxs := shuffle (trueIdxs mask)
    some (markTrue (mask.map (fun _ => false)) (idxs.take num_samples))

theorem markTrue_getD (m : List Bool) (ps : List Nat) (i : Nat) :
    (markTrue m ps).getD i false =
      (if i ∈ ps ∧ i < m.length then true else m.getD i false) := by
  induction ps generalizing m with
  | nil => simp [markTrue]
  | cons p ps ih =>
    show (markTrue (m.set p true) ps).getD i false = _
    rw [ih]
    simp only [List.length_set]
    by_cases hips : i ∈ ps ∧ i < m.length
    · rw [if_pos hips, if_pos ⟨List.mem_cons_of_mem _ hips.1, hips.2⟩]
    · rw [if_neg hips]
      by_cases hpe : i = p
      · subst hpe
        by_cases hl : i < m.length
        · rw [List.getD_eq_getElem?_getD, List.getElem?_set_self hl,
            if_pos ⟨List.mem_cons_self _ _, hl⟩]
          rfl
        · rw [if_neg (fun h => hl h.2),
            List.getD_eq_default _ _ (by rw [List.length_set]; omega),
            List.getD_eq_default _ _ (by omega)]
      · rw [List.getD_eq_getElem?_getD, List.getElem?_set_ne (fun h => hpe h.symm),
          ← List.getD_eq_getElem?_getD]
        have hni : ¬ (i ∈ p :: ps ∧ i < m.length) := by
          rintro ⟨h1, h2⟩
          rcases List.mem_cons.1 h1 with h | h
          · exact hpe h
          · exact hips ⟨h, h2⟩
        rw [if_neg hni]

theorem markTrue_length (m : List Bool) (ps : List Nat) :
    (markTrue m ps).length = m.length := by
  induction ps generalizing m with
  | nil => rfl
  | cons p ps ih =>
    show (markTrue (m.set p true) ps).length = _
    rw [ih, List.length_set]

/-- Counting `true`s of a mask by scanning positions. -/
theorem countTrue_eq_card (m : List Bool) :
    countTrue m = ((List.range m.length).filter (fun i => m.getD i false)).length := by
  induction m with
  | nil => simp [countTrue]
  | cons b m ih =>
    rw [List.length_cons, List.range_succ_eq_map, List.filter_cons]
    have hmap : ((List.range m.length).map Nat.succ).filter
        (fun i => (b :: m).getD i false) =
        ((List.range m.length).filter (fun i => m.getD i false)).map Nat.succ := by
      rw [List.filter_map]
      rfl
    cases b
    · rw [if_neg (by simp [List.getD_cons_zero]), hmap, List.length_map]
      exact ih
    · rw [if_pos (by simp [List.getD_cons_zero]), hmap, List.length_cons,
        List.length_map]
      show countTrue m + 1 = _ + 1
      rw [ih]

theorem countTrue_markTrue_zeros (n : Nat) (ps : List Nat) (hnd : ps.Nodup)
    (hlt : ∀ p ∈ ps, p < n) :
    countTrue (markTrue (List.replicate n false) ps) = ps.length := by
  rw [countTrue_eq_card, markTrue_length, List.length_replicate]
  have hchar : ∀ i, (markTrue (List.replicate n false) ps).getD i false = true ↔
      i ∈ ps := by
    intro i
    rw [markTrue_getD]
    simp only [List.length_replicate]
    by_cases h : i ∈ ps ∧ i < n
    · rw [if_pos h]
      simp [h.1]
    · rw [if_neg h, List.getD_eq_getElem?_getD, List.getElem?_replicate]
      by_cases hi : i < n
      · rw [if_pos hi]
        constructor
        · intro hcon
          cases hcon
        · intro hip
          exact absurd ⟨hip, hi⟩ h
      · rw [if_neg hi]
        constructor
        · intro hcon
          cases hcon
        · intro hip
          exact absurd (hlt i hip) hi
  have hperm : List.Perm ((List.range n).filter
      (fun i => (markTrue (List.replicate n false) ps).getD i false)) ps := by
    apply List.perm_of_nodup_nodup_toFinset_eq
    · exact (List.nodup_range n).filter _
    · exact hnd
    · apply Finset.ext
      intro a
      simp only [List.mem_toFinset, List.mem_filter, List.mem_range]
      constructor
      · intro ⟨_, hm⟩
        exact (hchar a).1 (by simpa using hm)
      · intro hp
        exact ⟨hlt a hp, by simpa using (hchar a).2 hp⟩
  exact hperm.length_eq

/-- C9 helper: elements set in the sample are masked in the input. -/
theorem sample_mem_mask (shuffle : List Nat → List Nat) (mask : List Bool)
    (num_samples : Nat) (s : List Bool)
    (hperm : List.Perm (shuffle (trueIdxs mask)) (trueIdxs mask))
    (hs : sample_from_mask shuffle mask num_samples = some s) :
    ∀ i, s.getD i false = true → mask.getD i false = true := by
  intro i hi
  unfold sample_from_mask at hs
  by_cases hc : countTrue mask < num_samples
  · simp [hc] at hs
  · simp only [hc, if_false] at hs
    injection hs with hs
    subst hs
    rw [markTrue_getD] at hi
    by_cases hm : i ∈ (shuffle (trueIdxs mask)).take num_samples ∧
        i < (mask.map (fun _ => false)).length
    · have : i ∈ trueIdxs mask :=
        hperm.mem_iff.1 (List.mem_of_mem_take hm.1)
      exact (mem_trueIdxs mask i).1 this
    · rw [if_neg hm] at hi
      by_cases hl : i < mask.length
      · rw [List.getD_eq_getElem?_getD, List.getElem?_map] at hi
        simp [List.getElem?_eq_getElem hl] at hi
      · rw [List.getD_eq_default] at hi
        · simp at hi
        · simpa using by omega

/-- **C9.** `sample_from_mask` errors if and only if the requested count
exceeds the number of masked vertices, and the error is raised before any
sample mask is produced; otherwise the returned mask has exactly
`num_samples` set entries, all of them at positions set in the input mask. -/
theorem sample_from_mask_spec (shuffle : List Nat → List Nat) (mask : List Bool)
    (num_samples : Nat)
    (hperm : List.Perm (shuffle (trueIdxs mask)) (trueIdxs mask)) :
    (sample_from_mask shuffle mask num_samples = none ↔
      countTrue mask < num_samples) ∧
    (∀ s, sample_from_mask shuffle mask num_samples = some s →
      countTrue s = num_samples ∧ s.length = mask.length ∧
      ∀ i, s.getD i false = true → mask.getD i false = true) := by
  constructor
  · unfold sample_from_mask
    by_cases hc : countTrue mask < num_samples <;> simp [hc]
  · intro s hs
    refine ⟨?_, ?_, sample_mem_mask shuffle mask num_samples s hperm hs⟩
    · unfold sample_from_mask at hs
      by_cases hc : countTrue mask < num_samples
      · simp [hc] at hs
      · simp only [hc, if_false] at hs
        injection hs with hs
        subst hs
        have hnd : ((shuffle (trueIdxs mask)).take num_samples).Nodup :=
          (hperm.nodup_iff.2 (nodup_trueIdxs mask)).sublist
            (List.take_sublist _ _)
        have hlt : ∀ p ∈ (shuffle (trueIdxs mask)).take num_samples,
            p < mask.length := by
          intro p hp
          exact trueIdxs_lt_length mask p
            (hperm.mem_iff.1 (List.mem_of_mem_take hp))
        have hlen : ((shuffle (trueIdxs mask)).take num_samples).length =
            num_samples := by
          rw [List.length_take, hperm.length_eq, length_trueIdxs]
          omega
        have := countTrue_markTrue_zeros mask.length
          ((shuffle (trueIdxs mask)).take num_samples) hnd hlt
        rw [hlen] at this
        have hmapz : mask.map (fun _ => false) = List.replicate mask.length false := by
          rw [List.eq_replicate_iff]
          simp
        rw [hmapz, this]
    · unfold sample_from_mask at hs
      by_cases hc : countTrue mask < num_samples
      · simp [hc] at hs
      · simp only [hc, if_false] at hs
        injection hs with hs
        subst hs
        rw [markTrue_length, List.length_map]

/-- C9 witness: a concrete run with the identity shuffle on a 4-vertex mask. -/
theorem sample_from_mask_spec_witness :
    (List.Perm (id (trueIdxs [true, false, true, true])) (trueIdxs [true, false, true, true])) ∧
    ((sample_from_mask id [true, false, true, true] 2 = none ↔
      countTrue [true, false, true, true] < 2) ∧
    (∀ s, sample_from_mask id [true, false, true, true] 2 = some s →
      countTrue s = 2 ∧ s.length = [true, false, true, true].length ∧
      ∀ i, s.getD i false = true → [true, false, true, true].getD i false = true)) :=
  ⟨List.Perm.refl _, sample_from_mask_spec id [true, false, true, true] 2
    (List.Perm.refl _)⟩

/-! ### `graph_make_symmetric` (`src/data/util.py:435`)

```python
n = edge_index.max() + 1
A = sp.coo_matrix((np.ones(edge_index.shape[1]), edge_index), shape=(n, n))
A = A + A.T
return np.array(A.nonzero())
```

`A.nonzero()` on the summed sparse matrix lists, in row-major order and
without duplicates, exactly the pairs `(i, j)` such that `(i, j)` or
`(j, i)` occurs among the input edges (the summed weights are positive, so
no cancellation can occur).  `edge_index.max()` raises `ValueError` on an
empty edge list, modelled by `none`. -/

/-- `edge_index.max()`: largest endpoint occurring in the edge list,
`none` for an empty list (numpy raises on an empty reduction). -/
def maxEndpoint : List (Nat × Nat) → Option Nat
  | [] => none
  | e :: es =>
    some (match maxEndpoint es with
      | none => max e.1 e.2
      | some m => max (max e.1 e.2) m)

/-- The row-major listing of the nonzero entries of `A + A.T` over the
`(m+1) × (m+1)` grid. -/
def gridSym (es : List (Nat × Nat)) (m : Nat) : List (Nat × Nat) :=
  (List.range (m + 1)).flatMap (fun i =>
    (List.range (m + 1)).filterMap (fun j =>
      if (i, j) ∈ es ∨ (j, i) ∈ es then some (i, j) else none))

/-- `graph_make_symmetric`. -/
def graph_make_symmetric (es : List (Nat × Nat)) : Option (List (Nat × Nat)) :=
  match maxEndpoint es with
  | none => none
  | some m => some (gridSym es m)

theorem graph_make_symmetric_eq (es : List (Nat × Nat)) (m : Nat)
    (h : maxEndpoint es = some m) :
    graph_make_symmetric es = some (gridSym es m) := by
  unfold graph_make_symmetric
  rw [h]

theorem maxEndpoint_isSome (es : List (Nat × Nat)) (h : es ≠ []) :
    ∃ m, maxEndpoint es = some m := by
  cases es with
  | nil => exact absurd rfl h
  | cons e es => exact ⟨_, rfl⟩

theorem maxEndpoint_le (es : List (Nat × Nat)) (m : Nat)
    (h : maxEndpoint es = some m) : ∀ e ∈ es, e.1 ≤ m ∧ e.2 ≤ m := by
  induction es generalizing m with
  | nil => simp [maxEndpoint] at h
  | cons e es ih =>
    intro e' he'
    rw [maxEndpoint] at h
    injection h with h
    rcases List.mem_cons.1 he' with rfl | he'
    · cases hes : maxEndpoint es with
      | none => rw [hes] at h; simp at h ⊢; omega
      | some k => rw [hes] at h; simp at h ⊢; omega
    · cases hes : maxEndpoint es with
      | none =>
        cases es with
        | nil => cases he'
        | cons f fs => simp [maxEndpoint] at hes
      | some k =>
        rw [hes] at h
        have := ih k hes e' he'
        simp at h
        omega

theorem maxEndpoint_mem (es : List (Nat × Nat)) (m : Nat)
    (h : maxEndpoint es = some m) : ∃ e ∈ es, e.1 = m ∨ e.2 = m := by
  induction es generalizing m with
  | nil => simp [maxEndpoint] at h
  | cons e es ih =>
    rw [maxEndpoint] at h
    injection h with h
    cases hes : maxEndpoint es with
    | none =>
      rw [hes] at h
      refine ⟨e, List.mem_cons_self _ _, ?_⟩
      simp at h
      omega
    | some k =>
      rw [hes] at h
      by_cases hk : max e.1 e.2 ≥ k
      · refine ⟨e, List.mem_cons_self _ _, ?_⟩
        simp at h
        omega
      · rcases ih k hes with ⟨f, hf, hfk⟩
        refine ⟨f, List.mem_cons_of_mem _ hf, ?_⟩
        simp at h
        omega

theorem maxEndpoint_eq (es : List (Nat × Nat)) (m : Nat) (hne : es ≠ [])
    (hle : ∀ e ∈ es, e.1 ≤ m ∧ e.2 ≤ m) (hmem : ∃ e ∈ es, e.1 = m ∨ e.2 = m) :
    maxEndpoint es = some m := by
  rcases maxEndpoint_isSome es hne with ⟨k, hk⟩
  rw [hk]
  congr 1
  have h1 := maxEndpoint_le es k hk
  rcases maxEndpoint_mem es k hk with ⟨e, he, hek⟩
  rcases hmem with ⟨f, hf, hfm⟩
  have := h1 f hf
  have := hle e he
  omega

/-- Membership in the symmetrized edge list: exactly the input edges and
their reverses. -/
theorem mem_graph_make_symmetric (es r : List (Nat × Nat))
    (h : graph_make_symmetric es = some r) (p : Nat × Nat) :
    p ∈ r ↔ (p ∈ es ∨ (p.2, p.1) ∈ es) := by
  rcases maxEndpoint_isSome es (by rintro rfl; cases h) with ⟨m, hm⟩
  rw [graph_make_symmetric_eq es m hm] at h
  injection h with h
  subst h
  rw [gridSym, List.mem_flatMap]
  constructor
  · rintro ⟨i, _, hp⟩
    rcases List.mem_filterMap.1 hp with ⟨j, _, hj⟩
    by_cases hc : (i, j) ∈ es ∨ (j, i) ∈ es
    · rw [if_pos hc] at hj
      injection hj with hj
      subst hj
      exact hc
    · rw [if_neg hc] at hj
      cases hj
  · intro hc
    have hb : p.1 ≤ m ∧ p.2 ≤ m := by
      rcases hc with hc | hc
      · exact maxEndpoint_le es m hm p hc
      · have := maxEndpoint_le es m hm _ hc
        exact ⟨this.2, this.1⟩
    refine ⟨p.1, List.mem_range.2 (by omega), List.mem_filterMap.2
      ⟨p.2, List.mem_range.2 (by omega), ?_⟩⟩
    rw [if_pos hc]

theorem nodup_filterMap_if_pair {P : Nat → Prop} [DecidablePred P]
    (i : Nat) (l : List Nat) (hl : l.Nodup) :
    (l.filterMap (fun j => if P j then some (i, j) else none)).Nodup := by
  induction l with
  | nil => simp
  | cons j l ih =>
    rw [List.filterMap_cons]
    have ihl := ih (List.nodup_cons.1 hl).2
    by_cases hp : P j
    · rw [if_pos hp]
      refine List.nodup_cons.2 ⟨?_, ihl⟩
      intro hmem
      rcases List.mem_filterMap.1 hmem with ⟨a, ha, hae⟩
      by_cases hpa : P a
      · rw [if_pos hpa] at hae
        injection hae with hae
        have : a = j := congrArg Prod.snd hae
        exact (List.nodup_cons.1 hl).1 (this ▸ ha)
      · rw [if_neg hpa] at hae
        cases hae
    · rw [if_neg hp]
      exact ihl

theorem fst_of_mem_filterMap_if_pair {P : Nat → Prop} [DecidablePred P]
    (i : Nat) (l : List Nat) (p : Nat × Nat)
    (h : p ∈ l.filterMap (fun j => if P j then some (i, j) else none)) :
    p.1 = i := by
  rcases List.mem_filterMap.1 h with ⟨a, _, hae⟩
  by_cases hpa : P a
  · rw [if_pos hpa] at hae
    injection hae with hae
    exact (congrArg Prod.fst hae).symm
  · rw [if_neg hpa] at hae
    cases hae

theorem nodup_flatMap_rows (l : List Nat) (f : Nat → List (Nat × Nat))
    (hl : l.Nodup) (hrow : ∀ i, (f i).Nodup)
    (hfst : ∀ i p, p ∈ f i → p.1 = i) : (l.flatMap f).Nodup := by
  induction l with
  | nil => simp
  | cons i l ih =>
    rw [List.flatMap_cons]
    refine List.Nodup.append (hrow i) (ih (List.nodup_cons.1 hl).2) ?_
    intro p hp hp'
    rcases List.mem_flatMap.1 hp' with ⟨j, hj, hpj⟩
    have h1 := hfst i p hp
    have h2 := hfst j p hpj
    exact (List.nodup_cons.1 hl).1 (by rw [← h2, h1] at hj; exact hj)

theorem nodup_graph_make_symmetric (es r : List (Nat × Nat))
    (h : graph_make_symmetric es = some r) : r.Nodup := by
  rcases maxEndpoint_isSome es (by rintro rfl; cases h) with ⟨m, hm⟩
  rw [graph_make_symmetric_eq es m hm] at h
  injection h with h
  subst h
  rw [gridSym]
  refine nodup_flatMap_rows _ _ (List.nodup_range _) ?_ ?_
  · intro i
    exact nodup_filterMap_if_pair i _ (List.nodup_range _)
  · intro i p hp
    exact fst_of_mem_filterMap_if_pair i _ p hp

/-- **C8 counterexample.** On an empty edge list `graph_make_symmetric`
raises (`edge_index.max()` on an empty array) instead of returning an edge
set, so the claim's universal quantification over "every edge list" fails
at `[]`. -/
theorem graph_make_symmetric_empty : graph_make_symmetric [] = none := rfl

/-- **C8 (amended).** For every nonempty edge list, `graph_make_symmetric`
succeeds; a single application yields exactly the union of the original
edges and their reverses with multi-edges collapsed to one, and a second
application returns the very same edge list (idempotence). -/
theorem graph_make_symmetric_idempotent (es : List (Nat × Nat)) (h : es ≠ []) :
    ∃ r, graph_make_symmetric es = some r ∧
      graph_make_symmetric r = some r ∧
      (∀ p : Nat × Nat, p ∈ r ↔ (p ∈ es ∨ (p.2, p.1) ∈ es)) ∧ r.Nodup := by
  rcases maxEndpoint_isSome es h with ⟨m, hm⟩
  have hr : graph_make_symmetric es = some (gridSym es m) :=
    graph_make_symmetric_eq es m hm
  set r := gridSym es m with hrdef
  have hmem := mem_graph_make_symmetric es r hr
  refine ⟨r, hr, ?_, hmem, nodup_graph_make_symmetric es r hr⟩
  -- second application: same maximum endpoint, and the membership
  -- condition over `r` is pointwise equivalent to the one over `es`
  have hrne : r ≠ [] := by
    rcases maxEndpoint_mem es m hm with ⟨e, he, _⟩
    intro hcon
    have : e ∈ r := (hmem e).2 (Or.inl he)
    rw [hcon] at this
    cases this
  have hrmax : maxEndpoint r = some m := by
    refine maxEndpoint_eq r m hrne ?_ ?_
    · intro e he
      rcases (hmem e).1 he with hc | hc
      · exact maxEndpoint_le es m hm e hc
      · have := maxEndpoint_le es m hm _ hc
        exact ⟨this.2, this.1⟩
    · rcases maxEndpoint_mem es m hm with ⟨e, he, hek⟩
      exact ⟨e, (hmem e).2 (Or.inl he), hek⟩
  -- both applications enumerate the same grid with equivalent conditions
  rw [graph_make_symmetric_eq r m hrmax]
  congr 1
  rw [hrdef]
  show gridSym r m = gridSym es m
  unfold gridSym
  apply List.flatMap_congr
  intro i _
  apply List.filterMap_congr
  intro j _
  have hcond : ((i, j) ∈ r ∨ (j, i) ∈ r) ↔ ((i, j) ∈ es ∨ (j, i) ∈ es) := by
    rw [hmem (i, j), hmem (j, i)]
    tauto
  by_cases hc : (i, j) ∈ es ∨ (j, i) ∈ es
  · rw [if_pos (hcond.2 hc), if_pos hc]
  · rw [if_neg (fun hcr => hc (hcond.1 hcr)), if_neg hc]

/-- C8 witness: the amended idempotence theorem applied to the one-edge list
`[(0, 1)]`. -/
theorem graph_make_symmetric_idempotent_witness :
    (([((0 : Nat), (1 : Nat))] : List (Nat × Nat)) ≠ []) ∧
    (∃ r, graph_make_symmetric [((0 : Nat), (1 : Nat))] = some r ∧
      graph_make_symmetric r = some r ∧
      (∀ p : Nat × Nat, p ∈ r ↔ (p ∈ [((0 : Nat), (1 : Nat))] ∨
        (p.2, p.1) ∈ [((0 : Nat), (1 : Nat))])) ∧ r.Nodup) :=
  ⟨by decide, graph_make_symmetric_idempotent [(0, 1)] (by decide)⟩

/-! ### Association lists modelling Python dicts -/

/-- Python dict lookup `d[k]` / `d.get(k)`: first (unique) matching key. -/
def alookup {κ ν : Type} [DecidableEq κ] : List (κ × ν) → κ → Option ν
  | [], _ => none
  | p :: l, k => if p.1 = k then some p.2 else alookup l k

/-- Python dict assignment `d[k] = v`: overwrite in place if the key is
present, append otherwise. -/
def dinsert {κ ν : Type} [DecidableEq κ] : List (κ × ν) → κ → ν → List (κ × ν)
  | [], k, v => [(k, v)]
  | p :: l, k, v => if p.1 = k then (k, v) :: l else p :: dinsert l k v

theorem alookup_append {κ ν : Type} [DecidableEq κ] (l1 l2 : List (κ × ν))
    (k : κ) : alookup (l1 ++ l2) k =
      (match alookup l1 k with
       | some v => some v
       | none => alookup l2 k) := by
  induction l1 with
  | nil => simp [alookup]
  | cons p l1 ih =>
    by_cases hp : p.1 = k
    · simp [alookup, hp]
    · simp [alookup, hp, ih]

theorem alookup_mem {κ ν : Type} [DecidableEq κ] (l : List (κ × ν)) (k : κ)
    (v : ν) (h : alookup l k = some v) : (k, v) ∈ l := by
  induction l with
  | nil => cases h
  | cons p l ih =>
    rw [alookup] at h
    by_cases hp : p.1 = k
    · rw [if_pos hp] at h
      injection h with h
      subst h
      subst hp
      exact List.mem_cons_self _ _
    · rw [if_neg hp] at h
      exact List.mem_cons_of_mem _ (ih h)

theorem alookup_of_mem_nodupKeys {κ ν : Type} [DecidableEq κ]
    (l : List (κ × ν)) (hk : (l.map Prod.fst).Nodup) (k : κ) (v : ν)
    (h : (k, v) ∈ l) : alookup l k = some v := by
  induction l with
  | nil => cases h
  | cons p l ih =>
    rw [List.map_cons, List.nodup_cons] at hk
    rcases List.mem_cons.1 h with rfl | h
    · rw [alookup, if_pos rfl]
    · rw [alookup]
      by_cases hp : p.1 = k
      · exact absurd (hp ▸ List.mem_map.2 ⟨(k, v), h, rfl⟩) hk.1
      · rw [if_neg hp]
        exact ih hk.2 h

theorem alookup_isSome_iff {κ ν : Type} [DecidableEq κ] (l : List (κ × ν))
    (k : κ) : (alookup l k).isSome ↔ k ∈ l.map Prod.fst := by
  induction l with
  | nil => simp [alookup]
  | cons p l ih =>
    by_cases hp : p.1 = k
    · simp [alookup, hp]
    · simp [alookup, hp, ih, Ne.symm hp]

theorem alookup_none_iff {κ ν : Type} [DecidableEq κ] (l : List (κ × ν))
    (k : κ) : alookup l k = none ↔ k ∉ l.map Prod.fst := by
  rw [← alookup_isSome_iff, Option.not_isSome_iff_eq_none]

/-- A value-injective association list assigns equal values only to equal
keys. -/
theorem snd_nodup_inj {κ ν : Type} (l : List (κ × ν))
    (hv : (l.map Prod.snd).Nodup) {p q : κ × ν} (hp : p ∈ l) (hq : q ∈ l)
    (hpq : p.2 = q.2) : p = q := by
  induction l with
  | nil => cases hp
  | cons a l ih =>
    rw [List.map_cons, List.nodup_cons] at hv
    rcases List.mem_cons.1 hp with rfl | hp <;>
      rcases List.mem_cons.1 hq with h | hq
    · exact h.symm
    · exact absurd (hpq ▸ List.mem_map.2 ⟨q, hq, rfl⟩) hv.1
    · exact absurd (hpq ▸ List.mem_map.2 ⟨p, hp, rfl⟩) (h ▸ hv.1)
    · exact ih hv.2 hp hq

theorem dinsert_eq_append {κ ν : Type} [DecidableEq κ] (l : List (κ × ν))
    (k : κ) (v : ν) (h : alookup l k = none) : dinsert l k v = l ++ [(k, v)] := by
  induction l with
  | nil => rfl
  | cons p l ih =>
    rw [alookup] at h
    by_cases hp : p.1 = k
    · rw [if_pos hp] at h
      cases h
    · rw [if_neg hp] at h
      rw [dinsert, if_neg hp, ih h]
      rfl

/-! ### `permute_label_to_idx_to_match` (`src/data/util.py:193`)

```python
remapping = dict()
for label, idx_new in label_to_idx_target.items():
    if label in label_to_idx_base:
        remapping[label_to_idx_base[label]] = idx_new
for label, idx_old in label_to_idx_base.items():
    if idx_old not in remapping:
        idx_new = min(set(range(max(remapping.values()) + 2)) - set(remapping.values()))
        remapping[idx_old] = idx_new
return remapping
```

`max()` of an empty sequence raises `ValueError`, modelled by `none`. -/

/-- `max(vals)` over Python ints; `none` on the empty sequence. -/
def listMaxI : List Int → Option Int
  | [] => none
  | v :: l =>
    some (match listMaxI l with
      | none => v
      | some m => max v m)

/-- `min(vals)` over Python ints; `none` on the empty sequence. -/
def listMinI : List Int → Option Int
  | [] => none
  | v :: l =>
    some (match listMinI l with
      | none => v
      | some m => min v m)

/-- Python `range(a)` over ints: `[0, 1, ..., a-1]`, empty when `a ≤ 0`. -/
def pyRange (a : Int) : List Int :=
  if a ≤ 0 then [] else (List.range a.toNat).map (fun (k : Nat) => (k : Int))

/-- `min(set(range(max(vals) + 2)) - set(vals))`: the id allocated for a
label not fixed by the target.  `none` when `vals` is empty (`max()`
raises) or when the range is empty. -/
def alloc (vals : List Int) : Option Int :=
  match listMaxI vals with
  | none => none
  | some m => listMinI ((pyRange (m + 2)).filter (fun v => v ∉ vals))

theorem listMaxI_le (l : List Int) (m : Int) (h : listMaxI l = some m) :
    ∀ v ∈ l, v ≤ m := by
  induction l generalizing m with
  | nil => cases h
  | cons v l ih =>
    intro w hw
    cases hl : listMaxI l with
    | none =>
      simp only [listMaxI, hl] at h
      injection h with h
      rcases List.mem_cons.1 hw with rfl | hw
      · omega
      · cases l with
        | nil => cases hw
        | cons a t => simp [listMaxI] at hl
    | some k =>
      simp only [listMaxI, hl] at h
      injection h with h
      rcases List.mem_cons.1 hw with rfl | hw
      · rw [← h]
        exact le_max_left _ _
      · exact le_trans (ih k hl w hw) (by rw [← h]; exact le_max_right _ _)

theorem listMaxI_mem (l : List Int) (m : Int) (h : listMaxI l = some m) :
    m ∈ l := by
  induction l generalizing m with
  | nil => cases h
  | cons v l ih =>
    cases hl : listMaxI l with
    | none =>
      simp only [listMaxI, hl] at h
      injection h with h
      exact h ▸ List.mem_cons_self _ _
    | some k =>
      simp only [listMaxI, hl] at h
      injection h with h
      rcases le_total k v with hkv | hkv
      · have : m = v := by rw [← h]; exact (max_eq_left hkv).symm ▸ rfl
        exact this ▸ List.mem_cons_self _ _
      · have : m = k := by rw [← h]; exact (max_eq_right hkv).symm ▸ rfl
        exact List.mem_cons_of_mem _ (this ▸ ih k hl)

theorem listMinI_le (l : List Int) (m : Int) (h : listMinI l = some m) :
    ∀ v ∈ l, m ≤ v := by
  induction l generalizing m with
  | nil => cases h
  | cons v l ih =>
    intro w hw
    cases hl : listMinI l with
    | none =>
      simp only [listMinI, hl] at h
      injection h with h
      rcases List.mem_cons.1 hw with rfl | hw
      · omega
      · cases l with
        | nil => cases hw
        | cons a t => simp [listMinI] at hl
    | some k =>
      simp only [listMinI, hl] at h
      injection h with h
      rcases List.mem_cons.1 hw with rfl | hw
      · rw [← h]
        exact min_le_left _ _
      · exact le_trans (by rw [← h]; exact min_le_right _ _) (ih k hl w hw)

theorem listMinI_mem (l : List Int) (m : Int) (h : listMinI l = some m) :
    m ∈ l := by
  induction l generalizing m with
  | nil => cases h
  | cons v l ih =>
    cases hl : listMinI l with
    | none =>
      simp only [listMinI, hl] at h
      injection h with h
      exact h ▸ List.mem_cons_self _ _
    | some k =>
      simp only [listMinI, hl] at h
      injection h with h
      rcases le_total v k with hkv | hkv
      · have : m = v := by rw [← h]; exact (min_eq_left hkv).symm ▸ rfl
        exact this ▸ List.mem_cons_self _ _
      · have : m = k := by rw [← h]; exact (min_eq_right hkv).symm ▸ rfl
        exact List.mem_cons_of_mem _ (this ▸ ih k hl)

theorem listMinI_isSome (l : List Int) (h : l ≠ []) :
    ∃ m, listMinI l = some m := by
  cases l with
  | nil => exact absurd rfl h
  | cons v l => exact ⟨_, rfl⟩

theorem mem_pyRange (a v : Int) : v ∈ pyRange a ↔ 0 ≤ v ∧ v < a := by
  unfold pyRange
  by_cases ha : a ≤ 0
  · rw [if_pos ha]
    simp only [List.not_mem_nil, false_iff]
    omega
  · rw [if_neg ha, List.mem_map]
    constructor
    · rintro ⟨k, hk, rfl⟩
      rw [List.mem_range] at hk
      omega
    · rintro ⟨h0, hv⟩
      exact ⟨v.toNat, List.mem_range.2 (by omega), by omega⟩

theorem foldr_max_ge (l : List Nat) : ∀ v ∈ l, v ≤ l.foldr max 0 := by
  induction l with
  | nil =>
    intro v hv
    cases hv
  | cons w l ih =>
    intro v hv
    rcases List.mem_cons.1 hv with rfl | hv
    · exact le_max_left _ _
    · exact le_trans (ih v hv) (le_max_right _ _)

/-- Every finite list of ints misses some natural number. -/
theorem exists_nat_not_mem (vals : List Int) : ∃ k : Nat, (k : Int) ∉ vals := by
  refine ⟨(vals.map Int.natAbs).foldr max 0 + 1, fun hmem => ?_⟩
  have h1 : ((((vals.map Int.natAbs).foldr max 0 + 1 : Nat) : Int)).natAbs ∈
      vals.map Int.natAbs := List.mem_map.2 ⟨_, hmem, rfl⟩
  have h2 := foldr_max_ge (vals.map Int.natAbs) _ h1
  simp only [Int.natAbs_ofNat] at h2
  omega

/-- The least natural number (as an integer) not occurring in `vals` — the
"smallest unused idx" in the specification's wording. -/
def smallestFresh (vals : List Int) : Int :=
  (Nat.find (exists_nat_not_mem vals) : Int)

theorem smallestFresh_not_mem (vals : List Int) : smallestFresh vals ∉ vals :=
  Nat.find_spec (exists_nat_not_mem vals)

theorem smallestFresh_nonneg (vals : List Int) : 0 ≤ smallestFresh vals :=
  Int.natCast_nonneg _

theorem smallestFresh_min (vals : List Int) (w : Int) (h0 : 0 ≤ w)
    (hw : w < smallestFresh vals) : w ∈ vals := by
  have hlt : w.toNat < Nat.find (exists_nat_not_mem vals) := by
    unfold smallestFresh at hw
    omega
  have := Nat.find_min (exists_nat_not_mem vals) hlt
  rw [not_not] at this
  have heq : ((w.toNat : Nat) : Int) = w := by omega
  exact heq ▸ this

theorem smallestFresh_eq (vals : List Int) (v : Int) (h0 : 0 ≤ v)
    (hnm : v ∉ vals) (hmin : ∀ w, 0 ≤ w → w < v → w ∈ vals) :
    smallestFresh vals = v := by
  rcases lt_trichotomy (smallestFresh vals) v with h | h | h
  · exact absurd (hmin _ (smallestFresh_nonneg vals) h)
      (smallestFresh_not_mem vals)
  · exact h
  · exact absurd (smallestFresh_min vals v h0 h) hnm

theorem alloc_eq (vals : List Int) (v : Int) (h : alloc vals = some v) :
    v = smallestFresh vals ∧ vals ≠ [] := by
  unfold alloc at h
  cases hm : listMaxI vals with
  | none => rw [hm] at h; cases h
  | some m =>
    rw [hm] at h
    have hvmem := listMinI_mem _ _ h
    rw [List.mem_filter] at hvmem
    have hvr := (mem_pyRange (m + 2) v).1 hvmem.1
    have hvnm : v ∉ vals := by
      have := hvmem.2
      simpa using this
    have hmin : ∀ w, 0 ≤ w → w < v → w ∈ vals := by
      intro w hw0 hwv
      by_contra hwn
      have hwr : w ∈ pyRange (m + 2) := (mem_pyRange (m + 2) w).2 ⟨hw0, by omega⟩
      have : w ∈ (pyRange (m + 2)).filter (fun v => v ∉ vals) :=
        List.mem_filter.2 ⟨hwr, by simpa using hwn⟩
      have := listMinI_le _ _ h w this
      omega
    constructor
    · exact (smallestFresh_eq vals v hvr.1 hvnm hmin).symm
    · intro hcon
      rw [hcon] at hm
      cases hm

theorem listMaxI_isSome (l : List Int) (h : l ≠ []) :
    ∃ m, listMaxI l = some m := by
  cases l with
  | nil => exact absurd rfl h
  | cons v l => exact ⟨_, rfl⟩

theorem alloc_isSome (vals : List Int) (hne : vals ≠ [])
    (hnn : ∀ v ∈ vals, 0 ≤ v) : ∃ v, alloc vals = some v := by
  rcases listMaxI_isSome vals hne with ⟨m, hm⟩
  have hm0 : 0 ≤ m := hnn m (listMaxI_mem vals m hm)
  have hmem : (m + 1) ∈ (pyRange (m + 2)).filter (fun v => v ∉ vals) := by
    refine List.mem_filter.2 ⟨(mem_pyRange _ _).2 ⟨by omega, by omega⟩, ?_⟩
    have : m + 1 ∉ vals := by
      intro hc
      have := listMaxI_le vals m hm _ hc
      omega
    simpa using this
  have hne2 : (pyRange (m + 2)).filter (fun v => v ∉ vals) ≠ [] := by
    intro hc
    rw [hc] at hmem
    cases hmem
  rcases listMinI_isSome _ hne2 with ⟨v, hv⟩
  refine ⟨v, ?_⟩
  unfold alloc
  rw [hm]
  exact hv

/-- First loop of `permute_label_to_idx_to_match`: force the base id of
every label shared with the target to the target's id. -/
def firstPass {L : Type} [DecidableEq L] (base : List (L × Int)) :
    List (L × Int) → List (Int × Int) → List (Int × Int)
  | [], r => r
  | p :: t, r =>
    firstPass base t
      (match alookup base p.1 with
       | some idxOld => dinsert r idxOld p.2
       | none => r)

/-- The forced part of the remapping, written directly: one entry
`(base id, target id)` per target item whose label occurs in the base. -/
def sharedList {L : Type} [DecidableEq L] (base t : List (L × Int)) :
    List (Int × Int) :=
  t.filterMap (fun p => (alookup base p.1).map (fun bi => (bi, p.2)))

/-- Second loop of `permute_label_to_idx_to_match`: allocate
`min(set(range(max(remapping.values()) + 2)) - set(remapping.values()))`
for every base id not already remapped.  `none` models the `ValueError`
raised by `max()` on an empty value set. -/
def secondPass {L : Type} [DecidableEq L] :
    List (Int × Int) → List (L × Int) → Option (List (Int × Int))
  | r, [] => some r
  | r, p :: b =>
    if (alookup r p.2).isSome then secondPass r b
    else
      match alloc (r.map Prod.snd) with
      | none => none
      | some idxNew => secondPass (r ++ [(p.2, idxNew)]) b

/-- `permute_label_to_idx_to_match`. -/
def permute_label_to_idx_to_match {L : Type} [DecidableEq L]
    (base target : List (L × Int)) : Option (List (Int × Int)) :=
  secondPass (firstPass base target []) base

/-- Specification-side variant of the second loop, following the spec's
wording: a base id not fixed by the target is assigned the smallest
non-negative integer not yet used in the output mapping at the time of its
assignment. -/
def secondPassSpec {L : Type} [DecidableEq L] :
    List (Int × Int) → List (L × Int) → List (Int × Int)
  | r, [] => r
  | r, p :: b =>
    if (alookup r p.2).isSome then secondPassSpec r b
    else secondPassSpec (r ++ [(p.2, smallestFresh (r.map Prod.snd))]) b

/-- Specification-side variant of `permute_label_to_idx_to_match`
(smallest-unused-id allocation as worded in the spec). -/
def permuteSpec {L : Type} [DecidableEq L] (base target : List (L × Int)) :
    List (Int × Int) :=
  secondPassSpec (firstPass base target []) base

theorem nodup_fst_pairwise {A B : Type} (t : List (A × B))
    (h : (t.map Prod.fst).Nodup) : t.Pairwise (fun p q => p.1 ≠ q.1) := by
  induction t with
  | nil => exact List.Pairwise.nil
  | cons p t ih =>
    rw [List.map_cons, List.nodup_cons] at h
    refine List.Pairwise.cons ?_ (ih h.2)
    intro q hq hpq
    exact h.1 (hpq ▸ List.mem_map.2 ⟨q, hq, rfl⟩)

theorem alookup_inj {L : Type} [DecidableEq L] (base : List (L × Int))
    (hbv : (base.map Prod.snd).Nodup) (l l' : L) (v v' : Int)
    (h : alookup base l = some v) (h' : alookup base l' = some v')
    (hne : l ≠ l') : v ≠ v' := by
  intro hvv
  have h1 := alookup_mem base l v h
  have h2 := alookup_mem base l' v' h'
  have := snd_nodup_inj base hbv h1 h2 (by simpa using hvv)
  exact hne (congrArg Prod.fst this)

theorem firstPass_eq {L : Type} [DecidableEq L] (base : List (L × Int))
    (hbv : (base.map Prod.snd).Nodup) :
    ∀ (t : List (L × Int)) (acc : List (Int × Int)),
    t.Pairwise (fun p q => p.1 ≠ q.1) →
    (∀ p ∈ t, ∀ bi, alookup base p.1 = some bi → alookup acc bi = none) →
    firstPass base t acc = acc ++ sharedList base t := by
  intro t
  induction t with
  | nil =>
    intro acc _ _
    simp [firstPass, sharedList]
  | cons p t ih =>
    intro acc hpair hfresh
    rw [List.pairwise_cons] at hpair
    cases hb : alookup base p.1 with
    | none =>
      simp only [firstPass, hb]
      rw [sharedList, List.filterMap_cons, hb]
      exact ih acc hpair.2 (fun q hq => hfresh q (List.mem_cons_of_mem _ hq))
    | some bi =>
      have hfr : alookup acc bi = none := hfresh p (List.mem_cons_self _ _) bi hb
      simp only [firstPass, hb]
      rw [dinsert_eq_append acc bi p.2 hfr]
      rw [sharedList, List.filterMap_cons, hb]
      have hstep : ∀ q ∈ t, ∀ bj, alookup base q.1 = some bj →
          alookup (acc ++ [(bi, p.2)]) bj = none := by
        intro q hq bj hbj
        rw [alookup_append, hfresh q (List.mem_cons_of_mem _ hq) bj hbj]
        show alookup [(bi, p.2)] bj = none
        rw [alookup, if_neg, alookup]
        intro he
        exact alookup_inj base hbv p.1 q.1 bi bj hb hbj
          (fun hpq => hpair.1 q hq hpq) he
      rw [ih (acc ++ [(bi, p.2)]) hpair.2 hstep, List.append_assoc]
      rfl

theorem mem_sharedList {L : Type} [DecidableEq L] (base t : List (L × Int))
    (k v : Int) : (k, v) ∈ sharedList base t ↔
      ∃ p ∈ t, alookup base p.1 = some k ∧ p.2 = v := by
  rw [sharedList, List.mem_filterMap]
  constructor
  · rintro ⟨p, hp, he⟩
    cases hb : alookup base p.1 with
    | none => rw [hb] at he; cases he
    | some bi =>
      rw [hb] at he
      injection he with he
      have h1 : bi = k := congrArg Prod.fst he
      have h2 : p.2 = v := congrArg Prod.snd he
      exact ⟨p, hp, by rw [hb, h1], h2⟩
  · rintro ⟨p, hp, hb, rfl⟩
    exact ⟨p, hp, by rw [hb]; rfl⟩

theorem mem_keys_sharedList {L : Type} [DecidableEq L] (base t : List (L × Int))
    (k : Int) : k ∈ (sharedList base t).map Prod.fst ↔
      ∃ p ∈ t, alookup base p.1 = some k := by
  constructor
  · intro h
    rcases List.mem_map.1 h with ⟨⟨k', v⟩, hm, he⟩
    cases he
    rcases (mem_sharedList base t k' v).1 hm with ⟨p, hp, hb, _⟩
    exact ⟨p, hp, hb⟩
  · rintro ⟨p, hp, hb⟩
    exact List.mem_map.2 ⟨(k, p.2), (mem_sharedList base t k p.2).2
      ⟨p, hp, hb, rfl⟩, rfl⟩

theorem sharedList_keys_nodup {L : Type} [DecidableEq L]
    (base t : List (L × Int)) (hbv : (base.map Prod.snd).Nodup)
    (hpair : t.Pairwise (fun p q => p.1 ≠ q.1)) :
    ((sharedList base t).map Prod.fst).Nodup := by
  induction t with
  | nil => simp [sharedList]
  | cons p t ih =>
    rw [List.pairwise_cons] at hpair
    rw [sharedList, List.filterMap_cons]
    cases hb : alookup base p.1 with
    | none => exact ih hpair.2
    | some bi =>
      show ((bi, p.2) :: sharedList base t).map Prod.fst |>.Nodup
      rw [List.map_cons]
      refine List.nodup_cons.2 ⟨?_, ih hpair.2⟩
      intro hmem
      rcases (mem_keys_sharedList base t bi).1 hmem with ⟨q, hq, hbq⟩
      exact alookup_inj base hbv p.1 q.1 bi bi hb hbq
        (fun hpq => hpair.1 q hq hpq) rfl

theorem sharedList_values_subset {L : Type} [DecidableEq L]
    (base t : List (L × Int)) (v : Int)
    (h : v ∈ (sharedList base t).map Prod.snd) : v ∈ t.map Prod.snd := by
  rcases List.mem_map.1 h with ⟨⟨k, v'⟩, hm, he⟩
  cases he
  rcases (mem_sharedList base t k v').1 hm with ⟨p, hp, _, hv⟩
  exact List.mem_map.2 ⟨p, hp, hv⟩

theorem sharedList_values_nodup {L : Type} [DecidableEq L]
    (base t : List (L × Int)) (htv : (t.map Prod.snd).Nodup) :
    ((sharedList base t).map Prod.snd).Nodup := by
  induction t with
  | nil => simp [sharedList]
  | cons p t ih =>
    rw [List.map_cons, List.nodup_cons] at htv
    rw [sharedList, List.filterMap_cons]
    cases hb : alookup base p.1 with
    | none => exact ih htv.2
    | some bi =>
      show ((bi, p.2) :: sharedList base t).map Prod.snd |>.Nodup
      rw [List.map_cons]
      refine List.nodup_cons.2 ⟨?_, ih htv.2⟩
      intro hmem
      exact htv.1 (sharedList_values_subset base t p.2 hmem)

theorem sharedList_forced {L : Type} [DecidableEq L]
    (base target : List (L × Int)) (hbv : (base.map Prod.snd).Nodup)
    (htk : (target.map Prod.fst).Nodup) (l : L) (bi ti : Int)
    (hb : alookup base l = some bi) (ht : alookup target l = some ti) :
    alookup (sharedList base target) bi = some ti := by
  have hmem : (bi, ti) ∈ sharedList base target :=
    (mem_sharedList base target bi ti).2
      ⟨(l, ti), alookup_mem target l ti ht, hb, rfl⟩
  exact alookup_of_mem_nodupKeys _
    (sharedList_keys_nodup base target hbv (nodup_fst_pairwise target htk))
    bi ti hmem

theorem secondPass_eq_spec {L : Type} [DecidableEq L] (b : List (L × Int)) :
    ∀ r rm, secondPass r b = some rm → rm = secondPassSpec r b := by
  induction b with
  | nil =>
    intro r rm h
    injection h with h
    rw [← h]
    rfl
  | cons p b ih =>
    intro r rm h
    rw [secondPass] at h
    rw [secondPassSpec]
    by_cases hs : (alookup r p.2).isSome
    · rw [if_pos hs] at h
      rw [if_pos hs]
      exact ih r rm h
    · rw [if_neg hs] at h
      rw [if_neg hs]
      cases ha : alloc (r.map Prod.snd) with
      | none => rw [ha] at h; cases h
      | some v =>
        rw [ha] at h
        have hv := (alloc_eq _ v ha).1
        rw [← hv]
        exact ih _ rm h

theorem secondPassSpec_preserves {L : Type} [DecidableEq L] (b : List (L × Int)) :
    ∀ r k v, alookup r k = some v → alookup (secondPassSpec r b) k = some v := by
  induction b with
  | nil =>
    intro r k v h
    exact h
  | cons p b ih =>
    intro r k v h
    rw [secondPassSpec]
    by_cases hs : (alookup r p.2).isSome
    · rw [if_pos hs]
      exact ih r k v h
    · rw [if_neg hs]
      refine ih _ k v ?_
      rw [alookup_append, h]

theorem secondPassSpec_inv {L : Type} [DecidableEq L] (b : List (L × Int)) :
    ∀ r, (r.map Prod.fst).Nodup → (r.map Prod.snd).Nodup →
      (∀ v ∈ r.map Prod.snd, 0 ≤ v) →
      ((secondPassSpec r b).map Prod.fst).Nodup ∧
      ((secondPassSpec r b).map Prod.snd).Nodup := by
  induction b with
  | nil =>
    intro r hk hv _
    exact ⟨hk, hv⟩
  | cons p b ih =>
    intro r hk hv hnn
    rw [secondPassSpec]
    by_cases hs : (alookup r p.2).isSome
    · rw [if_pos hs]
      exact ih r hk hv hnn
    · rw [if_neg hs]
      have hknew : p.2 ∉ r.map Prod.fst := by
        rw [← alookup_isSome_iff]
        exact hs
      have hvnew : smallestFresh (r.map Prod.snd) ∉ r.map Prod.snd :=
        smallestFresh_not_mem _
      refine ih _ ?_ ?_ ?_
      · rw [List.map_append]
        refine List.Nodup.append hk (List.nodup_singleton _) ?_
        intro x hx hx'
        rcases List.mem_singleton.1 hx' with rfl
        exact hknew hx
      · rw [List.map_append]
        refine List.Nodup.append hv (List.nodup_singleton _) ?_
        intro x hx hx'
        rcases List.mem_singleton.1 hx' with rfl
        exact hvnew hx
      · intro v hvm
        rw [List.map_append] at hvm
        rcases List.mem_append.1 hvm with hvm | hvm
        · exact hnn v hvm
        · rcases List.mem_singleton.1 hvm with rfl
          exact smallestFresh_nonneg _

theorem secondPass_isSome {L : Type} [DecidableEq L] (b : List (L × Int)) :
    ∀ r, r ≠ [] → (∀ v ∈ r.map Prod.snd, 0 ≤ v) →
      ∃ rm, secondPass r b = some rm := by
  induction b with
  | nil =>
    intro r _ _
    exact ⟨r, rfl⟩
  | cons p b ih =>
    intro r hne hnn
    rw [secondPass]
    by_cases hs : (alookup r p.2).isSome
    · rw [if_pos hs]
      exact ih r hne hnn
    · rw [if_neg hs]
      have hvals : r.map Prod.snd ≠ [] := by
        cases r with
        | nil => exact absurd rfl hne
        | cons q r => simp
      rcases alloc_isSome (r.map Prod.snd) hvals hnn with ⟨v, hv⟩
      rw [hv]
      refine ih _ (by simp) ?_
      intro w hw
      rw [List.map_append] at hw
      rcases List.mem_append.1 hw with hw | hw
      · exact hnn w hw
      · have hwv : w = v := List.mem_singleton.1 hw
        rw [hwv, (alloc_eq _ v hv).1]
        exact smallestFresh_nonneg _

/-- **C1.** Label alignment: under the LabelIndex invariants (both mappings
bijective, non-negative ids), and provided at least one label is shared
(or the base is empty, in which case `max()` is never taken — see C10),
`permute_label_to_idx_to_match` succeeds and returns a remapping that
(1) sends the base's id of every shared label to the target's id for it,
(2) assigns every other base id the smallest non-negative integer not yet
used at the time of its assignment (it coincides with the spec-side
`permuteSpec`), and is injective (no two old ids get the same new id), so
newly assigned ids never collide with forced target ids. -/
theorem permute_label_to_idx_to_match_spec {L : Type} [DecidableEq L]
    (base target : List (L × Int))
    (hbk : (base.map Prod.fst).Nodup) (hbv : (base.map Prod.snd).Nodup)
    (htk : (target.map Prod.fst).Nodup) (htv : (target.map Prod.snd).Nodup)
    (htv0 : ∀ p ∈ target, 0 ≤ p.2)
    (hsh : base = [] ∨ ∃ p ∈ target, (alookup base p.1).isSome) :
    ∃ rm, permute_label_to_idx_to_match base target = some rm ∧
      rm = permuteSpec base target ∧
      (∀ (l : L) (bi ti : Int), alookup base l = some bi →
        alookup target l = some ti → alookup rm bi = some ti) ∧
      (rm.map Prod.fst).Nodup ∧ (rm.map Prod.snd).Nodup := by
  have hfp : firstPass base target [] = sharedList base target :=
    firstPass_eq base hbv target [] (nodup_fst_pairwise target htk)
      (fun p _ bi _ => rfl)
  have hr0k := sharedList_keys_nodup base target hbv (nodup_fst_pairwise target htk)
  have hr0v := sharedList_values_nodup base target htv
  have hr0nn : ∀ v ∈ (sharedList base target).map Prod.snd, 0 ≤ v := by
    intro v hv
    rcases List.mem_map.1 (sharedList_values_subset base target v hv) with
      ⟨p, hp, he⟩
    exact he ▸ htv0 p hp
  have hsucc : ∃ rm, secondPass (sharedList base target) base = some rm := by
    rcases hsh with rfl | ⟨p, hp, hlook⟩
    · exact ⟨sharedList [] target, rfl⟩
    · rcases Option.isSome_iff_exists.1 hlook with ⟨bi, hbi⟩
      have : (bi, p.2) ∈ sharedList base target :=
        (mem_sharedList base target bi p.2).2 ⟨p, hp, hbi, rfl⟩
      refine secondPass_isSome base _ ?_ hr0nn
      intro hc
      rw [hc] at this
      cases this
  rcases hsucc with ⟨rm, hrm⟩
  have hspec : rm = secondPassSpec (sharedList base target) base :=
    secondPass_eq_spec base _ rm hrm
  have hperm : permute_label_to_idx_to_match base target = some rm := by
    rw [permute_label_to_idx_to_match, hfp]
    exact hrm
  have hps : rm = permuteSpec base target := by
    rw [permuteSpec, hfp]
    exact hspec
  have hinv := secondPassSpec_inv base (sharedList base target) hr0k hr0v hr0nn
  refine ⟨rm, hperm, hps, ?_, hspec ▸ hinv.1, hspec ▸ hinv.2⟩
  intro l bi ti hb ht
  rw [hspec]
  exact secondPassSpec_preserves base _ bi ti
    (sharedList_forced base target hbv htk l bi ti hb ht)

/-- C1 witness: the spec's own example, base `{A:0, B:1, C:2}` and target
`{B:0, C:5}`. -/
theorem permute_label_to_idx_to_match_spec_witness :
    ((([("A", 0), ("B", 1), ("C", 2)] : List (String × Int)).map Prod.fst).Nodup ∧
     (([("A", 0), ("B", 1), ("C", 2)] : List (String × Int)).map Prod.snd).Nodup ∧
     (([("B", 0), ("C", 5)] : List (String × Int)).map Prod.fst).Nodup ∧
     (([("B", 0), ("C", 5)] : List (String × Int)).map Prod.snd).Nodup ∧
     (∀ p ∈ ([("B", 0), ("C", 5)] : List (String × Int)), 0 ≤ p.2)) ∧
    (∃ rm, permute_label_to_idx_to_match
        ([("A", 0), ("B", 1), ("C", 2)] : List (String × Int)) [("B", 0), ("C", 5)] = some rm ∧
      rm = permuteSpec ([("A", 0), ("B", 1), ("C", 2)] : List (String × Int)) [("B", 0), ("C", 5)] ∧
      (∀ (l : String) (bi ti : Int),
        alookup ([("A", 0), ("B", 1), ("C", 2)] : List (String × Int)) l = some bi →
        alookup ([("B", 0), ("C", 5)] : List (String × Int)) l = some ti →
        alookup rm bi = some ti) ∧
      (rm.map Prod.fst).Nodup ∧ (rm.map Prod.snd).Nodup) :=
  ⟨⟨by decide, by decide, by decide, by decide, by decide⟩,
    permute_label_to_idx_to_match_spec [("A", 0), ("B", 1), ("C", 2)]
      [("B", 0), ("C", 5)] (by decide) (by decide) (by decide) (by decide)
      (by decide) (Or.inr ⟨("B", 0), by decide, by decide⟩)⟩

theorem firstPass_no_shared {L : Type} [DecidableEq L] (base : List (L × Int)) :
    ∀ (t : List (L × Int)) (acc : List (Int × Int)),
    (∀ p ∈ t, alookup base p.1 = none) → firstPass base t acc = acc := by
  intro t
  induction t with
  | nil =>
    intro acc _
    rfl
  | cons p t ih =>
    intro acc hns
    have hb : alookup base p.1 = none := hns p (List.mem_cons_self _ _)
    simp only [firstPass, hb]
    exact ih acc (fun q hq => hns q (List.mem_cons_of_mem _ hq))

/-- **C10.** When the base mapping is non-empty and shares no label with the
target, the first loop leaves the remapping empty, and the allocation step
takes `max()` of an empty value set: the call raises (`none`) instead of
returning a compressed remapping starting at 0. -/
theorem permute_label_to_idx_to_match_no_shared {L : Type} [DecidableEq L]
    (base target : List (L × Int)) (hne : base ≠ [])
    (hns : ∀ p ∈ target, alookup base p.1 = none) :
    permute_label_to_idx_to_match base target = none := by
  rw [permute_label_to_idx_to_match, firstPass_no_shared base target [] hns]
  cases base with
  | nil => exact absurd rfl hne
  | cons p b =>
    rw [secondPass]
    have hl : alookup ([] : List (Int × Int)) p.2 = none := rfl
    rw [if_neg (by rw [hl]; exact Bool.false_ne_true)]
    show (match alloc (([] : List (Int × Int)).map Prod.snd) with
      | none => none
      | some idxNew => secondPass ([] ++ [(p.2, idxNew)]) b) = none
    rfl

/-- C10 witness: base `{A:0}` and target `{B:0}` share no label; the call
raises. -/
theorem permute_label_to_idx_to_match_no_shared_witness :
    ((([("A", 0)] : List (String × Int)) ≠ []) ∧
     (∀ p ∈ ([("B", 0)] : List (String × Int)),
        alookup ([("A", 0)] : List (String × Int)) p.1 = none)) ∧
    permute_label_to_idx_to_match ([("A", 0)] : List (String × Int))
      [("B", 0)] = none :=
  ⟨⟨by decide, by decide⟩,
    permute_label_to_idx_to_match_no_shared [("A", 0)] [("B", 0)]
      (by decide) (by decide)⟩

/-! ### `graph_select_idxs` (`src/data/util.py:564`)

```python
N = x.shape[0]
x = x[mask]
y = y[mask]
A = sp.coo_matrix((np.ones(edge_index.shape[1]), edge_index), shape=(N, N))
A = A.tocsr()[mask].tocsc()[:, mask]
edge_index = np.array(A.nonzero())
idx_mapping = {idx_old : idx for idx, idx_old in enumerate(np.arange(N, dtype=int)[mask])}
vertex_to_idx = {v : idx_mapping[idx] for v, idx in vertex_to_idx.items() if idx in idx_mapping}
return x, edge_index, y, vertex_to_idx
```

The doubly masked sparse matrix lists, without duplicates and in its
storage order (column-major after `tocsc`), exactly the pairs of new
positions whose old positions form an input edge.  The sparse constructor
requires all endpoints `< N`; theorems carry that as a hypothesis. -/

/-- The old position of the `k`-th selected vertex (the `k`-th `true`
position of the mask, ascending). -/
def oldIdx (mask : List Bool) (k : Nat) : Nat :=
  (trueIdxs mask).getD k 0

/-- The masked-and-remapped edge list: new positions `(i, j)` (listed in
the column-major order of the `tocsc` storage) such that the corresponding
old positions form an input edge. -/
def selectEdges (mask : List Bool) (es : List (Nat × Nat)) : List (Nat × Nat) :=
  (List.range (countTrue mask)).flatMap (fun j =>
    (List.range (countTrue mask)).filterMap (fun i =>
      if (oldIdx mask i, oldIdx mask j) ∈ es then some (i, j) else none))

/-- The rebuilt vertex index: selected vertices only, remapped to their
dense rank among the selected positions. -/
def selectV2i {V : Type} (mask : List Bool) (v2i : List (V × Nat)) :
    List (V × Nat) :=
  v2i.filterMap (fun p =>
    if mask.getD p.2 false = true then some (p.1, maskRank mask p.2) else none)

/-- `graph_select_idxs`: returns `(x', edge_index', y', vertex_to_idx')`. -/
def graph_select_idxs {α V : Type} (mask : List Bool) (x : List α)
    (es : List (Nat × Nat)) (y : List Int) (v2i : List (V × Nat)) :
    List α × List (Nat × Nat) × List Int × List (V × Nat) :=
  (maskFilter mask x, selectEdges mask es, maskFilter mask y, selectV2i mask v2i)

theorem getD_map_succ (t : List Nat) (k : Nat) (hk : k < t.length) :
    (t.map (· + 1)).getD k 0 = t.getD k 0 + 1 := by
  induction t generalizing k with
  | nil => cases hk
  | cons a t ih =>
    cases k with
    | zero => rfl
    | succ k =>
      rw [List.map_cons, List.getD_cons_succ, List.getD_cons_succ]
      exact ih k (by simpa using Nat.lt_of_succ_lt_succ hk)

theorem maskRank_lt (m : List Bool) (i : Nat) (h : m.getD i false = true) :
    maskRank m i < countTrue m := by
  induction m generalizing i with
  | nil =>
    rw [List.getD_eq_default] at h
    · cases h
    · simp
  | cons b m ih =>
    cases i with
    | zero =>
      rw [List.getD_cons_zero] at h
      subst h
      show countTrue [] < countTrue (true :: m)
      simp [countTrue]
    | succ i =>
      rw [List.getD_cons_succ] at h
      have := ih i h
      cases b
      · show countTrue (false :: m.take i) < countTrue (false :: m)
        simpa [countTrue, maskRank] using this
      · show countTrue (true :: m.take i) < countTrue (true :: m)
        simpa [countTrue, maskRank] using this

theorem oldIdx_maskRank (m : List Bool) (i : Nat) (h : m.getD i false = true) :
    oldIdx m (maskRank m i) = i := by
  induction m generalizing i with
  | nil =>
    rw [List.getD_eq_default] at h
    · cases h
    · simp
  | cons b m ih =>
    cases i with
    | zero =>
      rw [List.getD_cons_zero] at h
      subst h
      rfl
    | succ i =>
      rw [List.getD_cons_succ] at h
      have hlt := maskRank_lt m i h
      have hlen := length_trueIdxs m
      have hih := ih i h
      rw [oldIdx] at hih
      cases b
      · show ((trueIdxs m).map (fun x => x + 1)).getD (maskRank m i) 0 = i + 1
        rw [getD_map_succ _ _ (by omega)]
        omega
      · show (0 :: (trueIdxs m).map (fun x => x + 1)).getD (maskRank m i + 1) 0 = i + 1
        rw [List.getD_cons_succ, getD_map_succ _ _ (by omega)]
        omega
theorem maskRank_oldIdx (m : List Bool) (k : Nat) (hk : k < countTrue m) :
    maskRank m (oldIdx m k) = k := by
  induction m generalizing k with
  | nil => simp [countTrue] at hk
  | cons b m ih =>
    cases b
    · have hk' : k < countTrue m := hk
      show maskRank (false :: m) (((trueIdxs m).map (fun x => x + 1)).getD k 0) = k
      rw [getD_map_succ _ _ (by rw [length_trueIdxs]; exact hk')]
      show countTrue (m.take ((trueIdxs m).getD k 0)) = k
      have := ih k hk'
      rw [maskRank, oldIdx] at this
      exact this
    · cases k with
      | zero => rfl
      | succ k =>
        have hk' : k < countTrue m := by
          have : countTrue (true :: m) = countTrue m + 1 := rfl
          omega
        show maskRank (true :: m) ((0 :: (trueIdxs m).map (fun x => x + 1)).getD (k + 1) 0) = k + 1
        rw [List.getD_cons_succ, getD_map_succ _ _ (by rw [length_trueIdxs]; exact hk')]
        show countTrue (m.take ((trueIdxs m).getD k 0)) + 1 = k + 1
        have := ih k hk'
        rw [maskRank, oldIdx] at this
        omega
theorem oldIdx_mem (m : List Bool) (k : Nat) (hk : k < countTrue m) :
    oldIdx m k ∈ trueIdxs m := by
  rw [oldIdx, List.getD_eq_getElem?_getD,
    List.getElem?_eq_getElem (by rw [length_trueIdxs]; exact hk)]
  exact List.getElem_mem _

theorem oldIdx_masked (m : List Bool) (k : Nat) (hk : k < countTrue m) :
    m.getD (oldIdx m k) false = true :=
  (mem_trueIdxs m _).1 (oldIdx_mem m k hk)

theorem getElem?_maskFilter {α : Type} (m : List Bool) (l : List α)
    (h : m.length = l.length) (k : Nat) (hk : k < countTrue m) :
    (maskFilter m l)[k]? = l[oldIdx m k]? := by
  induction m generalizing l k with
  | nil => simp [countTrue] at hk
  | cons b m ih =>
    cases l with
    | nil => simp at h
    | cons a l =>
      have hlen : m.length = l.length := by simpa using h
      cases b
      · have hk' : k < countTrue m := hk
        show (maskFilter m l)[k]? = (a :: l)[((trueIdxs m).map (fun x => x + 1)).getD k 0]?
        rw [getD_map_succ _ _ (by rw [length_trueIdxs]; exact hk'),
          List.getElem?_cons_succ, ih l hlen k hk']
        rfl
      · cases k with
        | zero =>
          show (a :: maskFilter m l)[0]? = (a :: l)[oldIdx (true :: m) 0]?
          have h0 : oldIdx (true :: m) 0 = 0 := rfl
          rw [h0, List.getElem?_cons_zero, List.getElem?_cons_zero]
        | succ k =>
          have hk' : k < countTrue m := by
            have : countTrue (true :: m) = countTrue m + 1 := rfl
            omega
          show (a :: maskFilter m l)[k + 1]? =
            (a :: l)[(0 :: (trueIdxs m).map (fun x => x + 1)).getD (k + 1) 0]?
          rw [List.getD_cons_succ, getD_map_succ _ _ (by rw [length_trueIdxs]; exact hk'),
            List.getElem?_cons_succ, List.getElem?_cons_succ, ih l hlen k hk']
          rfl
theorem mem_selectEdges (mask : List Bool) (es : List (Nat × Nat))
    (a b : Nat) : (a, b) ∈ selectEdges mask es ↔
      a < countTrue mask ∧ b < countTrue mask ∧
      (oldIdx mask a, oldIdx mask b) ∈ es := by
  rw [selectEdges, List.mem_flatMap]
  constructor
  · rintro ⟨j, hj, hp⟩
    rcases List.mem_filterMap.1 hp with ⟨i, hi, he⟩
    by_cases hc : (oldIdx mask i, oldIdx mask j) ∈ es
    · rw [if_pos hc] at he
      injection he with he
      have h1 : i = a := congrArg Prod.fst he
      have h2 : j = b := congrArg Prod.snd he
      subst h1
      subst h2
      exact ⟨List.mem_range.1 hi, List.mem_range.1 hj, hc⟩
    · rw [if_neg hc] at he
      cases he
  · rintro ⟨ha, hb, hc⟩
    exact ⟨b, List.mem_range.2 hb, List.mem_filterMap.2
      ⟨a, List.mem_range.2 ha, by rw [if_pos hc]⟩⟩

/-- **C3.** `graph_select_idxs` keeps exactly `mask.sum()` attribute rows
(the original rows at the masked positions, in order, and likewise for the
label vector); its edge list holds exactly the input edges with both
endpoints selected, remapped to dense positions; and the rebuilt vertex
index keeps exactly the selected vertices, renumbered 0, 1, 2, … in
ascending order of their old positions. -/
theorem graph_select_idxs_spec {α V : Type} (mask : List Bool) (x : List α)
    (es : List (Nat × Nat)) (y : List Int) (v2i : List (V × Nat))
    (hlm : mask.length = x.length) (hly : y.length = x.length)
    (hes : ∀ e ∈ es, e.1 < x.length ∧ e.2 < x.length) :
    (graph_select_idxs mask x es y v2i).1.length = countTrue mask ∧
    (∀ k, k < countTrue mask →
      (graph_select_idxs mask x es y v2i).1[k]? = x[oldIdx mask k]?) ∧
    (graph_select_idxs mask x es y v2i).2.2.1.length = countTrue mask ∧
    (∀ k, k < countTrue mask →
      (graph_select_idxs mask x es y v2i).2.2.1[k]? = y[oldIdx mask k]?) ∧
    (∀ a b, (a, b) ∈ (graph_select_idxs mask x es y v2i).2.1 ↔
      ∃ i j, (i, j) ∈ es ∧ mask.getD i false = true ∧ mask.getD j false = true ∧
        a = maskRank mask i ∧ b = maskRank mask j) ∧
    (∀ (v : V) (r : Nat), (v, r) ∈ (graph_select_idxs mask x es y v2i).2.2.2 ↔
      ∃ i, (v, i) ∈ v2i ∧ mask.getD i false = true ∧ r = maskRank mask i) := by
  show (maskFilter mask x).length = countTrue mask ∧
    (∀ k, k < countTrue mask → (maskFilter mask x)[k]? = x[oldIdx mask k]?) ∧
    (maskFilter mask y).length = countTrue mask ∧
    (∀ k, k < countTrue mask → (maskFilter mask y)[k]? = y[oldIdx mask k]?) ∧
    (∀ a b, (a, b) ∈ selectEdges mask es ↔
      ∃ i j, (i, j) ∈ es ∧ mask.getD i false = true ∧ mask.getD j false = true ∧
        a = maskRank mask i ∧ b = maskRank mask j) ∧
    (∀ (v : V) (r : Nat), (v, r) ∈ selectV2i mask v2i ↔
      ∃ i, (v, i) ∈ v2i ∧ mask.getD i false = true ∧ r = maskRank mask i)
  refine ⟨maskFilter_length mask x hlm, ?_,
    maskFilter_length mask y (by omega : mask.length = y.length), ?_, ?_, ?_⟩
  · intro k hk
    exact getElem?_maskFilter mask x hlm k hk
  · intro k hk
    exact getElem?_maskFilter mask y (by omega : mask.length = y.length) k hk
  · intro a b
    rw [mem_selectEdges]
    constructor
    · rintro ⟨ha, hb, hc⟩
      exact ⟨oldIdx mask a, oldIdx mask b, hc, oldIdx_masked mask a ha,
        oldIdx_masked mask b hb, (maskRank_oldIdx mask a ha).symm,
        (maskRank_oldIdx mask b hb).symm⟩
    · rintro ⟨i, j, hc, hi, hj, rfl, rfl⟩
      refine ⟨maskRank_lt mask i hi, maskRank_lt mask j hj, ?_⟩
      rw [oldIdx_maskRank mask i hi, oldIdx_maskRank mask j hj]
      exact hc
  · intro v r
    rw [selectV2i, List.mem_filterMap]
    constructor
    · rintro ⟨p, hp, he⟩
      by_cases hc : mask.getD p.2 false = true
      · rw [if_pos hc] at he
        injection he with he
        have h1 : p.1 = v := congrArg Prod.fst he
        have h2 : maskRank mask p.2 = r := congrArg Prod.snd he
        exact ⟨p.2, by rw [← h1]; exact hp, hc, h2.symm⟩
      · rw [if_neg hc] at he
        cases he
    · rintro ⟨i, hp, hc, rfl⟩
      exact ⟨(v, i), hp, by rw [if_pos hc]⟩

/-- C3 witness: a 3-vertex graph, mask selecting positions 0 and 2. -/
theorem graph_select_idxs_spec_witness :
    (([true, false, true] : List Bool).length = ([10, 20, 30] : List Int).length ∧
     ([0, 1, 2] : List Int).length = ([10, 20, 30] : List Int).length ∧
     ∀ e ∈ ([(0, 2), (1, 2), (2, 0)] : List (Nat × Nat)),
       e.1 < ([10, 20, 30] : List Int).length ∧ e.2 < ([10, 20, 30] : List Int).length) ∧
    ((graph_select_idxs [true, false, true] ([10, 20, 30] : List Int)
        [(0, 2), (1, 2), (2, 0)] [0, 1, 2] [("a", 0), ("b", 1), ("c", 2)]).1.length =
      countTrue [true, false, true] ∧
    (∀ k, k < countTrue [true, false, true] →
      (graph_select_idxs [true, false, true] ([10, 20, 30] : List Int)
        [(0, 2), (1, 2), (2, 0)] [0, 1, 2] [("a", 0), ("b", 1), ("c", 2)]).1[k]? =
        ([10, 20, 30] : List Int)[oldIdx [true, false, true] k]?) ∧
    (graph_select_idxs [true, false, true] ([10, 20, 30] : List Int)
        [(0, 2), (1, 2), (2, 0)] [0, 1, 2] [("a", 0), ("b", 1), ("c", 2)]).2.2.1.length =
      countTrue [true, false, true] ∧
    (∀ k, k < countTrue [true, false, true] →
      (graph_select_idxs [true, false, true] ([10, 20, 30] : List Int)
        [(0, 2), (1, 2), (2, 0)] [0, 1, 2] [("a", 0), ("b", 1), ("c", 2)]).2.2.1[k]? =
        ([0, 1, 2] : List Int)[oldIdx [true, false, true] k]?) ∧
    (∀ a b, (a, b) ∈ (graph_select_idxs [true, false, true] ([10, 20, 30] : List Int)
        [(0, 2), (1, 2), (2, 0)] [0, 1, 2] [("a", 0), ("b", 1), ("c", 2)]).2.1 ↔
      ∃ i j, (i, j) ∈ ([(0, 2), (1, 2), (2, 0)] : List (Nat × Nat)) ∧
        ([true, false, true] : List Bool).getD i false = true ∧
        ([true, false, true] : List Bool).getD j false = true ∧
        a = maskRank [true, false, true] i ∧ b = maskRank [true, false, true] j) ∧
    (∀ (v : String) (r : Nat),
      (v, r) ∈ (graph_select_idxs [true, false, true] ([10, 20, 30] : List Int)
        [(0, 2), (1, 2), (2, 0)] [0, 1, 2] [("a", 0), ("b", 1), ("c", 2)]).2.2.2 ↔
      ∃ i, (v, i) ∈ [("a", 0), ("b", 1), ("c", 2)] ∧
        ([true, false, true] : List Bool).getD i false = true ∧
        r = maskRank [true, false, true] i)) :=
  ⟨⟨by decide, by decide, by decide⟩,
    graph_select_idxs_spec [true, false, true] ([10, 20, 30] : List Int)
      [(0, 2), (1, 2), (2, 0)] [0, 1, 2] [("a", 0), ("b", 1), ("c", 2)]
      (by decide) (by decide) (by decide)⟩

/-! ### Connected components (`sp.csgraph.connected_components`)

`graph_get_largest_connected_component` builds the adjacency matrix of the
graph and calls `sp.csgraph.connected_components(A)` with its defaults
(`directed=True, connection='weak'`), i.e. components of the underlying
undirected graph.  We compute each vertex's component representative (the
smallest vertex weakly reachable from it) by `n`-fold neighbourhood
expansion; scipy's component labels are in bijection with these
representatives, numbered in ascending order of representative (labels are
assigned in discovery order while scanning vertices `0..n-1`), which is
all the downstream code observes (`np.unique` + counts + first `argmax`). -/

/-- `min` of a list of naturals; `none` on the empty list. -/
def listMinN : List Nat → Option Nat
  | [] => none
  | v :: l =>
    some (match listMinN l with
      | none => v
      | some m => min v m)

theorem listMinN_le (l : List Nat) (m : Nat) (h : listMinN l = some m) :
    ∀ v ∈ l, m ≤ v := by
  induction l generalizing m with
  | nil => cases h
  | cons v l ih =>
    intro w hw
    cases hl : listMinN l with
    | none =>
      simp only [listMinN, hl] at h
      injection h with h
      rcases List.mem_cons.1 hw with rfl | hw
      · omega
      · cases l with
        | nil => cases hw
        | cons a t => simp [listMinN] at hl
    | some k =>
      simp only [listMinN, hl] at h
      injection h with h
      rcases List.mem_cons.1 hw with rfl | hw
      · rw [← h]
        exact min_le_left _ _
      · exact le_trans (by rw [← h]; exact min_le_right _ _) (ih k hl w hw)

theorem listMinN_mem (l : List Nat) (m : Nat) (h : listMinN l = some m) :
    m ∈ l := by
  induction l generalizing m with
  | nil => cases h
  | cons v l ih =>
    cases hl : listMinN l with
    | none =>
      simp only [listMinN, hl] at h
      injection h with h
      exact h ▸ List.mem_cons_self _ _
    | some k =>
      simp only [listMinN, hl] at h
      injection h with h
      rcases le_total v k with hkv | hkv
      · have : m = v := by rw [← h]; exact (min_eq_left hkv).symm ▸ rfl
        exact this ▸ List.mem_cons_self _ _
      · have : m = k := by rw [← h]; exact (min_eq_right hkv).symm ▸ rfl
        exact List.mem_cons_of_mem _ (this ▸ ih k hl)

theorem listMinN_isSome (l : List Nat) (h : l ≠ []) :
    ∃ m, listMinN l = some m := by
  cases l with
  | nil => exact absurd rfl h
  | cons v l => exact ⟨_, rfl⟩

theorem listMinN_eq_of_spec (l : List Nat) (m : Nat) (hm : m ∈ l)
    (hle : ∀ v ∈ l, m ≤ v) : listMinN l = some m := by
  rcases listMinN_isSome l (by rintro rfl; cases hm) with ⟨k, hk⟩
  rw [hk]
  have h1 := listMinN_le l k hk m hm
  have h2 := hle k (listMinN_mem l k hk)
  congr 1
  omega

theorem listMinN_congr (l l' : List Nat) (h : ∀ u, u ∈ l ↔ u ∈ l') :
    listMinN l = listMinN l' := by
  cases hl : listMinN l with
  | none =>
    cases l' with
    | nil => rfl
    | cons v t =>
      cases l with
      | nil =>
        have := (h v).2 (List.mem_cons_self _ _)
        cases this
      | cons w u => cases hl
  | some m =>
    have hm := listMinN_mem l m hl
    have hle := listMinN_le l m hl
    exact ((listMinN_eq_of_spec l' m ((h m).1 hm)
      (fun v hv => hle v ((h v).2 hv)))).symm

/-- Neighbours of `v` taking edges in both directions (weak connectivity). -/
def nbrs (es : List (Nat × Nat)) (v : Nat) : List Nat :=
  (es.filter (fun e => e.1 = v)).map Prod.snd ++
    (es.filter (fun e => e.2 = v)).map Prod.fst

/-- One expansion step of the frontier set. -/
def reachStep (es : List (Nat × Nat)) (s : List Nat) : List Nat :=
  (s ++ s.flatMap (nbrs es)).dedup

/-- `fuel`-fold expansion; with `fuel = n` this is the full weak
reachability set of the start set. -/
def reachList (es : List (Nat × Nat)) (s : List Nat) : Nat → List Nat
  | 0 => s
  | fuel + 1 => reachStep es (reachList es s fuel)

/-- Weak (undirected) adjacency. -/
def Adj (es : List (Nat × Nat)) (a b : Nat) : Prop :=
  (a, b) ∈ es ∨ (b, a) ∈ es

/-- Weak reachability: the reflexive-transitive closure of adjacency. -/
def Reaches (es : List (Nat × Nat)) : Nat → Nat → Prop :=
  Relation.ReflTransGen (Adj es)

theorem Adj.symm {es : List (Nat × Nat)} {a b : Nat} (h : Adj es a b) :
    Adj es b a := h.elim Or.inr Or.inl

theorem reaches_symm (es : List (Nat × Nat)) {a b : Nat}
    (h : Reaches es a b) : Reaches es b a :=
  Relation.ReflTransGen.symmetric (fun _ _ hadj => hadj.symm) h

theorem mem_nbrs (es : List (Nat × Nat)) (v u : Nat) :
    u ∈ nbrs es v ↔ Adj es v u := by
  rw [nbrs, List.mem_append]
  constructor
  · rintro (h | h)
    · rcases List.mem_map.1 h with ⟨e, he, rfl⟩
      rw [List.mem_filter] at he
      have : e.1 = v := by simpa using he.2
      exact Or.inl (by rw [← this]; exact he.1)
    · rcases List.mem_map.1 h with ⟨e, he, rfl⟩
      rw [List.mem_filter] at he
      have : e.2 = v := by simpa using he.2
      exact Or.inr (by rw [← this]; exact he.1)
  · rintro (h | h)
    · exact Or.inl (List.mem_map.2 ⟨(v, u), List.mem_filter.2 ⟨h, by simp⟩, rfl⟩)
    · exact Or.inr (List.mem_map.2 ⟨(u, v), List.mem_filter.2 ⟨h, by simp⟩, rfl⟩)

theorem mem_reachStep (es : List (Nat × Nat)) (s : List Nat) (u : Nat) :
    u ∈ reachStep es s ↔ u ∈ s ∨ ∃ w ∈ s, Adj es w u := by
  rw [reachStep, List.mem_dedup, List.mem_append, List.mem_flatMap]
  constructor
  · rintro (h | ⟨w, hw, hu⟩)
    · exact Or.inl h
    · exact Or.inr ⟨w, hw, (mem_nbrs es w u).1 hu⟩
  · rintro (h | ⟨w, hw, hu⟩)
    · exact Or.inl h
    · exact Or.inr ⟨w, hw, (mem_nbrs es w u).2 hu⟩

theorem subset_reachStep (es : List (Nat × Nat)) (s : List Nat) (u : Nat)
    (h : u ∈ s) : u ∈ reachStep es s :=
  (mem_reachStep es s u).2 (Or.inl h)

theorem subset_reachList (es : List (Nat × Nat)) (s : List Nat) (k : Nat)
    (u : Nat) (h : u ∈ s) : u ∈ reachList es s k := by
  induction k with
  | zero => exact h
  | succ k ih => exact subset_reachStep es _ u ih

theorem reachList_mono_fuel (es : List (Nat × Nat)) (s : List Nat)
    (k j : Nat) (u : Nat) (h : u ∈ reachList es s k) :
    u ∈ reachList es s (k + j) := by
  induction j with
  | zero => exact h
  | succ j ih => exact subset_reachStep es _ u ih

theorem reachList_sound (es : List (Nat × Nat)) (v : Nat) :
    ∀ (k : Nat) (s : List Nat), (∀ w ∈ s, Reaches es v w) →
    ∀ u ∈ reachList es s k, Reaches es v u := by
  intro k
  induction k with
  | zero => exact fun s hs u hu => hs u hu
  | succ k ih =>
    intro s hs u hu
    rcases (mem_reachStep es _ u).1 hu with h | ⟨w, hw, hadj⟩
    · exact ih s hs u h
    · exact Relation.ReflTransGen.tail (ih s hs w hw) hadj

theorem reachList_bounded (es : List (Nat × Nat)) (n : Nat)
    (hwf : ∀ e ∈ es, e.1 < n ∧ e.2 < n) (s : List Nat)
    (hs : ∀ w ∈ s, w < n) : ∀ (k : Nat), ∀ u ∈ reachList es s k, u < n := by
  intro k
  induction k with
  | zero => exact hs
  | succ k ih =>
    intro u hu
    rcases (mem_reachStep es _ u).1 hu with h | ⟨w, _, hadj⟩
    · exact ih u h
    · rcases hadj with h | h
      · exact (hwf _ h).2
      · exact (hwf _ h).1

theorem reachList_nodup (es : List (Nat × Nat)) (s : List Nat)
    (hs : s.Nodup) (k : Nat) : (reachList es s k).Nodup := by
  cases k with
  | zero => exact hs
  | succ k => exact List.nodup_dedup _

theorem reachStep_congr (es : List (Nat × Nat)) (s t : List Nat)
    (h : ∀ u, u ∈ s ↔ u ∈ t) (u : Nat) :
    u ∈ reachStep es s ↔ u ∈ reachStep es t := by
  rw [mem_reachStep, mem_reachStep]
  constructor
  · rintro (hu | ⟨w, hw, hadj⟩)
    · exact Or.inl ((h u).1 hu)
    · exact Or.inr ⟨w, (h w).1 hw, hadj⟩
  · rintro (hu | ⟨w, hw, hadj⟩)
    · exact Or.inl ((h u).2 hu)
    · exact Or.inr ⟨w, (h w).2 hw, hadj⟩

theorem reachList_congr (es : List (Nat × Nat)) (s t : List Nat)
    (h : ∀ u, u ∈ s ↔ u ∈ t) (k : Nat) (u : Nat) :
    u ∈ reachList es s k ↔ u ∈ reachList es t k := by
  induction k generalizing u with
  | zero => exact h u
  | succ k ih => exact reachStep_congr es _ _ ih u

theorem reachStep_congr_edges (es es' : List (Nat × Nat))
    (he : ∀ e, e ∈ es ↔ e ∈ es') (s t : List Nat)
    (h : ∀ u, u ∈ s ↔ u ∈ t) (u : Nat) :
    u ∈ reachStep es s ↔ u ∈ reachStep es' t := by
  rw [mem_reachStep, mem_reachStep]
  have hadj : ∀ w u, Adj es w u ↔ Adj es' w u := by
    intro w u
    rw [Adj, Adj, he, he]
  constructor
  · rintro (hu | ⟨w, hw, ha⟩)
    · exact Or.inl ((h u).1 hu)
    · exact Or.inr ⟨w, (h w).1 hw, (hadj w u).1 ha⟩
  · rintro (hu | ⟨w, hw, ha⟩)
    · exact Or.inl ((h u).2 hu)
    · exact Or.inr ⟨w, (h w).2 hw, (hadj w u).2 ha⟩

theorem reachList_congr_edges (es es' : List (Nat × Nat))
    (he : ∀ e, e ∈ es ↔ e ∈ es') (s : List Nat) (k : Nat) (u : Nat) :
    u ∈ reachList es s k ↔ u ∈ reachList es' s k := by
  induction k generalizing u with
  | zero => exact Iff.rfl
  | succ k ih => exact reachStep_congr_edges es es' he _ _ ih u

/-- Two lists with the same members. -/
def SetEqL (s t : List Nat) : Prop := ∀ u, u ∈ s ↔ u ∈ t

theorem length_le_of_bounded (s : List Nat) (n : Nat) (hnd : s.Nodup)
    (hb : ∀ u ∈ s, u < n) : s.length ≤ n := by
  have h1 : s.toFinset ⊆ Finset.range n := by
    intro u hu
    rw [Finset.mem_range]
    exact hb u (List.mem_toFinset.1 hu)
  have h2 := Finset.card_le_card h1
  rw [List.toFinset_card_of_nodup hnd, Finset.card_range] at h2
  exact h2

theorem reachStep_grow (es : List (Nat × Nat)) (s : List Nat) (hnd : s.Nodup)
    (hne : ¬ SetEqL (reachStep es s) s) :
    s.length < (reachStep es s).length := by
  have hsub : s.toFinset ⊆ (reachStep es s).toFinset := by
    intro u hu
    exact List.mem_toFinset.2 (subset_reachStep es s u (List.mem_toFinset.1 hu))
  have hwit : ∃ u, u ∈ reachStep es s ∧ u ∉ s := by
    by_contra hcon
    push_neg at hcon
    exact hne (fun u => ⟨fun hu => hcon u hu, subset_reachStep es s u⟩)
  rcases hwit with ⟨u, hu1, hu2⟩
  have hss : s.toFinset ⊂ (reachStep es s).toFinset :=
    (Finset.ssubset_iff_of_subset hsub).2
      ⟨u, List.mem_toFinset.2 hu1, fun hc => hu2 (List.mem_toFinset.1 hc)⟩
  have hnd2 : (reachStep es s).Nodup := by
    rw [reachStep]
    exact List.nodup_dedup _
  have := Finset.card_lt_card hss
  rw [List.toFinset_card_of_nodup hnd, List.toFinset_card_of_nodup hnd2] at this
  exact this

theorem reach_stable_exists (es : List (Nat × Nat)) (n : Nat)
    (hwf : ∀ e ∈ es, e.1 < n ∧ e.2 < n) (v : Nat) (hv : v < n) :
    ∃ k, k < n ∧ SetEqL (reachList es [v] (k + 1)) (reachList es [v] k) := by
  by_contra hcon
  push_neg at hcon
  have hgrow : ∀ k, k ≤ n → k + 1 ≤ (reachList es [v] k).length := by
    intro k
    induction k with
    | zero =>
      intro _
      simp [reachList]
    | succ k ih =>
      intro hk
      have h1 := ih (by omega)
      have h2 : ¬ SetEqL (reachStep es (reachList es [v] k)) (reachList es [v] k) :=
        hcon k (by omega)
      have h3 := reachStep_grow es (reachList es [v] k)
        (reachList_nodup es [v] (List.nodup_singleton v) k) h2
      show k + 2 ≤ (reachStep es (reachList es [v] k)).length
      omega
  have h4 := hgrow n (le_refl n)
  have h5 := length_le_of_bounded (reachList es [v] n) n
    (reachList_nodup es [v] (List.nodup_singleton v) n)
    (reachList_bounded es n hwf [v] (by simpa using hv) n)
  omega

theorem stable_propagate (es : List (Nat × Nat)) (s : List Nat) (k : Nat)
    (hst : SetEqL (reachList es s (k + 1)) (reachList es s k)) :
    ∀ j, SetEqL (reachList es s (k + j)) (reachList es s k) := by
  intro j
  induction j with
  | zero => exact fun u => Iff.rfl
  | succ j ih =>
    intro u
    show u ∈ reachStep es (reachList es s (k + j)) ↔ _
    rw [reachStep_congr es _ _ ih u]
    exact hst u

theorem reachList_complete (es : List (Nat × Nat)) (n : Nat)
    (hwf : ∀ e ∈ es, e.1 < n ∧ e.2 < n) (v u : Nat) (hv : v < n)
    (h : Reaches es v u) : u ∈ reachList es [v] n := by
  rcases reach_stable_exists es n hwf v hv with ⟨k, hk, hst⟩
  have hclosed : ∀ w ∈ reachList es [v] k, ∀ u, Adj es w u →
      u ∈ reachList es [v] k := by
    intro w hw u hadj
    exact (hst u).1 ((mem_reachStep es _ u).2 (Or.inr ⟨w, hw, hadj⟩))
  have hvs : v ∈ reachList es [v] k :=
    subset_reachList es [v] k v (List.mem_singleton.2 rfl)
  have humem : u ∈ reachList es [v] k := by
    induction h with
    | refl => exact hvs
    | tail hab hadj ih => exact hclosed _ ih _ hadj
  have : u ∈ reachList es [v] (k + (n - k)) :=
    (stable_propagate es [v] k hst (n - k) u).2 humem
  have heq : k + (n - k) = n := by omega
  rw [heq] at this
  exact this

theorem mem_reachList_iff (es : List (Nat × Nat)) (n : Nat)
    (hwf : ∀ e ∈ es, e.1 < n ∧ e.2 < n) (v u : Nat) (hv : v < n) :
    u ∈ reachList es [v] n ↔ Reaches es v u := by
  constructor
  · intro h
    refine reachList_sound es v n [v] ?_ u h
    intro w hw
    rw [List.mem_singleton.1 hw]
    exact Relation.ReflTransGen.refl
  · exact reachList_complete es n hwf v u hv

/-- The component representative of `v`: the smallest vertex weakly
reachable from `v`. -/
def compRep (es : List (Nat × Nat)) (n v : Nat) : Nat :=
  match listMinN (reachList es [v] n) with
  | some m => m
  | none => v

/-- The per-vertex component labelling (one representative per position). -/
def compLabels (n : Nat) (es : List (Nat × Nat)) : List Nat :=
  (List.range n).map (compRep es n)

theorem compRep_eq_min (es : List (Nat × Nat)) (n v : Nat) :
    listMinN (reachList es [v] n) = some (compRep es n v) := by
  rcases listMinN_isSome (reachList es [v] n) (by
    intro hc
    have := subset_reachList es [v] n v (List.mem_singleton.2 rfl)
    rw [hc] at this
    cases this) with ⟨m, hm⟩
  rw [hm]
  unfold compRep
  rw [hm]

theorem compRep_mem (es : List (Nat × Nat)) (n v : Nat) :
    compRep es n v ∈ reachList es [v] n :=
  listMinN_mem _ _ (compRep_eq_min es n v)

theorem compRep_le (es : List (Nat × Nat)) (n v : Nat) :
    ∀ u ∈ reachList es [v] n, compRep es n v ≤ u :=
  listMinN_le _ _ (compRep_eq_min es n v)

theorem compRep_congr_edges (es es' : List (Nat × Nat)) (n v : Nat)
    (he : ∀ e, e ∈ es ↔ e ∈ es') : compRep es n v = compRep es' n v := by
  have h1 : listMinN (reachList es [v] n) = listMinN (reachList es' [v] n) :=
    listMinN_congr _ _ (reachList_congr_edges es es' he [v] n)
  unfold compRep
  rw [h1]

theorem compRep_eq_iff (es : List (Nat × Nat)) (n : Nat)
    (hwf : ∀ e ∈ es, e.1 < n ∧ e.2 < n) (u v : Nat) (hu : u < n) (hv : v < n) :
    compRep es n u = compRep es n v ↔ Reaches es u v := by
  constructor
  · intro h
    have h1 : Reaches es u (compRep es n u) :=
      (mem_reachList_iff es n hwf u _ hu).1 (compRep_mem es n u)
    have h2 : Reaches es v (compRep es n v) :=
      (mem_reachList_iff es n hwf v _ hv).1 (compRep_mem es n v)
    exact Relation.ReflTransGen.trans (h ▸ h1) (reaches_symm es h2)
  · intro h
    have hcong : ∀ w, w ∈ reachList es [u] n ↔ w ∈ reachList es [v] n := by
      intro w
      rw [mem_reachList_iff es n hwf u w hu, mem_reachList_iff es n hwf v w hv]
      constructor
      · intro hw
        exact Relation.ReflTransGen.trans (reaches_symm es h) hw
      · intro hw
        exact Relation.ReflTransGen.trans h hw
    have h1 : listMinN (reachList es [u] n) = listMinN (reachList es [v] n) :=
      listMinN_congr _ _ hcong
    have h3 := compRep_eq_min es n u
    rw [h1, compRep_eq_min es n v] at h3
    injection h3 with h3
    exact h3.symm

theorem compLabels_getElem? (n : Nat) (es : List (Nat × Nat)) (i : Nat)
    (hi : i < n) : (compLabels n es)[i]? = some (compRep es n i) := by
  rw [compLabels, List.getElem?_map, List.getElem?_range hi]
  rfl

theorem compLabels_length (n : Nat) (es : List (Nat × Nat)) :
    (compLabels n es).length = n := by
  rw [compLabels, List.length_map, List.length_range]

theorem mem_compLabels (n : Nat) (es : List (Nat × Nat)) (r : Nat) :
    r ∈ compLabels n es ↔ ∃ i, i < n ∧ compRep es n i = r := by
  rw [compLabels]
  constructor
  · intro h
    rcases List.mem_map.1 h with ⟨i, hi, he⟩
    exact ⟨i, List.mem_range.1 hi, he⟩
  · rintro ⟨i, hi, he⟩
    exact List.mem_map.2 ⟨i, List.mem_range.2 hi, he⟩

/-! ### `np.unique`, counting, and the argmax pick of the LCC -/

/-- Ordered insertion (helper for `np.unique`'s sorted output). -/
def insertAsc {A : Type} [LinearOrder A] (a : A) : List A → List A
  | [] => [a]
  | b :: l => if a ≤ b then a :: b :: l else b :: insertAsc a l

/-- Insertion sort. -/
def isort {A : Type} [LinearOrder A] : List A → List A
  | [] => []
  | a :: l => insertAsc a (isort l)

/-- `np.unique(l)`: the distinct values of `l` in ascending order. -/
def uniqueSorted {A : Type} [LinearOrder A] (l : List A) : List A :=
  isort l.dedup

/-- Number of occurrences of `v` in `l` (`(l == v).sum()`). -/
def countEq {A : Type} [DecidableEq A] : List A → A → Nat
  | [], _ => 0
  | w :: l, v => (if w = v then 1 else 0) + countEq l v

theorem mem_insertAsc {A : Type} [LinearOrder A] (a x : A) (l : List A) :
    x ∈ insertAsc a l ↔ x = a ∨ x ∈ l := by
  induction l with
  | nil => simp [insertAsc]
  | cons b l ih =>
    rw [insertAsc]
    by_cases hab : a ≤ b
    · rw [if_pos hab]
      simp
    · rw [if_neg hab]
      rw [List.mem_cons, List.mem_cons, ih]
      tauto

theorem mem_isort {A : Type} [LinearOrder A] (l : List A) (x : A) :
    x ∈ isort l ↔ x ∈ l := by
  induction l with
  | nil => simp [isort]
  | cons a l ih =>
    rw [isort, mem_insertAsc, ih, List.mem_cons]

theorem mem_uniqueSorted {A : Type} [LinearOrder A] (l : List A) (x : A) :
    x ∈ uniqueSorted l ↔ x ∈ l := by
  rw [uniqueSorted, mem_isort, List.mem_dedup]

theorem nodup_insertAsc {A : Type} [LinearOrder A] (a : A) (l : List A)
    (ha : a ∉ l) (hl : l.Nodup) : (insertAsc a l).Nodup := by
  induction l with
  | nil => simp [insertAsc]
  | cons b l ih =>
    rw [insertAsc]
    rw [List.nodup_cons] at hl
    by_cases hab : a ≤ b
    · rw [if_pos hab]
      refine List.nodup_cons.2 ⟨ha, List.nodup_cons.2 hl⟩
    · rw [if_neg hab]
      refine List.nodup_cons.2 ⟨?_, ih (fun hc => ha (List.mem_cons_of_mem _ hc)) hl.2⟩
      rw [mem_insertAsc]
      rintro (rfl | hc)
      · exact ha (List.mem_cons_self _ _)
      · exact hl.1 hc

theorem nodup_isort {A : Type} [LinearOrder A] (l : List A) (hl : l.Nodup) :
    (isort l).Nodup := by
  induction l with
  | nil => simp [isort]
  | cons a l ih =>
    rw [List.nodup_cons] at hl
    exact nodup_insertAsc a _ (fun hc => hl.1 ((mem_isort l a).1 hc)) (ih hl.2)

theorem nodup_uniqueSorted {A : Type} [LinearOrder A] (l : List A) :
    (uniqueSorted l).Nodup :=
  nodup_isort _ (List.nodup_dedup l)

theorem countTrue_map_decide_eq {A : Type} [DecidableEq A] (ls : List A)
    (L : A) : countTrue (ls.map (fun r => decide (r = L))) = countEq ls L := by
  induction ls with
  | nil => rfl
  | cons r ls ih =>
    by_cases hr : r = L
    · simp only [List.map_cons, hr, decide_eq_true_eq]
      show countTrue (true :: ls.map (fun r => decide (r = L))) = countEq (L :: ls) L
      show countTrue (ls.map (fun r => decide (r = L))) + 1 = countEq (L :: ls) L
      rw [ih]
      show countEq ls L + 1 = (if L = L then 1 else 0) + countEq ls L
      rw [if_pos rfl]
      omega
    · have h1 : decide (r = L) = false := by
        simpa using hr
      show countTrue (decide (r = L) :: ls.map (fun r => decide (r = L))) =
        (if r = L then 1 else 0) + countEq ls L
      rw [h1, if_neg hr]
      show countTrue (ls.map (fun r => decide (r = L))) = 0 + countEq ls L
      rw [ih]
      omega

/-- The component label kept by the LCC selection: `np.unique` over the
labelling, counts, first `argmax`. -/
def lccLabel (ls : List Nat) : Option Nat :=
  match uniqueSorted ls with
  | [] => none
  | u :: us =>
    some ((us.foldl (fun best u' =>
      if countEq ls u' > best.2 then (u', countEq ls u') else best)
      (u, countEq ls u)).1)

theorem foldl_argmax (ls : List Nat) :
    ∀ (us : List Nat) (best : Nat × Nat), best.2 = countEq ls best.1 →
    ((us.foldl (fun best u' =>
        if countEq ls u' > best.2 then (u', countEq ls u') else best) best).2 =
      countEq ls (us.foldl (fun best u' =>
        if countEq ls u' > best.2 then (u', countEq ls u') else best) best).1 ∧
     best.2 ≤ (us.foldl (fun best u' =>
        if countEq ls u' > best.2 then (u', countEq ls u') else best) best).2 ∧
     ((us.foldl (fun best u' =>
        if countEq ls u' > best.2 then (u', countEq ls u') else best) best).1 = best.1 ∨
      (us.foldl (fun best u' =>
        if countEq ls u' > best.2 then (u', countEq ls u') else best) best).1 ∈ us) ∧
     (∀ u ∈ us, countEq ls u ≤ (us.foldl (fun best u' =>
        if countEq ls u' > best.2 then (u', countEq ls u') else best) best).2)) := by
  intro us
  induction us with
  | nil =>
    intro best hbest
    refine ⟨hbest, le_refl _, Or.inl rfl, ?_⟩
    intro u hu
    cases hu
  | cons w us ih =>
    intro best hbest
    rw [List.foldl_cons]
    by_cases hw : countEq ls w > best.2
    · rw [if_pos hw]
      rcases ih (w, countEq ls w) rfl with ⟨h1, h2, h3, h4⟩
      refine ⟨h1, by omega, ?_, ?_⟩
      · rcases h3 with h3 | h3
        · refine Or.inr ?_
          rw [h3]
          exact List.mem_cons_self w us
        · exact Or.inr (List.mem_cons_of_mem _ h3)
      · intro u hu
        rcases List.mem_cons.1 hu with rfl | hu
        · omega
        · exact h4 u hu
    · rw [if_neg hw]
      rcases ih best hbest with ⟨h1, h2, h3, h4⟩
      refine ⟨h1, h2, ?_, ?_⟩
      · rcases h3 with h3 | h3
        · exact Or.inl h3
        · exact Or.inr (List.mem_cons_of_mem _ h3)
      · intro u hu
        rcases List.mem_cons.1 hu with rfl | hu
        · omega
        · exact h4 u hu

theorem lccLabel_spec (ls : List Nat) (L : Nat) (h : lccLabel ls = some L) :
    L ∈ ls ∧ ∀ u ∈ ls, countEq ls u ≤ countEq ls L := by
  unfold lccLabel at h
  cases hus : uniqueSorted ls with
  | nil => rw [hus] at h; cases h
  | cons u us =>
    rw [hus] at h
    injection h with h
    rcases foldl_argmax ls us (u, countEq ls u) rfl with ⟨h1, h2, h3, h4⟩
    constructor
    · rcases h3 with h3 | h3
      · rw [← h, h3]
        exact (mem_uniqueSorted ls u).1 (hus ▸ List.mem_cons_self _ _)
      · rw [← h]
        exact (mem_uniqueSorted ls _).1 (hus ▸ List.mem_cons_of_mem _ h3)
    · intro w hw
      have hwu : w ∈ uniqueSorted ls := (mem_uniqueSorted ls w).2 hw
      rw [hus] at hwu
      rw [← h, ← h1]
      rcases List.mem_cons.1 hwu with rfl | hwu
      · exact h2
      · exact h4 w hwu

theorem lccLabel_isSome (ls : List Nat) (h : ls ≠ []) :
    ∃ L, lccLabel ls = some L := by
  cases hus : uniqueSorted ls with
  | nil =>
    cases ls with
    | nil => exact absurd rfl h
    | cons a t =>
      have : a ∈ uniqueSorted (a :: t) :=
        (mem_uniqueSorted _ a).2 (List.mem_cons_self _ _)
      rw [hus] at this
      cases this
  | cons u us =>
    have hl : lccLabel ls = some ((us.foldl (fun best u' =>
        if countEq ls u' > best.2 then (u', countEq ls u') else best)
        (u, countEq ls u)).1) := by
      unfold lccLabel
      rw [hus]
    exact ⟨_, hl⟩

/-! ### `graph_get_largest_connected_component` (`src/data/util.py:453`)

```python
n = x.shape[0]
A = sp.coo_matrix((np.ones(edge_index.shape[1]), edge_index), shape=(n, n))
n_components, labels = sp.csgraph.connected_components(A)
label_names, label_counts = np.unique(labels, return_counts=True)
label_lcc = label_names[label_counts.argmax()]
x, edge_index, y, vertex_to_idx = graph_select_idxs(labels == label_lcc, ...)
return x, edge_index, y, vertex_to_idx, labels == label_lcc
```

`label_counts.argmax()` raises `ValueError` on a 0-vertex graph (empty
`label_counts`), modelled by `none`. -/

/-- The boolean mask `labels == label_lcc`. -/
def lccMask (n : Nat) (es : List (Nat × Nat)) (l : Nat) : List Bool :=
  (compLabels n es).map (fun r => decide (r = l))

/-- `graph_get_largest_connected_component`: the selected subgraph together
with the mask over the original positions. -/
def graph_get_largest_connected_component {α V : Type} (x : List α)
    (es : List (Nat × Nat)) (y : List Int) (v2i : List (V × Nat)) :
    Option ((List α × List (Nat × Nat) × List Int × List (V × Nat)) × List Bool) :=
  match lccLabel (compLabels x.length es) with
  | none => none
  | some l =>
    some (graph_select_idxs (lccMask x.length es l) x es y v2i,
      lccMask x.length es l)

theorem lccMask_getD (n : Nat) (es : List (Nat × Nat)) (L i : Nat) :
    (lccMask n es L).getD i false = true ↔ (i < n ∧ compRep es n i = L) := by
  rw [lccMask, List.getD_eq_getElem?_getD, List.getElem?_map]
  by_cases hi : i < n
  · rw [compLabels_getElem? n es i hi]
    simp
    exact fun _ => hi
  · rw [List.getElem?_eq_none (by rw [compLabels_length]; omega)]
    simp
    omega

theorem lccMask_length (n : Nat) (es : List (Nat × Nat)) (L : Nat) :
    (lccMask n es L).length = n := by
  rw [lccMask, List.length_map, compLabels_length]

theorem countTrue_lccMask (n : Nat) (es : List (Nat × Nat)) (L : Nat) :
    countTrue (lccMask n es L) = countEq (compLabels n es) L :=
  countTrue_map_decide_eq _ _

/-- A weak-reachability walk inside the kept component descends to the
selected subgraph, along remapped positions. -/
theorem reaches_subgraph (es : List (Nat × Nat)) (n : Nat)
    (hwf : ∀ e ∈ es, e.1 < n ∧ e.2 < n) (L : Nat) (a b : Nat)
    (h : Reaches es a b) (ha : a < n) (haL : compRep es n a = L) :
    Reaches (selectEdges (lccMask n es L) es)
      (maskRank (lccMask n es L) a) (maskRank (lccMask n es L) b) := by
  induction h with
  | refl => exact Relation.ReflTransGen.refl
  | tail hac hadj ih =>
    rename_i c b
    have hc : c < n := by
      rcases hadj with h1 | h1
      · exact (hwf _ h1).1
      · exact (hwf _ h1).2
    have hb : b < n := by
      rcases hadj with h1 | h1
      · exact (hwf _ h1).2
      · exact (hwf _ h1).1
    have hcL : compRep es n c = L := by
      rw [← (compRep_eq_iff es n hwf a c ha hc).2 hac]
      exact haL
    have hbL : compRep es n b = L := by
      rw [← (compRep_eq_iff es n hwf c b hc hb).2
        (Relation.ReflTransGen.single hadj)]
      exact hcL
    have hmc : (lccMask n es L).getD c false = true :=
      (lccMask_getD n es L c).2 ⟨hc, hcL⟩
    have hmb : (lccMask n es L).getD b false = true :=
      (lccMask_getD n es L b).2 ⟨hb, hbL⟩
    refine Relation.ReflTransGen.tail ih ?_
    rcases hadj with h1 | h1
    · exact Or.inl ((mem_selectEdges _ es _ _).2
        ⟨maskRank_lt _ c hmc, maskRank_lt _ b hmb, by
          rw [oldIdx_maskRank _ c hmc, oldIdx_maskRank _ b hmb]; exact h1⟩)
    · exact Or.inr ((mem_selectEdges _ es _ _).2
        ⟨maskRank_lt _ b hmb, maskRank_lt _ c hmc, by
          rw [oldIdx_maskRank _ b hmb, oldIdx_maskRank _ c hmc]; exact h1⟩)

/-- **C5 counterexample.** On a 0-vertex graph the component labelling is
empty and `label_counts.argmax()` raises (`none`): the function does not
return a subgraph for every graph, only for non-empty ones. -/
theorem graph_get_largest_connected_component_empty :
    graph_get_largest_connected_component ([] : List Int) [] []
      ([] : List (Nat × Nat)) = none := rfl

/-- **C5 (amended).** For every graph with at least one vertex (and
in-range edges), `graph_get_largest_connected_component` succeeds and
returns a subgraph together with the mask of kept original positions: the
mask is a full weak-connectivity class (mutually reachable, closed under
reachability), `compRep`-classes coincide with reachability classes, no
component is larger than the kept one, and every pair of positions of the
returned subgraph is mutually reachable inside it. -/
theorem graph_get_largest_connected_component_spec {α V : Type} (x : List α)
    (es : List (Nat × Nat)) (y : List Int) (v2i : List (V × Nat))
    (hn : x.length ≠ 0)
    (hwf : ∀ e ∈ es, e.1 < x.length ∧ e.2 < x.length) :
    ∃ out mask, graph_get_largest_connected_component x es y v2i =
        some (out, mask) ∧
      mask.length = x.length ∧
      out.1 = maskFilter mask x ∧
      (∃ i, i < x.length ∧ mask.getD i false = true) ∧
      (∀ i j, mask.getD i false = true → mask.getD j false = true →
        Reaches es i j) ∧
      (∀ i j, mask.getD i false = true → Reaches es i j → j < x.length →
        mask.getD j false = true) ∧
      (∀ u w, u < x.length → w < x.length →
        (compRep es x.length u = compRep es x.length w ↔ Reaches es u w)) ∧
      (∀ w, w < x.length →
        countEq (compLabels x.length es) (compRep es x.length w) ≤
          countTrue mask) ∧
      (∀ p q, p < countTrue mask → q < countTrue mask →
        Reaches out.2.1 p q) := by
  have hlne : compLabels x.length es ≠ [] := by
    intro hc
    have := compLabels_length x.length es
    rw [hc] at this
    exact hn this.symm
  rcases lccLabel_isSome _ hlne with ⟨L, hL⟩
  have hout : graph_get_largest_connected_component x es y v2i =
      some (graph_select_idxs (lccMask x.length es L) x es y v2i,
        lccMask x.length es L) := by
    unfold graph_get_largest_connected_component
    rw [hL]
  rcases lccLabel_spec _ L hL with ⟨hLmem, hLmax⟩
  refine ⟨_, _, hout, lccMask_length _ _ _, rfl, ?_, ?_, ?_, ?_, ?_, ?_⟩
  · rcases (mem_compLabels _ es L).1 hLmem with ⟨i, hi, hrep⟩
    exact ⟨i, hi, (lccMask_getD _ es L i).2 ⟨hi, hrep⟩⟩
  · intro i j hi hj
    rcases (lccMask_getD _ es L i).1 hi with ⟨hi1, hi2⟩
    rcases (lccMask_getD _ es L j).1 hj with ⟨hj1, hj2⟩
    exact (compRep_eq_iff es _ hwf i j hi1 hj1).1 (by rw [hi2, hj2])
  · intro i j hi hrij hjn
    rcases (lccMask_getD _ es L i).1 hi with ⟨hi1, hi2⟩
    refine (lccMask_getD _ es L j).2 ⟨hjn, ?_⟩
    rw [← (compRep_eq_iff es _ hwf i j hi1 hjn).2 hrij]
    exact hi2
  · intro u w hu hw
    exact compRep_eq_iff es _ hwf u w hu hw
  · intro w hw
    rw [countTrue_lccMask]
    exact hLmax _ ((mem_compLabels _ es _).2 ⟨w, hw, rfl⟩)
  · intro p q hp hq
    have hip : (lccMask x.length es L).getD (oldIdx (lccMask x.length es L) p)
        false = true := oldIdx_masked _ p hp
    have hiq : (lccMask x.length es L).getD (oldIdx (lccMask x.length es L) q)
        false = true := oldIdx_masked _ q hq
    rcases (lccMask_getD _ es L _).1 hip with ⟨hp1, hp2⟩
    rcases (lccMask_getD _ es L _).1 hiq with ⟨hq1, hq2⟩
    have hreach : Reaches es (oldIdx (lccMask x.length es L) p)
        (oldIdx (lccMask x.length es L) q) :=
      (compRep_eq_iff es _ hwf _ _ hp1 hq1).1 (by rw [hp2, hq2])
    have := reaches_subgraph es x.length hwf L _ _ hreach hp1 hp2
    rw [maskRank_oldIdx _ p hp, maskRank_oldIdx _ q hq] at this
    exact this

/-- C5 witness: a 3-vertex graph with one edge; the kept component is
`{0, 1}`. -/
theorem graph_get_largest_connected_component_spec_witness :
    (([1, 2, 3] : List Int).length ≠ 0 ∧
     (∀ e ∈ ([(0, 1)] : List (Nat × Nat)),
        e.1 < ([1, 2, 3] : List Int).length ∧
        e.2 < ([1, 2, 3] : List Int).length)) ∧
    (∃ out mask, graph_get_largest_connected_component ([1, 2, 3] : List Int)
        [(0, 1)] [5, 6, 7] [(0, 0), (1, 1), (2, 2)] = some (out, mask) ∧
      mask.length = ([1, 2, 3] : List Int).length ∧
      out.1 = maskFilter mask [1, 2, 3] ∧
      (∃ i, i < ([1, 2, 3] : List Int).length ∧ mask.getD i false = true) ∧
      (∀ i j, mask.getD i false = true → mask.getD j false = true →
        Reaches [(0, 1)] i j) ∧
      (∀ i j, mask.getD i false = true → Reaches [(0, 1)] i j →
        j < ([1, 2, 3] : List Int).length → mask.getD j false = true) ∧
      (∀ u w, u < ([1, 2, 3] : List Int).length →
        w < ([1, 2, 3] : List Int).length →
        (compRep [(0, 1)] ([1, 2, 3] : List Int).length u =
          compRep [(0, 1)] ([1, 2, 3] : List Int).length w ↔
          Reaches [(0, 1)] u w)) ∧
      (∀ w, w < ([1, 2, 3] : List Int).length →
        countEq (compLabels ([1, 2, 3] : List Int).length [(0, 1)])
          (compRep [(0, 1)] ([1, 2, 3] : List Int).length w) ≤
          countTrue mask) ∧
      (∀ p q, p < countTrue mask → q < countTrue mask →
        Reaches out.2.1 p q)) :=
  ⟨⟨by decide, by decide⟩,
    graph_get_largest_connected_component_spec ([1, 2, 3] : List Int)
      [(0, 1)] [5, 6, 7] [(0, 0), (1, 1), (2, 2)] (by decide) (by decide)⟩

/-! ### `remap_labels`, `compress_labels`, `get_label_mask`,
`graph_select_labels` (`src/data/util.py:601-705`) -/

/-- The second of the two `get_label_mask` definitions (line 136, the one
in scope at `graph_select_labels`): `mask[i]` iff `labels[i]` is one of the
selected integer labels (built by or-ing `labels == label` masks). -/
def get_label_mask (labels : List Int) (labels_to_select : List Int) :
    List Bool :=
  labels.map (fun l => decide (l ∈ labels_to_select))

/-- Python dict inversion `{idx : name for name, idx in d.items()}`,
looked up at `v`: the *last* entry with id `v` wins. `none` models the
`KeyError` for an id that no name carries. -/
def invLast {A B : Type} [DecidableEq B] : List (A × B) → B → Option A
  | [], _ => none
  | p :: l, v =>
    match invLast l v with
    | some name => some name
    | none => if p.2 = v then some p.1 else none

/-- The value the sequence of masked assignments
`labels_new[labels == label_old] = label_new` leaves at a position whose
old label is `v`: the last matching remapping entry. -/
def lastMatch : List (Int × Int) → Int → Option Int
  | [], _ => none
  | p :: l, v =>
    match lastMatch l v with
    | some w => some w
    | none => if p.1 = v then some p.2 else none

/-- `remap_labels`.  `none` models the `KeyError` raised when a remapped
old id has no name in `label_to_idx`. -/
def remap_labels {L : Type} [DecidableEq L] (labels : List Int)
    (label_to_idx : List (L × Int)) (remapping : List (Int × Int)) :
    Option (List Int × List (L × Int)) :=
  if ∀ p ∈ remapping, (invLast label_to_idx p.1).isSome then
    some (labels.map (fun v =>
        match lastMatch remapping v with
        | some w => w
        | none => -1),
      remapping.foldl (fun acc p =>
        match invLast label_to_idx p.1 with
        | some name => dinsert acc name p.2
        | none => acc) [])
  else none

/-- `compress_labels`: remap through the sorted distinct labels,
enumerated from 0. -/
def compress_labels {L : Type} [DecidableEq L] (labels : List Int)
    (label_to_idx : List (L × Int)) :
    Option (List Int × List (L × Int) × List (Int × Int)) :=
  let compression := (uniqueSorted labels).enum.map
    (fun p => (p.2, (p.1 : Int)))
  (remap_labels labels label_to_idx compression).map
    (fun r => (r.1, r.2, compression))

/-- `mask[mask] &= lcc_mask`: and the `k`-th `true` position of `mask`
with `lcc_mask[k]`. -/
def updateMaskedAnd : List Bool → List Bool → List Bool
  | [], _ => []
  | true :: m, c :: inn => c :: updateMaskedAnd m inn
  | true :: m, [] => true :: updateMaskedAnd m []
  | false :: m, inn => false :: updateMaskedAnd m inn

/-- `graph_select_labels`. -/
def graph_select_labels {α V L : Type} [DecidableEq L] (x : List α)
    (es : List (Nat × Nat)) (y : List Int) (v2i : List (V × Nat))
    (l2i : List (L × Int)) (select_labels : List Int)
    (connected compress : Bool) :
    Option (List α × List (Nat × Nat) × List Int × List (V × Nat) ×
      List (L × Int) × List Bool) :=
  let mask := get_label_mask y select_labels
  let s := graph_select_idxs mask x es y v2i
  let step2 :
      Option ((List α × List (Nat × Nat) × List Int × List (V × Nat)) ×
        List Bool) :=
    if connected then
      match graph_get_largest_connected_component s.1 s.2.1 s.2.2.1 s.2.2.2 with
      | none => none
      | some (out, lcc_mask) => some (out, updateMaskedAnd mask lcc_mask)
    else some (s, mask)
  match step2 with
  | none => none
  | some (out, mask2) =>
    if compress then
      match compress_labels out.2.2.1 l2i with
      | none => none
      | some (y2, l2i2, _) =>
        some (out.1, out.2.1, y2, out.2.2.2, l2i2, mask2)
    else some (out.1, out.2.1, out.2.2.1, out.2.2.2, l2i, mask2)

theorem invLast_isSome {A B : Type} [DecidableEq B] (l2i : List (A × B)) (v : B) :
    (invLast l2i v).isSome = true ↔ v ∈ l2i.map Prod.snd := by
  induction l2i with
  | nil => simp [invLast]
  | cons p l ih =>
    rw [List.map_cons, List.mem_cons]
    cases hl : invLast l v with
    | some name =>
      simp only [invLast, hl, Option.isSome_some, true_iff]
      exact Or.inr (ih.1 (by rw [hl]; rfl))
    | none =>
      simp only [invLast, hl]
      have ihn : v ∉ l.map Prod.snd := by
        intro hc
        have h2 := ih.2 hc
        rw [hl] at h2
        simp at h2
      by_cases hp : p.2 = v
      · rw [if_pos hp]
        constructor
        · intro _
          exact Or.inl hp.symm
        · intro _
          rfl
      · rw [if_neg hp]
        constructor
        · intro hc
          simp at hc
        · rintro (hc | hc)
          · exact absurd hc.symm hp
          · exact absurd hc ihn

theorem maskFilter_mem {α : Type} (m : List Bool) (l : List α) (a : α)
    (h : a ∈ maskFilter m l) : a ∈ l := by
  induction m generalizing l with
  | nil =>
    rw [show maskFilter [] l = [] from by cases l <;> rfl] at h
    cases h
  | cons b m ih =>
    cases l with
    | nil =>
      rw [show maskFilter (b :: m) [] = [] from by cases b <;> rfl] at h
      cases h
    | cons c l =>
      cases b
      · exact List.mem_cons_of_mem _ (ih l h)
      · rcases List.mem_cons.1 h with rfl | h
        · exact List.mem_cons_self _ _
        · exact List.mem_cons_of_mem _ (ih l h)

theorem updateMaskedAnd_length (m : List Bool) :
    ∀ inn, (updateMaskedAnd m inn).length = m.length := by
  induction m with
  | nil =>
    intro inn
    rfl
  | cons b m ih =>
    intro inn
    cases b
    · show (false :: updateMaskedAnd m inn).length = _
      rw [List.length_cons, ih inn, List.length_cons]
    · cases inn with
      | nil =>
        show (true :: updateMaskedAnd m []).length = _
        rw [List.length_cons, ih [], List.length_cons]
      | cons c inn =>
        show (c :: updateMaskedAnd m inn).length = _
        rw [List.length_cons, ih inn, List.length_cons]

theorem maskFilter_nil_right {α : Type} (m : List Bool) :
    maskFilter m ([] : List α) = [] := by
  cases m with
  | nil => rfl
  | cons b t => cases b <;> rfl

theorem updateMaskedAnd_getD (m : List Bool) :
    ∀ (inn : List Bool), inn.length = countTrue m → ∀ (i : Nat),
    (updateMaskedAnd m inn).getD i false =
      (m.getD i false && inn.getD (maskRank m i) false) := by
  induction m with
  | nil =>
    intro inn _ i
    rfl
  | cons b m ih =>
    intro inn hinn i
    cases b
    · show (false :: updateMaskedAnd m inn).getD i false = _
      cases i with
      | zero => rfl
      | succ i =>
        rw [List.getD_cons_succ, List.getD_cons_succ, ih inn hinn i]
        rfl
    · cases inn with
      | nil =>
        exfalso
        have : countTrue (true :: m) = countTrue m + 1 := rfl
        rw [this] at hinn
        simp at hinn
      | cons c inn =>
        have hinn' : inn.length = countTrue m := by
          have h1 : countTrue (true :: m) = countTrue m + 1 := rfl
          rw [h1] at hinn
          simpa using hinn
        show (c :: updateMaskedAnd m inn).getD i false = _
        cases i with
        | zero =>
          rw [List.getD_cons_zero, List.getD_cons_zero]
          show c = (true && (c :: inn).getD (maskRank (true :: m) 0) false)
          have h0 : maskRank (true :: m) 0 = 0 := rfl
          rw [h0, Bool.true_and, List.getD_cons_zero]
        | succ i =>
          rw [List.getD_cons_succ, List.getD_cons_succ, ih inn hinn' i]
          show (m.getD i false && inn.getD (maskRank m i) false) =
            (m.getD i false && (c :: inn).getD (maskRank (true :: m) (i + 1)) false)
          have h1 : maskRank (true :: m) (i + 1) = maskRank m i + 1 := rfl
          rw [h1, List.getD_cons_succ]

theorem maskFilter_comp {α : Type} (m : List Bool) :
    ∀ (inn : List Bool) (l : List α), m.length = l.length →
    inn.length = countTrue m →
    maskFilter inn (maskFilter m l) = maskFilter (updateMaskedAnd m inn) l := by
  induction m with
  | nil =>
    intro inn l hml _
    have h1 : maskFilter ([] : List Bool) l = [] := by cases l <;> rfl
    rw [h1, maskFilter_nil_right inn]
    show ([] : List α) = maskFilter ([] : List Bool) l
    rw [h1]
  | cons b m ih =>
    intro inn l hml hinn
    cases l with
    | nil => simp at hml
    | cons a l =>
      have hml' : m.length = l.length := by simpa using hml
      cases b
      · show maskFilter inn (maskFilter m l) =
          maskFilter (false :: updateMaskedAnd m inn) (a :: l)
        show maskFilter inn (maskFilter m l) =
          maskFilter (updateMaskedAnd m inn) l
        exact ih inn l hml' hinn
      · cases inn with
        | nil =>
          have : countTrue (true :: m) = countTrue m + 1 := rfl
          rw [this] at hinn
          simp at hinn
        | cons c inn =>
          have hinn' : inn.length = countTrue m := by
            have : countTrue (true :: m) = countTrue m + 1 := rfl
            rw [this] at hinn
            simpa using hinn
          show maskFilter (c :: inn) (a :: maskFilter m l) =
            maskFilter (c :: updateMaskedAnd m inn) (a :: l)
          cases c
          · show maskFilter inn (maskFilter m l) =
              maskFilter (updateMaskedAnd m inn) l
            exact ih inn l hml' hinn'
          · show a :: maskFilter inn (maskFilter m l) =
              a :: maskFilter (updateMaskedAnd m inn) l
            rw [ih inn l hml' hinn']

theorem get_label_mask_length (y sel : List Int) :
    (get_label_mask y sel).length = y.length := by
  rw [get_label_mask, List.length_map]

theorem get_label_mask_getD (y sel : List Int) (i : Nat) (hi : i < y.length) :
    (get_label_mask y sel).getD i false = decide (y.getD i (-1) ∈ sel) := by
  rw [get_label_mask, List.getD_eq_getElem?_getD, List.getElem?_map,
    List.getElem?_eq_getElem hi, List.getD_eq_getElem?_getD,
    List.getElem?_eq_getElem hi]
  rfl

theorem graph_select_labels_eval {α V L : Type} [DecidableEq L] (x : List α)
    (es : List (Nat × Nat)) (y : List Int) (v2i : List (V × Nat))
    (l2i : List (L × Int)) (sel : List Int)
    (out : List α × List (Nat × Nat) × List Int × List (V × Nat))
    (lcc_mask : List Bool) (y2 : List Int) (l2i2 : List (L × Int))
    (comp : List (Int × Int))
    (hlcc : graph_get_largest_connected_component
      (graph_select_idxs (get_label_mask y sel) x es y v2i).1
      (graph_select_idxs (get_label_mask y sel) x es y v2i).2.1
      (graph_select_idxs (get_label_mask y sel) x es y v2i).2.2.1
      (graph_select_idxs (get_label_mask y sel) x es y v2i).2.2.2 =
        some (out, lcc_mask))
    (hcomp : compress_labels out.2.2.1 l2i = some (y2, l2i2, comp)) :
    graph_select_labels x es y v2i l2i sel true true =
      some (out.1, out.2.1, y2, out.2.2.2, l2i2,
        updateMaskedAnd (get_label_mask y sel) lcc_mask) := by
  unfold graph_select_labels
  simp only [eq_self_iff_true, if_true]
  rw [hlcc]
  simp only []
  rw [hcomp]

theorem compress_labels_isSome {L : Type} [DecidableEq L] (labels : List Int)
    (l2i : List (L × Int)) (hcov : ∀ v ∈ labels, v ∈ l2i.map Prod.snd) :
    ∃ y2 l2i2 comp, compress_labels labels l2i = some (y2, l2i2, comp) := by
  have hguard : ∀ p ∈ (uniqueSorted labels).enum.map
      (fun p => (p.2, (p.1 : Int))), (invLast l2i p.1).isSome = true := by
    intro p hp
    rcases List.mem_map.1 hp with ⟨pe, hpe, rfl⟩
    have h1 : pe.2 ∈ uniqueSorted labels := List.snd_mem_of_mem_enum hpe
    have h2 : pe.2 ∈ labels := (mem_uniqueSorted labels pe.2).1 h1
    exact (invLast_isSome l2i pe.2).2 (hcov pe.2 h2)
  unfold compress_labels remap_labels
  simp only []
  rw [if_pos hguard]
  exact ⟨_, _, _, rfl⟩

/-- **C7 counterexample.** The claim quantifies over every graph and label
set, but when no vertex carries a selected label the label-filtered graph
is empty and the inner largest-connected-component step raises
(`label_counts.argmax()` on an empty array): with `y = [0, 0]` and selected
labels `[5]` the call returns no result instead of a mask. -/
theorem graph_select_labels_empty_selection :
    graph_select_labels ([1, 2] : List Int) [(0, 1)] [0, 0]
      ([(0, 0), (1, 1)] : List (Nat × Nat)) ([(7, 0)] : List (Int × Int))
      [5] true true = none := rfl

/-- **C7 (amended).** For every graph in which at least one vertex carries
a selected label (otherwise the inner largest-connected-component step
raises on the empty label-filtered graph), `graph_select_labels` with
`connected=True` (and the default label compression): the returned
cumulative mask over the original positions is true at `i` exactly when
the label at `i` is selected *and* the vertex survives the subsequent
largest-connected-component restriction of the label-filtered subgraph
(neither the label filter alone nor the LCC mask alone), and the returned
attribute matrix equals the original rows at the cumulative-mask
positions. -/
theorem graph_select_labels_spec {α V L : Type} [DecidableEq L] (x : List α)
    (es : List (Nat × Nat)) (y : List Int) (v2i : List (V × Nat))
    (l2i : List (L × Int)) (sel : List Int)
    (hly : y.length = x.length)
    (hes : ∀ e ∈ es, e.1 < x.length ∧ e.2 < x.length)
    (hsel : countTrue (get_label_mask y sel) ≠ 0)
    (hcov : ∀ v ∈ y, v ∈ l2i.map Prod.snd) :
    ∃ out lcc_mask y2 l2i2 mask2,
      graph_get_largest_connected_component
        (graph_select_idxs (get_label_mask y sel) x es y v2i).1
        (graph_select_idxs (get_label_mask y sel) x es y v2i).2.1
        (graph_select_idxs (get_label_mask y sel) x es y v2i).2.2.1
        (graph_select_idxs (get_label_mask y sel) x es y v2i).2.2.2 =
        some (out, lcc_mask) ∧
      graph_select_labels x es y v2i l2i sel true true =
        some (out.1, out.2.1, y2, out.2.2.2, l2i2, mask2) ∧
      mask2.length = x.length ∧
      (∀ i, i < x.length → (mask2.getD i false = true ↔
        (y.getD i (-1) ∈ sel ∧
          lcc_mask.getD (maskRank (get_label_mask y sel) i) false = true))) ∧
      out.1 = maskFilter mask2 x := by
  have hml : (get_label_mask y sel).length = x.length := by
    rw [get_label_mask_length, hly]
  have hx1len : (graph_select_idxs (get_label_mask y sel) x es y v2i).1.length =
      countTrue (get_label_mask y sel) :=
    maskFilter_length _ x hml
  have hn1 : (graph_select_idxs (get_label_mask y sel) x es y v2i).1.length ≠ 0 := by
    rw [hx1len]
    exact hsel
  have hlne : compLabels
      (graph_select_idxs (get_label_mask y sel) x es y v2i).1.length
      (graph_select_idxs (get_label_mask y sel) x es y v2i).2.1 ≠ [] := by
    intro hc
    have := compLabels_length
      (graph_select_idxs (get_label_mask y sel) x es y v2i).1.length
      (graph_select_idxs (get_label_mask y sel) x es y v2i).2.1
    rw [hc] at this
    exact hn1 this.symm
  rcases lccLabel_isSome _ hlne with ⟨L, hL⟩
  have hlcc : graph_get_largest_connected_component
      (graph_select_idxs (get_label_mask y sel) x es y v2i).1
      (graph_select_idxs (get_label_mask y sel) x es y v2i).2.1
      (graph_select_idxs (get_label_mask y sel) x es y v2i).2.2.1
      (graph_select_idxs (get_label_mask y sel) x es y v2i).2.2.2 =
      some (graph_select_idxs
          (lccMask (graph_select_idxs (get_label_mask y sel) x es y v2i).1.length
            (graph_select_idxs (get_label_mask y sel) x es y v2i).2.1 L)
          (graph_select_idxs (get_label_mask y sel) x es y v2i).1
          (graph_select_idxs (get_label_mask y sel) x es y v2i).2.1
          (graph_select_idxs (get_label_mask y sel) x es y v2i).2.2.1
          (graph_select_idxs (get_label_mask y sel) x es y v2i).2.2.2,
        lccMask (graph_select_idxs (get_label_mask y sel) x es y v2i).1.length
          (graph_select_idxs (get_label_mask y sel) x es y v2i).2.1 L) := by
    unfold graph_get_largest_connected_component
    rw [hL]
  have hycov : ∀ v ∈ (graph_select_idxs
      (lccMask (graph_select_idxs (get_label_mask y sel) x es y v2i).1.length
        (graph_select_idxs (get_label_mask y sel) x es y v2i).2.1 L)
      (graph_select_idxs (get_label_mask y sel) x es y v2i).1
      (graph_select_idxs (get_label_mask y sel) x es y v2i).2.1
      (graph_select_idxs (get_label_mask y sel) x es y v2i).2.2.1
      (graph_select_idxs (get_label_mask y sel) x es y v2i).2.2.2).2.2.1,
      v ∈ l2i.map Prod.snd := by
    intro v hv
    have h1 : v ∈ (graph_select_idxs (get_label_mask y sel) x es y v2i).2.2.1 :=
      maskFilter_mem _ _ v hv
    have h2 : v ∈ y := maskFilter_mem _ _ v h1
    exact hcov v h2
  rcases compress_labels_isSome _ l2i hycov with ⟨y2, l2i2, comp, hcomp⟩
  have heval := graph_select_labels_eval x es y v2i l2i sel _ _ y2 l2i2 comp
    hlcc hcomp
  have hlcclen : (lccMask
      (graph_select_idxs (get_label_mask y sel) x es y v2i).1.length
      (graph_select_idxs (get_label_mask y sel) x es y v2i).2.1 L).length =
      countTrue (get_label_mask y sel) := by
    rw [lccMask_length, hx1len]
  refine ⟨_, _, y2, l2i2, _, hlcc, heval, ?_, ?_, ?_⟩
  · rw [updateMaskedAnd_length, hml]
  · intro i hi
    rw [updateMaskedAnd_getD _ _ hlcclen i, Bool.and_eq_true,
      get_label_mask_getD y sel i (by omega)]
    rw [decide_eq_true_iff]
  · show (maskFilter (lccMask
        (graph_select_idxs (get_label_mask y sel) x es y v2i).1.length
        (graph_select_idxs (get_label_mask y sel) x es y v2i).2.1 L)
        (maskFilter (get_label_mask y sel) x)) = _
    exact maskFilter_comp _ _ x hml hlcclen

/-- C7 witness: labels `[0, 0, 1]`, selecting label 0; the filtered graph
has two isolated vertices so the LCC step drops one of them. -/
theorem graph_select_labels_spec_witness :
    (([0, 0, 1] : List Int).length = ([1, 2, 3] : List Int).length ∧
     (∀ e ∈ ([(0, 2)] : List (Nat × Nat)),
        e.1 < ([1, 2, 3] : List Int).length ∧
        e.2 < ([1, 2, 3] : List Int).length) ∧
     countTrue (get_label_mask [0, 0, 1] [0]) ≠ 0 ∧
     (∀ v ∈ ([0, 0, 1] : List Int), v ∈ ([(7, 0), (8, 1)] :
        List (Nat × Int)).map Prod.snd)) ∧
    (∃ out lcc_mask y2 l2i2 mask2,
      graph_get_largest_connected_component
        (graph_select_idxs (get_label_mask [0, 0, 1] [0]) ([1, 2, 3] : List Int)
          [(0, 2)] [0, 0, 1] [(0, 0), (1, 1), (2, 2)]).1
        (graph_select_idxs (get_label_mask [0, 0, 1] [0]) ([1, 2, 3] : List Int)
          [(0, 2)] [0, 0, 1] [(0, 0), (1, 1), (2, 2)]).2.1
        (graph_select_idxs (get_label_mask [0, 0, 1] [0]) ([1, 2, 3] : List Int)
          [(0, 2)] [0, 0, 1] [(0, 0), (1, 1), (2, 2)]).2.2.1
        (graph_select_idxs (get_label_mask [0, 0, 1] [0]) ([1, 2, 3] : List Int)
          [(0, 2)] [0, 0, 1] [(0, 0), (1, 1), (2, 2)]).2.2.2 =
        some (out, lcc_mask) ∧
      graph_select_labels ([1, 2, 3] : List Int) [(0, 2)] [0, 0, 1]
        [(0, 0), (1, 1), (2, 2)] [(7, 0), (8, 1)] [0] true true =
        some (out.1, out.2.1, y2, out.2.2.2, l2i2, mask2) ∧
      mask2.length = ([1, 2, 3] : List Int).length ∧
      (∀ i, i < ([1, 2, 3] : List Int).length → (mask2.getD i false = true ↔
        (([0, 0, 1] : List Int).getD i (-1) ∈ ([0] : List Int) ∧
          lcc_mask.getD (maskRank (get_label_mask [0, 0, 1] [0]) i) false = true))) ∧
      out.1 = maskFilter mask2 [1, 2, 3]) :=
  ⟨⟨by decide, by decide, by decide, by decide⟩,
    graph_select_labels_spec ([1, 2, 3] : List Int) [(0, 2)] [0, 0, 1]
      [(0, 0), (1, 1), (2, 2)] [(7, 0), (8, 1)] [0]
      (by decide) (by decide) (by decide) (by decide)⟩

/-! ### `assert_integrity` (`src/data/util.py:250`)

The per-vertex checks are bare `assert`s executed in a fixed order
(attributes `np.allclose`, label names, intersection-restricted neighbour
name sets); the subset checks run first.  Failures are modelled by
`Except.error` carrying the failing check and vertex; the floating-point
closeness test `np.allclose` is an opaque boolean parameter `clo`.  The
upfront dict constructions can raise `KeyError` on ill-formed inputs; the
theorems assume the GraphView well-formedness invariants under which every
lookup is defined. -/

inductive ICheck : Type
  | attrClose
  | labelEq
  | nbrEq
deriving DecidableEq

inductive IntegrityError (V : Type) : Type
  | vertexSubset
  | labelSubset
  | vertexCheck (c : ICheck) (v : V)
deriving DecidableEq

/-- `vertex_to_x` of one graph, looked up at a vertex name. -/
def vertexAttr {α V : Type} [DecidableEq V] (x : List α) (v2i : List (V × Nat))
    (v : V) : Option α :=
  (alookup v2i v).bind (fun i => x[i]?)

/-- `vertex_to_label` (via the inverted `label_to_idx`), looked up at a
vertex name. -/
def vertexLabelName {V L : Type} [DecidableEq V] (y : List Int)
    (l2i : List (L × Int)) (v2i : List (V × Nat)) (v : V) : Option L :=
  (alookup v2i v).bind (fun i => (y[i]?).bind (fun lv => invLast l2i lv))

/-- `neighbours[v]`: names of the targets of edges whose source is `v`'s
position. -/
def nbrNames {V : Type} [DecidableEq V] (es : List (Nat × Nat))
    (v2i : List (V × Nat)) (v : V) : List V :=
  match alookup v2i v with
  | none => []
  | some vi => (es.filter (fun e => e.1 = vi)).filterMap
      (fun e => invLast v2i e.2)

/-- `np.allclose` lifted to the optional attribute lookups. -/
def optClose {α : Type} (clo : α → α → Bool) : Option α → Option α → Bool
  | some a, some b => clo a b
  | _, _ => false

/-- Set equality of two name lists. -/
def setEqV {V : Type} [DecidableEq V] (l1 l2 : List V) : Bool :=
  l1.all (fun u => decide (u ∈ l2)) && l2.all (fun u => decide (u ∈ l1))

/-- `vertex_intersection` in the order of the first graph's keys. -/
def interList {V : Type} [DecidableEq V] (v2i1 v2i2 : List (V × Nat)) : List V :=
  (v2i1.map Prod.fst).filter (fun v => decide (v ∈ v2i2.map Prod.fst))

/-- The first failing per-vertex check (in the order of the `assert`s), or
`none` if the vertex passes. -/
def checkVertex {α V L : Type} [DecidableEq V] [DecidableEq L]
    (clo : α → α → Bool) (x1 : List α) (es1 : List (Nat × Nat)) (y1 : List Int)
    (v2i1 : List (V × Nat)) (l2i1 : List (L × Int)) (x2 : List α)
    (es2 : List (Nat × Nat)) (y2 : List Int) (v2i2 : List (V × Nat))
    (l2i2 : List (L × Int)) (inter : List V) (v : V) : Option ICheck :=
  if optClose clo (vertexAttr x1 v2i1 v) (vertexAttr x2 v2i2 v) = true then
    if vertexLabelName y1 l2i1 v2i1 v = vertexLabelName y2 l2i2 v2i2 v then
      if setEqV ((nbrNames es1 v2i1 v).filter (fun u => decide (u ∈ inter)))
          ((nbrNames es2 v2i2 v).filter (fun u => decide (u ∈ inter))) = true then
        none
      else some ICheck.nbrEq
    else some ICheck.labelEq
  else some ICheck.attrClose

/-- The checking loop over the vertex intersection, accumulating
`num_asserted`. -/
def goCheck {α V L : Type} [DecidableEq V] [DecidableEq L]
    (clo : α → α → Bool) (x1 : List α) (es1 : List (Nat × Nat)) (y1 : List Int)
    (v2i1 : List (V × Nat)) (l2i1 : List (L × Int)) (x2 : List α)
    (es2 : List (Nat × Nat)) (y2 : List Int) (v2i2 : List (V × Nat))
    (l2i2 : List (L × Int)) (inter : List V) :
    List V → Nat → Except (IntegrityError V) Nat
  | [], k => Except.ok k
  | v :: vs, k =>
    match checkVertex clo x1 es1 y1 v2i1 l2i1 x2 es2 y2 v2i2 l2i2 inter v with
    | some c => Except.error (IntegrityError.vertexCheck c v)
    | none => goCheck clo x1 es1 y1 v2i1 l2i1 x2 es2 y2 v2i2 l2i2 inter vs (k + 1)

/-- `assert_integrity`. -/
def assert_integrity {α V L : Type} [DecidableEq V] [DecidableEq L]
    (clo : α → α → Bool) (x1 : List α) (es1 : List (Nat × Nat)) (y1 : List Int)
    (v2i1 : List (V × Nat)) (l2i1 : List (L × Int)) (x2 : List α)
    (es2 : List (Nat × Nat)) (y2 : List Int) (v2i2 : List (V × Nat))
    (l2i2 : List (L × Int)) (avs als : Bool) : Except (IntegrityError V) Nat :=
  if avs = true ∧ ¬ (∀ v ∈ v2i2.map Prod.fst, v ∈ v2i1.map Prod.fst) then
    Except.error IntegrityError.vertexSubset
  else if als = true ∧ ¬ (∀ l ∈ l2i2.map Prod.fst, l ∈ l2i1.map Prod.fst) then
    Except.error IntegrityError.labelSubset
  else
    goCheck clo x1 es1 y1 v2i1 l2i1 x2 es2 y2 v2i2 l2i2
      (interList v2i1 v2i2) (interList v2i1 v2i2) 0

theorem goCheck_ok_iff {α V L : Type} [DecidableEq V] [DecidableEq L]
    (clo : α → α → Bool) (x1 : List α) (es1 : List (Nat × Nat)) (y1 : List Int)
    (v2i1 : List (V × Nat)) (l2i1 : List (L × Int)) (x2 : List α)
    (es2 : List (Nat × Nat)) (y2 : List Int) (v2i2 : List (V × Nat))
    (l2i2 : List (L × Int)) (inter : List V) :
    ∀ (vs : List V) (k k' : Nat),
      goCheck clo x1 es1 y1 v2i1 l2i1 x2 es2 y2 v2i2 l2i2 inter vs k =
        Except.ok k' ↔
      ((∀ v ∈ vs, checkVertex clo x1 es1 y1 v2i1 l2i1 x2 es2 y2 v2i2 l2i2
          inter v = none) ∧ k' = k + vs.length) := by
  intro vs
  induction vs with
  | nil =>
    intro k k'
    simp [goCheck]
    exact ⟨fun h => h.symm, fun h => h.symm⟩
  | cons v vs ih =>
    intro k k'
    cases hc : checkVertex clo x1 es1 y1 v2i1 l2i1 x2 es2 y2 v2i2 l2i2 inter v
      with
    | some c =>
      simp only [goCheck, hc]
      constructor
      · intro h; exact absurd h (by simp)
      · intro h
        have := h.1 v (List.mem_cons_self v vs)
        rw [this] at hc
        exact absurd hc (by simp)
    | none =>
      simp only [goCheck, hc]
      rw [ih (k + 1) k']
      constructor
      · rintro ⟨hall, hk⟩
        refine ⟨?_, ?_⟩
        · intro w hw
          rcases List.mem_cons.1 hw with h | h
          · rw [h]; exact hc
          · exact hall w h
        · rw [hk, List.length_cons]; omega
      · rintro ⟨hall, hk⟩
        refine ⟨fun w hw => hall w (List.mem_cons_of_mem v hw), ?_⟩
        rw [hk, List.length_cons]; omega

theorem goCheck_error_vertex {α V L : Type} [DecidableEq V] [DecidableEq L]
    (clo : α → α → Bool) (x1 : List α) (es1 : List (Nat × Nat)) (y1 : List Int)
    (v2i1 : List (V × Nat)) (l2i1 : List (L × Int)) (x2 : List α)
    (es2 : List (Nat × Nat)) (y2 : List Int) (v2i2 : List (V × Nat))
    (l2i2 : List (L × Int)) (inter : List V) :
    ∀ (vs : List V) (k : Nat) (c : ICheck) (v : V),
      goCheck clo x1 es1 y1 v2i1 l2i1 x2 es2 y2 v2i2 l2i2 inter vs k =
        Except.error (IntegrityError.vertexCheck c v) →
      v ∈ vs ∧ checkVertex clo x1 es1 y1 v2i1 l2i1 x2 es2 y2 v2i2 l2i2
        inter v = some c := by
  intro vs
  induction vs with
  | nil => intro k c v h; exact absurd h (by simp [goCheck])
  | cons w vs ih =>
    intro k c v h
    cases hc : checkVertex clo x1 es1 y1 v2i1 l2i1 x2 es2 y2 v2i2 l2i2 inter w
      with
    | some c0 =>
      simp only [goCheck, hc] at h
      have h1 : IntegrityError.vertexCheck c0 w =
          IntegrityError.vertexCheck c v (V := V) := by
        injection h
      injection h1 with hcc hvv
      rw [← hvv, hc, hcc]
      exact ⟨List.mem_cons_self w vs, rfl⟩
    | none =>
      simp only [goCheck, hc] at h
      have := ih (k + 1) c v h
      exact ⟨List.mem_cons_of_mem w this.1, this.2⟩

/-- **C6.** `assert_integrity` returns `Except.ok k` iff the enabled subset
checks pass and every vertex in the identifier intersection passes all three
per-vertex checks, in which case `k` is exactly the number of vertices in the
intersection (a list without duplicates, given duplicate-free key lists);
any per-vertex error identifies a vertex of the intersection together with
the check — attribute closeness, label name equality, or equality of the
intersection-restricted neighbour name sets — that genuinely fails for it,
so no count is returned whenever some intersection vertex violates one of
the checks. -/
theorem assert_integrity_spec {α V L : Type} [DecidableEq V] [DecidableEq L]
    (clo : α → α → Bool) (x1 : List α) (es1 : List (Nat × Nat)) (y1 : List Int)
    (v2i1 : List (V × Nat)) (l2i1 : List (L × Int)) (x2 : List α)
    (es2 : List (Nat × Nat)) (y2 : List Int) (v2i2 : List (V × Nat))
    (l2i2 : List (L × Int)) (avs als : Bool)
    (hnd : (v2i1.map Prod.fst).Nodup) :
    (interList v2i1 v2i2).Nodup ∧
    (∀ k : Nat,
      assert_integrity clo x1 es1 y1 v2i1 l2i1 x2 es2 y2 v2i2 l2i2 avs als =
        Except.ok k ↔
      ((avs = true → ∀ v ∈ v2i2.map Prod.fst, v ∈ v2i1.map Prod.fst) ∧
       (als = true → ∀ l ∈ l2i2.map Prod.fst, l ∈ l2i1.map Prod.fst) ∧
       (∀ v ∈ interList v2i1 v2i2,
          checkVertex clo x1 es1 y1 v2i1 l2i1 x2 es2 y2 v2i2 l2i2
            (interList v2i1 v2i2) v = none) ∧
       k = (interList v2i1 v2i2).length)) ∧
    (∀ (c : ICheck) (v : V),
      assert_integrity clo x1 es1 y1 v2i1 l2i1 x2 es2 y2 v2i2 l2i2 avs als =
        Except.error (IntegrityError.vertexCheck c v) →
      v ∈ interList v2i1 v2i2 ∧
      checkVertex clo x1 es1 y1 v2i1 l2i1 x2 es2 y2 v2i2 l2i2
        (interList v2i1 v2i2) v = some c) ∧
    (∀ v : V,
      checkVertex clo x1 es1 y1 v2i1 l2i1 x2 es2 y2 v2i2 l2i2
        (interList v2i1 v2i2) v = none ↔
      (optClose clo (vertexAttr x1 v2i1 v) (vertexAttr x2 v2i2 v) = true ∧
       vertexLabelName y1 l2i1 v2i1 v = vertexLabelName y2 l2i2 v2i2 v ∧
       setEqV ((nbrNames es1 v2i1 v).filter
           (fun u => decide (u ∈ interList v2i1 v2i2)))
         ((nbrNames es2 v2i2 v).filter
           (fun u => decide (u ∈ interList v2i1 v2i2))) = true)) := by
  refine ⟨hnd.filter _, ?_, ?_, ?_⟩
  · intro k
    by_cases hA : avs = true ∧ ¬ (∀ v ∈ v2i2.map Prod.fst, v ∈ v2i1.map Prod.fst)
    · rw [assert_integrity, if_pos hA]
      constructor
      · intro h; exact absurd h (by simp)
      · rintro ⟨hsub, _, _, _⟩
        exact absurd (hsub hA.1) hA.2
    · by_cases hB : als = true ∧
          ¬ (∀ l ∈ l2i2.map Prod.fst, l ∈ l2i1.map Prod.fst)
      · rw [assert_integrity, if_neg hA, if_pos hB]
        constructor
        · intro h; exact absurd h (by simp)
        · rintro ⟨_, hsub, _, _⟩
          exact absurd (hsub hB.1) hB.2
      · rw [assert_integrity, if_neg hA, if_neg hB]
        rw [goCheck_ok_iff]
        constructor
        · rintro ⟨hall, hk⟩
          refine ⟨?_, ?_, hall, by omega⟩
          · intro ha
            by_contra hs
            exact hA ⟨ha, hs⟩
          · intro ha
            by_contra hs
            exact hB ⟨ha, hs⟩
        · rintro ⟨_, _, hall, hk⟩
          exact ⟨hall, by omega⟩
  · intro c v h
    by_cases hA : avs = true ∧ ¬ (∀ v ∈ v2i2.map Prod.fst, v ∈ v2i1.map Prod.fst)
    · rw [assert_integrity, if_pos hA] at h
      exact absurd (by injection h : IntegrityError.vertexSubset =
        IntegrityError.vertexCheck c v (V := V)) (by simp)
    · by_cases hB : als = true ∧
          ¬ (∀ l ∈ l2i2.map Prod.fst, l ∈ l2i1.map Prod.fst)
      · rw [assert_integrity, if_neg hA, if_pos hB] at h
        exact absurd (by injection h : IntegrityError.labelSubset =
          IntegrityError.vertexCheck c v (V := V)) (by simp)
      · rw [assert_integrity, if_neg hA, if_neg hB] at h
        exact goCheck_error_vertex clo x1 es1 y1 v2i1 l2i1 x2 es2 y2 v2i2 l2i2
          (interList v2i1 v2i2) (interList v2i1 v2i2) 0 c v h
  · intro v
    rw [checkVertex]
    split_ifs with h1 h2 h3
    · simp [h1, h2, h3]
    · simp [h3]
    · simp [h2]
    · simp [h1]

/-- Witness for C6: two identical two-vertex graphs pass all checks and the
returned count is the size (2) of the vertex intersection. -/
theorem assert_integrity_spec_witness :
    ((([(100, 0), (200, 1)] : List (Nat × Nat)).map Prod.fst).Nodup) ∧
    assert_integrity (fun (a b : Int) => decide (a = b)) [10, 20] [(0, 1)]
      [0, 1] [(100, 0), (200, 1)] [(7, 0), (8, 1)] [10, 20] [(0, 1)] [0, 1]
      [(100, 0), (200, 1)] [(7, 0), (8, 1)] true true = Except.ok 2 := by
  refine ⟨by decide, ?_⟩
  have h := assert_integrity_spec (fun (a b : Int) => decide (a = b)) [10, 20]
    [(0, 1)] [0, 1] [(100, 0), (200, 1)] [(7, 0), (8, 1)] [10, 20] [(0, 1)]
    [0, 1] [(100, 0), (200, 1)] [(7, 0), (8, 1)] true true (by decide)
  exact (h.2.1 2).mpr (by decide)

/-! ### `split_from_mask_stratified` (`src/data/util.py:354`)

`sizes` entries are rationals; `np.allclose(a, b)` is `|a - b| <= 1e-8 +
1e-5 * |b|`.  `int(x)` truncates toward zero (`pyInt`); `l[a:b]` follows
Python slice normalisation (`pySlice`).  The per-label `rng.shuffle` is an
explicit parameter.  The three trailing `assert`s gate the returned array:
a failure is modelled as `none`. -/

/-- Python `int()` on a rational: truncation toward zero. -/
def pyInt (q : ℚ) : Int := Int.tdiv q.num q.den

/-- Normalise one Python slice index against a list length. -/
def pySliceIdx (n : Nat) (i : Int) : Nat :=
  if i < 0 then (i + n).toNat else min i.toNat n

/-- Python `l[a:b]`. -/
def pySlice {A : Type} (l : List A) (a b : Int) : List A :=
  (l.take (pySliceIdx l.length b)).drop (pySliceIdx l.length a)

/-- `np.cumsum`. -/
def cumsum (l : List ℚ) : List ℚ :=
  (List.range l.length).map (fun i => (l.take (i + 1)).sum)

/-- `endpoints[-1] = 1.0` (the caller guarantees nonempty input). -/
def forceLast1 (l : List ℚ) : List ℚ := l.take (l.length - 1) ++ [1]

/-- `np.where((y == label) & mask)[0]`: ascending masked positions of one
label. -/
def labelIdxs (mask : List Bool) (y : List Int) (lab : Int) : List Nat :=
  (List.range y.length).filter
    (fun i => decide (y.getD i 0 = lab) && mask.getD i false)

/-- `split_mask[i, j] = True`. -/
def setCell (sm : List (List Bool)) (i j : Nat) : List (List Bool) :=
  sm.set i ((sm.getD i []).set j true)

/-- Read `split_mask[i, j]` (`false` out of range). -/
def cell (sm : List (List Bool)) (i j : Nat) : Bool :=
  (sm.getD i []).getD j false

/-- The inner `for set_idx, endpoint in enumerate(endpoints)` loop for one
label: `start`/`end_idx` slicing with the running column index `j`. -/
def fillLabel (idxs : List Nat) : List ℚ → Int → Nat → List (List Bool) →
    List (List Bool)
  | [], _, _, sm => sm
  | e :: es, start, j, sm =>
    fillLabel idxs es (pyInt ((idxs.length : ℚ) * e)) (j + 1)
      ((pySlice idxs start (pyInt ((idxs.length : ℚ) * e))).foldl
        (fun sm2 i => setCell sm2 i j) sm)

/-- `split_mask.sum()`. -/
def smTotal (sm : List (List Bool)) : Nat := (sm.map countTrue).sum

/-- `(split_mask.sum(1) <= 1).all()`. -/
def rowsLe1 (sm : List (List Bool)) : Bool :=
  sm.all (fun row => decide (countTrue row ≤ 1))

/-- `not (split_mask.sum(1).astype(bool) & (~mask)).any()`. -/
def noOutside (sm : List (List Bool)) (mask : List Bool) : Bool :=
  (List.range sm.length).all
    (fun i => mask.getD i false || decide (countTrue (sm.getD i []) = 0))

/-- `split_from_mask_stratified`.  `none` models an `AssertionError` (shape
mismatch, sizes not summing to 1 within `np.allclose` tolerance, or a
failing final assert). -/
def split_from_mask_stratified (shuffle : List Nat → List Nat)
    (mask : List Bool) (y : List Int) (sizes : List ℚ) :
    Option (List (List Bool)) :=
  if mask.length = y.length ∧ |sizes.sum - 1| ≤ 1001 / 100000000 then
    let endpoints := forceLast1 (cumsum sizes)
    let sm := (uniqueSorted y).foldl
      (fun sm lab => fillLabel (shuffle (labelIdxs mask y lab)) endpoints 0 0 sm)
      (List.replicate y.length (List.replicate sizes.length false))
    if |(smTotal sm : ℚ) - (countTrue mask : ℚ)| ≤
          1 / 100000000 + (countTrue mask : ℚ) / 100000 ∧
        rowsLe1 sm = true ∧ noOutside sm mask = true then
      some sm
    else none
  else none

theorem pyInt_natCast (n : Nat) : pyInt (n : ℚ) = n := by
  rw [pyInt, Rat.num_natCast, Rat.den_natCast]
  exact Int.tdiv_one n

theorem pyInt_nonneg (q : ℚ) (h : 0 ≤ q) : 0 ≤ pyInt q := by
  rw [pyInt]
  exact Int.tdiv_nonneg (Rat.num_nonneg.2 h) (Int.ofNat_nonneg q.den)

theorem pyInt_cast_le (q : ℚ) (h : 0 ≤ q) : (pyInt q : ℚ) ≤ q := by
  rw [pyInt]
  have hden : (0 : ℚ) < (q.den : ℚ) := by
    exact_mod_cast q.den_pos
  have hmod : 0 ≤ q.num.tmod q.den := Int.tmod_nonneg _ (Rat.num_nonneg.2 h)
  have heq : (q.den : Int) * q.num.tdiv q.den + q.num.tmod q.den = q.num :=
    Int.tdiv_add_tmod q.num q.den
  conv_rhs => rw [← Rat.num_div_den q]
  rw [le_div_iff hden]
  have h2 : ((q.num.tdiv q.den : Int) : ℚ) * (q.den : ℚ) ≤ (q.num : ℚ) := by
    have h3 : (q.den : Int) * q.num.tdiv q.den ≤ q.num := by omega
    calc ((q.num.tdiv q.den : Int) : ℚ) * (q.den : ℚ)
        = (((q.den : Int) * q.num.tdiv q.den : Int) : ℚ) := by push_cast; ring
      _ ≤ (q.num : ℚ) := by exact_mod_cast h3
  exact_mod_cast h2

theorem lt_pyInt_add_one (q : ℚ) (h : 0 ≤ q) : q < pyInt q + 1 := by
  rw [pyInt]
  have hden : (0 : ℚ) < (q.den : ℚ) := by
    exact_mod_cast q.den_pos
  have hmod : q.num.tmod q.den < q.den :=
    Int.tmod_lt_of_pos q.num (by exact_mod_cast q.den_pos)
  have heq : (q.den : Int) * q.num.tdiv q.den + q.num.tmod q.den = q.num :=
    Int.tdiv_add_tmod q.num q.den
  conv_lhs => rw [← Rat.num_div_den q]
  rw [div_lt_iff hden]
  have h3 : q.num < (q.den : Int) * (q.num.tdiv q.den + 1) := by
    have := Int.ofNat_pos.2 q.den_pos
    nlinarith [heq, hmod]
  calc (q.num : ℚ) < (((q.den : Int) * (q.num.tdiv q.den + 1) : Int) : ℚ) := by
        exact_mod_cast h3
    _ = ((q.num.tdiv q.den : Int) + 1 : ℚ) * (q.den : ℚ) := by push_cast; ring

theorem pyInt_mono (q r : ℚ) (hq : 0 ≤ q) (h : q ≤ r) : pyInt q ≤ pyInt r := by
  have h1 : (pyInt q : ℚ) ≤ q := pyInt_cast_le q hq
  have h2 : r < pyInt r + 1 := lt_pyInt_add_one r (le_trans hq h)
  have h3 : (pyInt q : ℚ) < (pyInt r : ℚ) + 1 := by
    calc (pyInt q : ℚ) ≤ q := h1
      _ ≤ r := h
      _ < pyInt r + 1 := h2
  have h4 : pyInt q < pyInt r + 1 := by exact_mod_cast h3
  omega

theorem pySliceIdx_le (n : Nat) (i : Int) : pySliceIdx n i ≤ n := by
  rw [pySliceIdx]
  by_cases h : i < 0
  · rw [if_pos h]
    omega
  · rw [if_neg h]
    exact min_le_right _ _

theorem pySliceIdx_nonneg (n : Nat) (i : Int) (h : 0 ≤ i) :
    pySliceIdx n i = min i.toNat n := by
  rw [pySliceIdx, if_neg (by omega)]

theorem pySliceIdx_mono (n : Nat) (i j : Int) (hi : 0 ≤ i) (h : i ≤ j) :
    pySliceIdx n i ≤ pySliceIdx n j := by
  rw [pySliceIdx_nonneg n i hi, pySliceIdx_nonneg n j (le_trans hi h)]
  have : i.toNat ≤ j.toNat := by omega
  omega

theorem pySliceIdx_length (n : Nat) : pySliceIdx n (n : Int) = n := by
  rw [pySliceIdx_nonneg n n (Int.ofNat_nonneg n)]
  simp

theorem mem_pySlice {A : Type} (l : List A) (a b : Int) (x : A) :
    x ∈ pySlice l a b ↔ ∃ p : Nat, pySliceIdx l.length a ≤ p ∧
      p < pySliceIdx l.length b ∧ l[p]? = some x := by
  rw [pySlice, List.mem_iff_getElem?]
  constructor
  · rintro ⟨q, hq⟩
    rw [List.getElem?_drop, List.getElem?_take] at hq
    by_cases hlt : pySliceIdx l.length a + q < pySliceIdx l.length b
    · rw [if_pos hlt] at hq
      exact ⟨pySliceIdx l.length a + q, Nat.le_add_right _ _, hlt, hq⟩
    · rw [if_neg hlt] at hq
      exact absurd hq (by simp)
  · rintro ⟨p, hap, hpb, hp⟩
    refine ⟨p - pySliceIdx l.length a, ?_⟩
    rw [List.getElem?_drop, List.getElem?_take]
    have h1 : pySliceIdx l.length a + (p - pySliceIdx l.length a) = p := by omega
    rw [h1, if_pos hpb]
    exact hp

theorem pySlice_subset {A : Type} (l : List A) (a b : Int) :
    ∀ x ∈ pySlice l a b, x ∈ l := by
  intro x hx
  rcases (mem_pySlice l a b x).1 hx with ⟨p, _, _, hp⟩
  exact List.mem_iff_getElem?.2 ⟨p, hp⟩

/-- A well-shaped `[n, m]` boolean array. -/
def Uniform (sm : List (List Bool)) (n m : Nat) : Prop :=
  sm.length = n ∧ ∀ r ∈ sm, r.length = m

theorem uniform_getD (sm : List (List Bool)) (n m : Nat) (hu : Uniform sm n m)
    (i : Nat) (hi : i < n) : (sm.getD i []).length = m := by
  rw [List.getD_eq_getElem?_getD]
  have h1 := hu.1
  have hilen : i < sm.length := by omega
  rw [List.getElem?_eq_getElem hilen]
  exact hu.2 _ (List.getElem_mem hilen)

theorem uniform_setCell (sm : List (List Bool)) (n m : Nat)
    (hu : Uniform sm n m) (i j : Nat) (hi : i < n) :
    Uniform (setCell sm i j) n m := by
  refine ⟨by rw [setCell, List.length_set]; exact hu.1, ?_⟩
  intro r hr
  rcases List.mem_or_eq_of_mem_set hr with h | h
  · exact hu.2 r h
  · rw [h, List.length_set]
    exact uniform_getD sm n m hu i hi

theorem cell_setCell (sm : List (List Bool)) (n m : Nat) (hu : Uniform sm n m)
    (i0 j0 : Nat) (hi0 : i0 < n) (hj0 : j0 < m) (i j : Nat) :
    cell (setCell sm i0 j0) i j = true ↔
      (cell sm i j = true ∨ (i = i0 ∧ j = j0)) := by
  have h1 := hu.1
  have hi0l : i0 < sm.length := by omega
  have hrow : (sm[i0]?.getD []).length = m := by
    rw [← List.getD_eq_getElem?_getD]
    exact uniform_getD sm n m hu i0 hi0
  simp only [cell, setCell, List.getD_eq_getElem?_getD]
  by_cases hii : i = i0
  · rw [hii, List.getElem?_set_self hi0l]
    simp only [Option.getD_some]
    by_cases hjj : j = j0
    · rw [hjj, List.getElem?_set_self (by omega)]
      simp
    · rw [List.getElem?_set_ne (fun h => hjj h.symm)]
      simp [hjj]
  · rw [List.getElem?_set_ne (fun h => hii h.symm)]
    simp [hii]

theorem uniform_foldl_setCell (sel : List Nat) (j0 : Nat) :
    ∀ (sm : List (List Bool)) (n m : Nat), Uniform sm n m →
      (∀ i ∈ sel, i < n) →
      Uniform (sel.foldl (fun s i => setCell s i j0) sm) n m := by
  induction sel with
  | nil => intro sm n m hu _; exact hu
  | cons i0 sel ih =>
    intro sm n m hu hsel
    rw [List.foldl_cons]
    exact ih _ n m (uniform_setCell sm n m hu i0 j0
        (hsel i0 (List.mem_cons_self _ _)))
      (fun i hi => hsel i (List.mem_cons_of_mem _ hi))

theorem cell_foldl_setCell (sel : List Nat) (j0 : Nat) :
    ∀ (sm : List (List Bool)) (n m : Nat), Uniform sm n m →
      (∀ i ∈ sel, i < n) → j0 < m →
      ∀ i j, cell (sel.foldl (fun s i => setCell s i j0) sm) i j = true ↔
        (cell sm i j = true ∨ (i ∈ sel ∧ j = j0)) := by
  induction sel with
  | nil => intro sm n m _ _ _ i j; simp
  | cons i0 sel ih =>
    intro sm n m hu hsel hj0 i j
    rw [List.foldl_cons]
    rw [ih _ n m (uniform_setCell sm n m hu i0 j0
        (hsel i0 (List.mem_cons_self _ _)))
      (fun i hi => hsel i (List.mem_cons_of_mem _ hi)) hj0]
    rw [cell_setCell sm n m hu i0 j0 (hsel i0 (List.mem_cons_self _ _)) hj0]
    constructor
    · rintro ((h | ⟨h1, h2⟩) | ⟨h1, h2⟩)
      · exact Or.inl h
      · exact Or.inr ⟨h1 ▸ List.mem_cons_self _ _, h2⟩
      · exact Or.inr ⟨List.mem_cons_of_mem _ h1, h2⟩
    · rintro (h | ⟨h1, h2⟩)
      · exact Or.inl (Or.inl h)
      · rcases List.mem_cons.1 h1 with h3 | h3
        · exact Or.inl (Or.inr ⟨h3, h2⟩)
        · exact Or.inr ⟨h3, h2⟩

/-- The running `start_idx` before slice `t`: `0`, then each previous
`end_idx`. -/
def chainS (K : Nat) (s0 : Int) (es : List ℚ) : Nat → Int
  | 0 => s0
  | t + 1 => pyInt ((K : ℚ) * es.getD t 0)

theorem chainS_cons (K : Nat) (s0 : Int) (e : ℚ) (es : List ℚ) (t : Nat) :
    chainS K s0 (e :: es) (t + 1) = chainS K (pyInt ((K : ℚ) * e)) es t := by
  cases t with
  | zero => rw [chainS, chainS, List.getD_cons_zero]
  | succ u => rw [chainS, chainS, List.getD_cons_succ]

theorem uniform_fillLabel (idxs : List Nat) (es : List ℚ) :
    ∀ (s0 : Int) (j0 : Nat) (sm : List (List Bool)) (n m : Nat),
      Uniform sm n m → (∀ i ∈ idxs, i < n) →
      Uniform (fillLabel idxs es s0 j0 sm) n m := by
  induction es with
  | nil => intro s0 j0 sm n m hu _; exact hu
  | cons e es ih =>
    intro s0 j0 sm n m hu hidx
    rw [fillLabel]
    exact ih _ _ _ n m
      (uniform_foldl_setCell _ j0 sm n m hu
        (fun i hi => hidx i (pySlice_subset idxs _ _ i hi))) hidx

theorem cell_fillLabel (idxs : List Nat) (es : List ℚ) :
    ∀ (s0 : Int) (j0 : Nat) (sm : List (List Bool)) (n m : Nat),
      Uniform sm n m → (∀ i ∈ idxs, i < n) → j0 + es.length ≤ m →
      ∀ i j, cell (fillLabel idxs es s0 j0 sm) i j = true ↔
        (cell sm i j = true ∨ ∃ t, t < es.length ∧ j = j0 + t ∧
          i ∈ pySlice idxs (chainS idxs.length s0 es t)
            (pyInt ((idxs.length : ℚ) * es.getD t 0))) := by
  induction es with
  | nil =>
    intro s0 j0 sm n m _ _ _ i j
    rw [fillLabel]
    simp
  | cons e es ih =>
    intro s0 j0 sm n m hu hidx hcols i j
    rw [fillLabel]
    have hsel : ∀ i ∈ pySlice idxs s0 (pyInt ((idxs.length : ℚ) * e)), i < n :=
      fun i hi => hidx i (pySlice_subset idxs _ _ i hi)
    have hu2 : Uniform ((pySlice idxs s0 (pyInt ((idxs.length : ℚ) * e))).foldl
        (fun sm2 i => setCell sm2 i j0) sm) n m :=
      uniform_foldl_setCell _ j0 sm n m hu hsel
    rw [ih _ _ _ n m hu2 hidx (by rw [List.length_cons] at hcols; omega) i j]
    rw [cell_foldl_setCell _ j0 sm n m hu hsel
      (by rw [List.length_cons] at hcols; omega) i j]
    constructor
    · rintro ((h | ⟨h1, h2⟩) | ⟨t, ht, hj, hmem⟩)
      · exact Or.inl h
      · refine Or.inr ⟨0, by simp, by omega, ?_⟩
        rw [chainS, List.getD_cons_zero]
        exact h1
      · refine Or.inr ⟨t + 1, by simp [Nat.succ_lt_succ ht], by omega, ?_⟩
        rw [chainS_cons, List.getD_cons_succ]
        exact hmem
    · rintro (h | ⟨t, ht, hj, hmem⟩)
      · exact Or.inl (Or.inl h)
      · cases t with
        | zero =>
          rw [chainS, List.getD_cons_zero] at hmem
          exact Or.inl (Or.inr ⟨hmem, by omega⟩)
        | succ u =>
          rw [chainS_cons, List.getD_cons_succ] at hmem
          refine Or.inr ⟨u, ?_, by omega, hmem⟩
          rw [List.length_cons] at ht
          omega

theorem cell_replicate (n m i j : Nat) :
    cell (List.replicate n (List.replicate m false)) i j = false := by
  simp only [cell, List.getD_eq_getElem?_getD, List.getElem?_replicate]
  by_cases h : i < n
  · rw [if_pos h, Option.getD_some, List.getElem?_replicate]
    by_cases h2 : j < m
    · rw [if_pos h2, Option.getD_some]
    · rw [if_neg h2, Option.getD_none]
  · rw [if_neg h, Option.getD_none]
    simp

theorem uniform_labelsFold (f : Int → List Nat) (es : List ℚ) :
    ∀ (labs : List Int) (sm : List (List Bool)) (n m : Nat), Uniform sm n m →
      (∀ lab, ∀ i ∈ f lab, i < n) →
      Uniform (labs.foldl (fun sm lab => fillLabel (f lab) es 0 0 sm) sm) n m := by
  intro labs
  induction labs with
  | nil => intro sm n m hu _; exact hu
  | cons lab labs ih =>
    intro sm n m hu hidx
    rw [List.foldl_cons]
    exact ih _ n m (uniform_fillLabel _ es 0 0 sm n m hu (hidx lab)) hidx

theorem cell_labelsFold (f : Int → List Nat) (es : List ℚ) :
    ∀ (labs : List Int) (sm : List (List Bool)) (n m : Nat), Uniform sm n m →
      (∀ lab, ∀ i ∈ f lab, i < n) → es.length ≤ m →
      ∀ i j, cell (labs.foldl (fun sm lab => fillLabel (f lab) es 0 0 sm) sm)
          i j = true ↔
        (cell sm i j = true ∨ ∃ lab ∈ labs, ∃ t, t < es.length ∧ j = t ∧
          i ∈ pySlice (f lab) (chainS (f lab).length 0 es t)
            (pyInt (((f lab).length : ℚ) * es.getD t 0))) := by
  intro labs
  induction labs with
  | nil => intro sm n m _ _ _ i j; simp
  | cons lab labs ih =>
    intro sm n m hu hidx hes i j
    rw [List.foldl_cons]
    rw [ih _ n m (uniform_fillLabel _ es 0 0 sm n m hu (hidx lab)) hidx hes i j]
    rw [cell_fillLabel (f lab) es 0 0 sm n m hu (hidx lab) (by omega) i j]
    constructor
    · rintro ((h | ⟨t, ht, hj, hmem⟩) | ⟨lab2, hlab2, t, ht, hj, hmem⟩)
      · exact Or.inl h
      · exact Or.inr ⟨lab, List.mem_cons_self _ _, t, ht, by omega, hmem⟩
      · exact Or.inr ⟨lab2, List.mem_cons_of_mem _ hlab2, t, ht, hj, hmem⟩
    · rintro (h | ⟨lab2, hlab2, t, ht, hj, hmem⟩)
      · exact Or.inl (Or.inl h)
      · rcases List.mem_cons.1 hlab2 with h3 | h3
        · exact Or.inl (Or.inr ⟨t, ht, by omega, h3 ▸ hmem⟩)
        · exact Or.inr ⟨lab2, h3, t, ht, hj, hmem⟩

theorem length_cumsum (l : List ℚ) : (cumsum l).length = l.length := by
  rw [cumsum, List.length_map, List.length_range]

theorem length_forceLast1 (l : List ℚ) (h : l ≠ []) :
    (forceLast1 l).length = l.length := by
  rw [forceLast1, List.length_append, List.length_take]
  have : 0 < l.length := List.length_pos.2 h
  simp only [List.length_singleton]
  omega

theorem getElem?_cumsum (l : List ℚ) (t : Nat) (ht : t < l.length) :
    (cumsum l)[t]? = some ((l.take (t + 1)).sum) := by
  rw [cumsum, List.getElem?_map, List.getElem?_range ht]
  rfl

theorem endpoints_getD_lt (sizes : List ℚ) (t : Nat)
    (ht : t + 1 < sizes.length) :
    (forceLast1 (cumsum sizes)).getD t 0 = (sizes.take (t + 1)).sum := by
  have hlen : ((cumsum sizes).take ((cumsum sizes).length - 1)).length =
      sizes.length - 1 := by
    rw [List.length_take, length_cumsum]
    omega
  rw [forceLast1, List.getD_eq_getElem?_getD, List.getElem?_append,
    if_pos (by rw [hlen]; omega), List.getElem?_take,
    if_pos (by rw [length_cumsum]; omega),
    getElem?_cumsum sizes t (by omega), Option.getD_some]

theorem endpoints_getD_last (sizes : List ℚ) (h : sizes ≠ []) :
    (forceLast1 (cumsum sizes)).getD (sizes.length - 1) 0 = 1 := by
  have hL : 0 < sizes.length := List.length_pos.2 h
  have hlen : ((cumsum sizes).take ((cumsum sizes).length - 1)).length =
      sizes.length - 1 := by
    rw [List.length_take, length_cumsum]
    omega
  rw [forceLast1, List.getD_eq_getElem?_getD,
    List.getElem?_append_right (by rw [hlen]), hlen]
  simp

theorem sum_take_mono (l : List ℚ) (hnn : ∀ x ∈ l, 0 ≤ x) (a b : Nat)
    (hab : a ≤ b) : (l.take a).sum ≤ (l.take b).sum := by
  conv_rhs => rw [← List.take_append_drop a (l.take b), List.take_take,
    min_eq_left hab]
  rw [List.sum_append]
  have h2 : 0 ≤ ((l.take b).drop a).sum := by
    refine List.sum_nonneg ?_
    intro x hx
    exact hnn x (List.take_subset b l (List.drop_subset a _ hx))
  linarith

theorem endpoints_nonneg (sizes : List ℚ) (h : sizes ≠ [])
    (hnn : ∀ q ∈ sizes, 0 ≤ q) (t : Nat) :
    0 ≤ (forceLast1 (cumsum sizes)).getD t 0 := by
  by_cases h1 : t + 1 < sizes.length
  · rw [endpoints_getD_lt sizes t h1]
    refine List.sum_nonneg ?_
    intro x hx
    exact hnn x (List.take_subset _ _ hx)
  · by_cases h2 : t = sizes.length - 1
    · rw [h2, endpoints_getD_last sizes h]
      norm_num
    · have hL : 0 < sizes.length := List.length_pos.2 h
      have hcne : cumsum sizes ≠ [] := by
        rw [← List.length_pos, length_cumsum]
        exact hL
      rw [List.getD_eq_getElem?_getD, List.getElem?_eq_none]
      · simp
      · rw [length_forceLast1 _ hcne, length_cumsum]
        omega

/-- The clamped `end_idx` of slice `t`. -/
def sliceEndIdx (idxs : List Nat) (es : List ℚ) (t : Nat) : Nat :=
  pySliceIdx idxs.length (pyInt ((idxs.length : ℚ) * es.getD t 0))

theorem pySliceIdx_chainS_zero (K : Nat) (es : List ℚ) :
    pySliceIdx K (chainS K 0 es 0) = 0 := by
  rw [chainS, pySliceIdx_nonneg K 0 le_rfl]
  simp

theorem pySliceIdx_chainS_succ (idxs : List Nat) (es : List ℚ) (t : Nat) :
    pySliceIdx idxs.length (chainS idxs.length 0 es (t + 1)) =
      sliceEndIdx idxs es t := by
  rw [chainS, sliceEndIdx]

theorem sliceEndIdx_le (idxs : List Nat) (es : List ℚ) (t : Nat) :
    sliceEndIdx idxs es t ≤ idxs.length := by
  rw [sliceEndIdx]
  exact pySliceIdx_le _ _

theorem sliceEndIdx_last (idxs : List Nat) (sizes : List ℚ) (h : sizes ≠ []) :
    sliceEndIdx idxs (forceLast1 (cumsum sizes)) (sizes.length - 1) =
      idxs.length := by
  rw [sliceEndIdx, endpoints_getD_last sizes h, mul_one]
  rw [pyInt_natCast, pySliceIdx_length]

theorem sliceEndIdx_mono (idxs : List Nat) (sizes : List ℚ) (h : sizes ≠ [])
    (hnn : ∀ q ∈ sizes, 0 ≤ q) (t t' : Nat) (htt : t ≤ t')
    (ht' : t' < sizes.length) :
    sliceEndIdx idxs (forceLast1 (cumsum sizes)) t ≤
      sliceEndIdx idxs (forceLast1 (cumsum sizes)) t' := by
  by_cases hlast : t' = sizes.length - 1
  · rw [hlast, sliceEndIdx_last idxs sizes h]
    exact sliceEndIdx_le _ _ _
  · have ht'2 : t' + 1 < sizes.length := by
      have := List.length_pos.2 h
      omega
    have hc : (forceLast1 (cumsum sizes)).getD t 0 ≤
        (forceLast1 (cumsum sizes)).getD t' 0 := by
      rw [endpoints_getD_lt sizes t (by omega), endpoints_getD_lt sizes t' ht'2]
      exact sum_take_mono sizes hnn _ _ (by omega)
    have h0 : (0 : ℚ) ≤ (forceLast1 (cumsum sizes)).getD t 0 :=
      endpoints_nonneg sizes h hnn t
    have hK : (0 : ℚ) ≤ (idxs.length : ℚ) := by positivity
    rw [sliceEndIdx, sliceEndIdx]
    refine pySliceIdx_mono _ _ _ ?_ ?_
    · exact pyInt_nonneg _ (by positivity)
    · exact pyInt_mono _ _ (by positivity) (by nlinarith)

theorem chunk_unique (idxs : List Nat) (es : List ℚ) (hnd : idxs.Nodup)
    (M : Nat) (hM : es.length = M) (hMpos : 0 < M)
    (hmono : ∀ t t', t ≤ t' → t' < M →
      sliceEndIdx idxs es t ≤ sliceEndIdx idxs es t')
    (hlast : sliceEndIdx idxs es (M - 1) = idxs.length)
    (i : Nat) (hi : i ∈ idxs) :
    ∃ t, t < M ∧
      i ∈ pySlice idxs (chainS idxs.length 0 es t)
        (pyInt ((idxs.length : ℚ) * es.getD t 0)) ∧
      ∀ t', t' < M →
        i ∈ pySlice idxs (chainS idxs.length 0 es t')
          (pyInt ((idxs.length : ℚ) * es.getD t' 0)) → t' = t := by
  rcases List.mem_iff_getElem.1 hi with ⟨p, hp, hpi⟩
  have hex : ∃ t, p < sliceEndIdx idxs es t := ⟨M - 1, by rw [hlast]; exact hp⟩
  have hfind := Nat.find_spec hex
  have hle : Nat.find hex ≤ M - 1 :=
    Nat.find_min' hex (by rw [hlast]; exact hp)
  have htM : Nat.find hex < M := by omega
  refine ⟨Nat.find hex, htM, ?_, ?_⟩
  · rw [mem_pySlice]
    refine ⟨p, ?_, ?_, List.getElem?_eq_some.2 ⟨hp, hpi⟩⟩
    · cases hfe : Nat.find hex with
      | zero => rw [pySliceIdx_chainS_zero]; omega
      | succ u =>
        rw [pySliceIdx_chainS_succ]
        have hnotu : ¬ p < sliceEndIdx idxs es u :=
          Nat.find_min hex (by omega)
        omega
    · exact hfind
  · intro t' ht' hmem
    rcases (mem_pySlice idxs _ _ i).1 hmem with ⟨p', ha', hb', hp'⟩
    rcases List.getElem?_eq_some.1 hp' with ⟨hp'len, hp'val⟩
    have hpp : p' = p :=
      (@List.Nodup.getElem_inj_iff Nat idxs hnd p' hp'len p hp).1
        (by rw [hp'val, hpi])
    subst hpp
    have hPt' : p' < sliceEndIdx idxs es t' := by
      rw [sliceEndIdx]
      exact hb'
    have h1 : Nat.find hex ≤ t' := Nat.find_min' hex hPt'
    by_contra hne
    have h2 : Nat.find hex ≤ t' - 1 := by omega
    have h3 : sliceEndIdx idxs es (Nat.find hex) ≤ sliceEndIdx idxs es (t' - 1) :=
      hmono _ _ h2 (by omega)
    have h4 : t' = (t' - 1) + 1 := by omega
    rw [h4] at ha'
    rw [pySliceIdx_chainS_succ] at ha'
    omega

theorem mem_labelIdxs (mask : List Bool) (y : List Int) (lab : Int) (i : Nat) :
    i ∈ labelIdxs mask y lab ↔
      i < y.length ∧ y.getD i 0 = lab ∧ mask.getD i false = true := by
  rw [labelIdxs, List.mem_filter, List.mem_range]
  simp [and_assoc]

theorem nodup_labelIdxs (mask : List Bool) (y : List Int) (lab : Int) :
    (labelIdxs mask y lab).Nodup :=
  (List.nodup_range _).filter _

theorem nodup_all_eq_length_one {A : Type} (l : List A) (a : A)
    (hnd : l.Nodup) (ha : a ∈ l) (hall : ∀ b ∈ l, b = a) : l.length = 1 := by
  cases l with
  | nil => cases ha
  | cons b t =>
    cases t with
    | nil => rfl
    | cons c t2 =>
      exfalso
      have hb : b = a := hall b (List.mem_cons_self _ _)
      have hc : c = a := hall c (List.mem_cons_of_mem _ (List.mem_cons_self _ _))
      have : b ∉ c :: t2 := (List.nodup_cons.1 hnd).1
      exact this (by rw [hb, ← hc]; exact List.mem_cons_self _ _)

theorem sum_map_boolNat (mask : List Bool) :
    (mask.map (fun b => if b then (1 : Nat) else 0)).sum = countTrue mask := by
  induction mask with
  | nil => rfl
  | cons b m ih => cases b <;> simp [countTrue, ih] <;> omega

theorem cell_split_fold (shuffle : List Nat → List Nat) (mask : List Bool)
    (y : List Int) (es : List ℚ) (m : Nat)
    (hidx : ∀ lab : Int, ∀ i ∈ shuffle (labelIdxs mask y lab), i < y.length)
    (hes : es.length ≤ m) :
    ∀ i j, cell ((uniqueSorted y).foldl
        (fun sm lab => fillLabel (shuffle (labelIdxs mask y lab)) es 0 0 sm)
        (List.replicate y.length (List.replicate m false))) i j = true ↔
      ∃ lab ∈ uniqueSorted y, ∃ t, t < es.length ∧ j = t ∧
        i ∈ pySlice (shuffle (labelIdxs mask y lab))
          (chainS (shuffle (labelIdxs mask y lab)).length 0 es t)
          (pyInt (((shuffle (labelIdxs mask y lab)).length : ℚ) *
            es.getD t 0)) := by
  intro i j
  have h0 := cell_labelsFold (fun lab => shuffle (labelIdxs mask y lab)) es
    (uniqueSorted y) (List.replicate y.length (List.replicate m false))
    y.length m
    ⟨by simp, fun r hr => by rw [List.eq_of_mem_replicate hr]; simp⟩
    hidx hes i j
  rw [cell_replicate] at h0
  simp only [Bool.false_eq_true, false_or] at h0
  exact h0

theorem getD_eq_getElem_of_lt {A : Type} (l : List A) (d : A) (i : Nat)
    (h : i < l.length) : l.getD i d = l[i] := by
  rw [List.getD_eq_getElem?_getD, List.getElem?_eq_getElem h, Option.getD_some]

/-- **C4 (amended).** For equal-length mask and labels, a permutation
shuffle, NONNEGATIVE sizes summing to 1 within the `np.allclose` tolerance,
`split_from_mask_stratified` succeeds and returns an `[N, len(sizes)]`
boolean array whose total count of set entries equals `mask.sum()`, in which
every row has at most one set entry, rows outside `mask` have none, and
every masked row has exactly one (every masked vertex lands in exactly one
split). -/
theorem split_from_mask_stratified_spec (shuffle : List Nat → List Nat)
    (mask : List Bool) (y : List Int) (sizes : List ℚ)
    (hperm : ∀ l : List Nat, List.Perm (shuffle l) l)
    (hlen : mask.length = y.length)
    (hnn : ∀ q ∈ sizes, 0 ≤ q)
    (hsum : |sizes.sum - 1| ≤ 1001 / 100000000) :
    ∃ sm, split_from_mask_stratified shuffle mask y sizes = some sm ∧
      sm.length = mask.length ∧
      (∀ row ∈ sm, row.length = sizes.length) ∧
      smTotal sm = countTrue mask ∧
      (∀ row ∈ sm, countTrue row ≤ 1) ∧
      (∀ i, i < mask.length →
        countTrue (sm.getD i []) = if mask.getD i false = true then 1 else 0) := by
  have hne : sizes ≠ [] := by
    intro h0
    rw [h0, List.sum_nil] at hsum
    norm_num at hsum
  have hm : 0 < sizes.length := List.length_pos.2 hne
  have hcne : cumsum sizes ≠ [] := by
    rw [← List.length_pos, length_cumsum]
    exact hm
  have hMlen : (forceLast1 (cumsum sizes)).length = sizes.length := by
    rw [length_forceLast1 _ hcne, length_cumsum]
  have hidxF : ∀ lab : Int, ∀ i ∈ shuffle (labelIdxs mask y lab),
      i < y.length := by
    intro lab i hi
    have h1 : i ∈ labelIdxs mask y lab := (hperm _).mem_iff.1 hi
    exact ((mem_labelIdxs mask y lab i).1 h1).1
  obtain ⟨smv, hsmv⟩ : ∃ s, (uniqueSorted y).foldl
      (fun sm lab => fillLabel (shuffle (labelIdxs mask y lab))
        (forceLast1 (cumsum sizes)) 0 0 sm)
      (List.replicate y.length (List.replicate sizes.length false)) = s :=
    ⟨_, rfl⟩
  have husm : Uniform smv y.length sizes.length := by
    rw [← hsmv]
    exact uniform_labelsFold (fun lab => shuffle (labelIdxs mask y lab))
      (forceLast1 (cumsum sizes)) (uniqueSorted y)
      (List.replicate y.length (List.replicate sizes.length false))
      y.length sizes.length
      ⟨by simp, fun r hr => by rw [List.eq_of_mem_replicate hr]; simp⟩
      hidxF
  have hchar : ∀ i j, cell smv i j = true ↔
      ∃ lab ∈ uniqueSorted y, ∃ t, t < (forceLast1 (cumsum sizes)).length ∧
        j = t ∧ i ∈ pySlice (shuffle (labelIdxs mask y lab))
          (chainS (shuffle (labelIdxs mask y lab)).length 0
            (forceLast1 (cumsum sizes)) t)
          (pyInt (((shuffle (labelIdxs mask y lab)).length : ℚ) *
            (forceLast1 (cumsum sizes)).getD t 0)) := by
    rw [← hsmv]
    exact cell_split_fold shuffle mask y (forceLast1 (cumsum sizes))
      sizes.length hidxF hMlen.le
  have hrow : ∀ i, i < y.length →
      countTrue (smv.getD i []) = if mask.getD i false = true then 1 else 0 := by
    intro i hi
    by_cases hmaski : mask.getD i false = true
    · rw [if_pos hmaski]
      have hyi : y.getD i 0 ∈ y := by
        rw [getD_eq_getElem_of_lt y 0 i hi]
        exact List.getElem_mem hi
      have hlabm : y.getD i 0 ∈ uniqueSorted y := (mem_uniqueSorted y _).2 hyi
      have hifl : i ∈ shuffle (labelIdxs mask y (y.getD i 0)) :=
        (hperm _).mem_iff.2 ((mem_labelIdxs mask y _ i).2 ⟨hi, rfl, hmaski⟩)
      have hndF : (shuffle (labelIdxs mask y (y.getD i 0))).Nodup :=
        (hperm _).nodup_iff.2 (nodup_labelIdxs mask y _)
      obtain ⟨t, htm, hmem, huniq⟩ := chunk_unique
        (shuffle (labelIdxs mask y (y.getD i 0))) (forceLast1 (cumsum sizes))
        hndF sizes.length hMlen hm
        (fun t t' h1 h2 => sliceEndIdx_mono _ sizes hne hnn t t' h1 h2)
        (sliceEndIdx_last _ sizes hne) i hifl
      have hcell : ∀ j, cell smv i j = true ↔ j = t := by
        intro j
        rw [hchar i j]
        constructor
        · rintro ⟨lab, hlab, t', ht', hj, hmem'⟩
          have hilab : i ∈ labelIdxs mask y lab :=
            (hperm _).mem_iff.1 (pySlice_subset _ _ _ i hmem')
          have hlabeq : y.getD i 0 = lab :=
            ((mem_labelIdxs mask y lab i).1 hilab).2.1
          rw [← hlabeq] at hmem'
          have ht'2 : t' < sizes.length := by rw [hMlen] at ht'; exact ht'
          rw [huniq t' ht'2 hmem'] at hj
          exact hj
        · intro hj
          refine ⟨y.getD i 0, hlabm, t, ?_, hj, hmem⟩
          rw [hMlen]
          exact htm
      rw [← length_trueIdxs]
      refine nodup_all_eq_length_one _ t (nodup_trueIdxs _) ?_ ?_
      · exact (mem_trueIdxs _ t).2 ((hcell t).2 rfl)
      · intro b hb
        exact (hcell b).1 ((mem_trueIdxs _ b).1 hb)
    · rw [if_neg hmaski]
      rw [← length_trueIdxs]
      have hnil : trueIdxs (smv.getD i []) = [] := by
        rw [List.eq_nil_iff_forall_not_mem]
        intro j hj
        have hc : cell smv i j = true := (mem_trueIdxs _ j).1 hj
        rcases (hchar i j).1 hc with ⟨lab, hlab, t', ht', hjj, hmem'⟩
        have hilab : i ∈ labelIdxs mask y lab :=
          (hperm _).mem_iff.1 (pySlice_subset _ _ _ i hmem')
        exact hmaski ((mem_labelIdxs mask y lab i).1 hilab).2.2
      rw [hnil]
      rfl
  have hlen2 : smv.length = y.length := husm.1
  have hmap2 : smv.map countTrue =
      mask.map (fun b => if b then (1 : Nat) else 0) := by
    apply List.ext_getElem
    · rw [List.length_map, List.length_map, hlen2, hlen]
    · intro i h1 h2
      rw [List.getElem_map, List.getElem_map]
      have hsl : i < smv.length := by rw [List.length_map] at h1; exact h1
      have hml : i < mask.length := by rw [List.length_map] at h2; exact h2
      have hi : i < y.length := by rw [← hlen2]; exact hsl
      rw [← getD_eq_getElem_of_lt smv [] i hsl,
        ← getD_eq_getElem_of_lt mask false i hml]
      exact hrow i hi
  have hTotal : smTotal smv = countTrue mask := by
    rw [smTotal, hmap2, sum_map_boolNat]
  have hrowsle : ∀ row ∈ smv, countTrue row ≤ 1 := by
    intro row hr
    rcases List.mem_iff_getElem.1 hr with ⟨i, hil, hrw⟩
    have hi : i < y.length := by rw [← hlen2]; exact hil
    have h0 := hrow i hi
    rw [getD_eq_getElem_of_lt smv [] i hil, hrw] at h0
    rw [h0]
    split <;> omega
  have hOut : noOutside smv mask = true := by
    rw [noOutside, List.all_eq_true]
    intro i hi
    rw [List.mem_range] at hi
    have hiy : i < y.length := by rw [← hlen2]; exact hi
    by_cases hmq : mask.getD i false = true
    · rw [hmq]
      simp
    · have h0 := hrow i hiy
      rw [if_neg hmq] at h0
      rw [h0]
      simp
  have hRows : rowsLe1 smv = true := by
    rw [rowsLe1, List.all_eq_true]
    intro row hr
    exact decide_eq_true (hrowsle row hr)
  have hClose : |(smTotal smv : ℚ) - (countTrue mask : ℚ)| ≤
      1 / 100000000 + (countTrue mask : ℚ) / 100000 := by
    rw [hTotal, sub_self, abs_zero]
    positivity
  refine ⟨smv, ?_, by rw [hlen2, hlen], husm.2, hTotal, hrowsle,
    fun i hil => hrow i (by rw [← hlen]; exact hil)⟩
  rw [split_from_mask_stratified, if_pos ⟨hlen, hsum⟩]
  simp only []
  rw [hsmv]
  rw [if_pos ⟨hClose, hRows, hOut⟩]

/-- Witness for C4: a two-vertex instance with a half/half split; the
theorem applies and the function returns a split mask. -/
theorem split_from_mask_stratified_spec_witness :
    (split_from_mask_stratified id [true, false] [0, 1]
      [1 / 2, 1 / 2]).isSome = true := by
  rcases split_from_mask_stratified_spec id [true, false] [0, 1] [1 / 2, 1 / 2]
      (fun l => List.Perm.refl l) (by decide)
      (by with_unfolding_all decide) (by with_unfolding_all decide)
    with ⟨sm, hsm, _⟩
  rw [hsm]
  rfl

/-- **C4 counterexample.** `mask = [True, True]`, `y = [0, 0]` and
`sizes = [1/2, -1/2, 1]` sum to exactly 1, yet the call raises: the
non-monotone endpoints make the first and third chunk overlap, so the
`(split_mask.sum(1) <= 1).all()` assert fails and no array is returned. -/
theorem split_from_mask_stratified_negative_sizes :
    split_from_mask_stratified id [true, true] [0, 0]
      [1 / 2, -(1 / 2), 1] = none := by
  with_unfolding_all decide

/-! ### `graph_normalize` (`src/data/util.py:488`)

The loop body selects the largest connected component and then removes
classes whose count falls below `min_class_count` (a float, modelled as a
rational `mcc`); the loop variable `n` always equals the current vertex
count at the top of the loop, so the loop is modelled by recursion on
`x.length`.  After the fixed point, `label_to_idx` is recompressed: labels
whose id survives in `y` keep their order and get dense new ids, the label
vector is rewritten (`-1` sentinel, last assignment wins), and the
`assert (y >= 0).all()` failure is modelled as `none`. -/

/-- The mask built by the `count < min_class_count` pruning loop: position
`i` stays iff the count of its own label is not below `mcc`. -/
def pruneMask (y : List Int) (mcc : ℚ) : List Bool :=
  y.map (fun v => decide (¬ ((countEq y v : ℚ) < mcc)))

/-- One iteration of the normalization loop: largest connected component,
then removal of underrepresented classes. -/
def normalizeBody {α V : Type} (x : List α) (es : List (Nat × Nat))
    (y : List Int) (v2i : List (V × Nat)) (mcc : ℚ) :
    Option (List α × List (Nat × Nat) × List Int × List (V × Nat)) :=
  match graph_get_largest_connected_component x es y v2i with
  | none => none
  | some (g1, _) =>
    some (graph_select_idxs (pruneMask g1.2.2.1 mcc) g1.1 g1.2.1 g1.2.2.1
      g1.2.2.2)

theorem maskFilter_le_length {α : Type} (m : List Bool) :
    ∀ l : List α, (maskFilter m l).length ≤ l.length := by
  induction m with
  | nil => intro l; cases l <;> simp [maskFilter]
  | cons b m ih =>
    intro l
    cases l with
    | nil => cases b <;> simp [maskFilter]
    | cons a l =>
      cases b
      · show (maskFilter m l).length ≤ l.length + 1
        have := ih l
        omega
      · show (maskFilter m l).length + 1 ≤ l.length + 1
        have := ih l
        omega

theorem compLabels_ne_nil (n : Nat) (es : List (Nat × Nat)) (h : n ≠ 0) :
    compLabels n es ≠ [] := by
  intro hc
  have := compLabels_length n es
  rw [hc] at this
  simp at this
  omega

theorem lcc_eval {α V : Type} (x : List α) (es : List (Nat × Nat))
    (y : List Int) (v2i : List (V × Nat)) (l : Nat)
    (hl : lccLabel (compLabels x.length es) = some l) :
    graph_get_largest_connected_component x es y v2i =
      some ((maskFilter (lccMask x.length es l) x,
        selectEdges (lccMask x.length es l) es,
        maskFilter (lccMask x.length es l) y,
        selectV2i (lccMask x.length es l) v2i), lccMask x.length es l) := by
  unfold graph_get_largest_connected_component
  rw [hl]
  rfl

theorem lcc_empty {α V : Type} (x : List α) (es : List (Nat × Nat))
    (y : List Int) (v2i : List (V × Nat)) (h : x.length = 0) :
    graph_get_largest_connected_component x es y v2i = none := by
  unfold graph_get_largest_connected_component
  have h1 : compLabels x.length es = [] := by
    rw [h]
    rfl
  rw [h1]
  rfl

theorem normalizeBody_eval {α V : Type} (x : List α) (es : List (Nat × Nat))
    (y : List Int) (v2i : List (V × Nat)) (mcc : ℚ) (l : Nat)
    (hl : lccLabel (compLabels x.length es) = some l) :
    normalizeBody x es y v2i mcc =
      some (graph_select_idxs
        (pruneMask (maskFilter (lccMask x.length es l) y) mcc)
        (maskFilter (lccMask x.length es l) x)
        (selectEdges (lccMask x.length es l) es)
        (maskFilter (lccMask x.length es l) y)
        (selectV2i (lccMask x.length es l) v2i)) := by
  unfold normalizeBody
  rw [lcc_eval x es y v2i l hl]

theorem normalizeBody_empty {α V : Type} (x : List α) (es : List (Nat × Nat))
    (y : List Int) (v2i : List (V × Nat)) (mcc : ℚ) (h : x.length = 0) :
    normalizeBody x es y v2i mcc = none := by
  unfold normalizeBody
  rw [lcc_empty x es y v2i h]

theorem normalizeBody_shrink {α V : Type} (x : List α) (es : List (Nat × Nat))
    (y : List Int) (v2i : List (V × Nat)) (mcc : ℚ)
    (S : List α × List (Nat × Nat) × List Int × List (V × Nat))
    (hb : normalizeBody x es y v2i mcc = some S) : S.1.length ≤ x.length := by
  by_cases hx : x.length = 0
  · rw [normalizeBody_empty x es y v2i mcc hx] at hb
    cases hb
  · rcases lccLabel_isSome (compLabels x.length es)
        (compLabels_ne_nil _ _ hx) with ⟨l, hl⟩
    rw [normalizeBody_eval x es y v2i mcc l hl] at hb
    injection hb with hb
    have h1 : S.1 = maskFilter (pruneMask (maskFilter (lccMask x.length es l) y)
        mcc) (maskFilter (lccMask x.length es l) x) := by
      rw [← hb]
      rfl
    rw [h1]
    calc (maskFilter _ (maskFilter (lccMask x.length es l) x)).length
        ≤ (maskFilter (lccMask x.length es l) x).length :=
          maskFilter_le_length _ _
      _ ≤ x.length := maskFilter_le_length _ _

/-- The `while n > 0` loop.  The Python variable `n` equals the current
vertex count whenever the loop condition is tested, so the loop is the
recursion below (exit with the current graph when it is empty; otherwise run
the body, stop at a fixed point, else continue on the shrunk graph). -/
def normalizeLoop {α V : Type} (x : List α) (es : List (Nat × Nat))
    (y : List Int) (v2i : List (V × Nat)) (mcc : ℚ) :
    Option (List α × List (Nat × Nat) × List Int × List (V × Nat)) :=
  if x.length = 0 then some (x, es, y, v2i)
  else
    match hb : normalizeBody x es y v2i mcc with
    | none => none
    | some g2 =>
      if g2.1.length = x.length then some g2
      else normalizeLoop g2.1 g2.2.1 g2.2.2.1 g2.2.2.2 mcc
termination_by x.length
decreasing_by
  have h1 := normalizeBody_shrink x es y v2i mcc g2 hb
  simp only [gt_iff_lt]
  omega

/-- Position of the LAST entry of the kept label list whose id is `v`
(the last dict entry wins in the `y[mask] = label_to_idx[label]` loop). -/
def lastIdxPos {L : Type} : List (L × Int) → Int → Option Nat
  | [], _ => none
  | p :: l, v =>
    match lastIdxPos l v with
    | some k => some (k + 1)
    | none => if p.2 = v then some 0 else none

/-- The post-loop `label_to_idx` fix: keep the labels whose id occurs in
`y` (in order), give them dense new ids, rewrite `y` accordingly (`-1`
sentinel), and fail (`AssertionError`) if some entry stays negative. -/
def recompressLabels {L : Type} (y : List Int) (l2i : List (L × Int)) :
    Option (List Int × List (L × Int)) :=
  let kept := l2i.filter (fun p => decide (p.2 ∈ y))
  let y2 := y.map (fun v =>
    match lastIdxPos kept v with
    | some k => (k : Int)
    | none => -1)
  if ∀ v ∈ y2, 0 ≤ v then
    some (y2, kept.enum.map (fun p => (p.2.1, (p.1 : Int))))
  else none

/-- `graph_normalize`. -/
def graph_normalize {α V L : Type} (x : List α) (es : List (Nat × Nat))
    (y : List Int) (v2i : List (V × Nat)) (l2i : List (L × Int))
    (make_symmetric : Bool) (mcc : ℚ) :
    Option (List α × List (Nat × Nat) × List Int × List (V × Nat) ×
      List (L × Int)) :=
  match (if make_symmetric then graph_make_symmetric es else some es) with
  | none => none
  | some es0 =>
    match normalizeLoop x es0 y v2i mcc with
    | none => none
    | some (x1, es1, y1, v2i1) =>
      match recompressLabels y1 l2i with
      | none => none
      | some (y2, l2i2) => some (x1, es1, y2, v2i1, l2i2)

/-- **C2 counterexample.** On two disconnected equal-size two-vertex
components with `min_class_count = 3`, the first `graph_normalize` empties
the graph (LCC keeps one component, whose class counts fall below 3) and
returns the empty graph; applying `graph_normalize` again (same
`make_symmetric = True`) raises (`edge_index.max()` on an empty edge list)
instead of returning the same result. -/
theorem graph_normalize_not_idempotent :
    graph_normalize ([1, 2, 3, 4] : List Int) [(0, 1), (2, 3)] [0, 0, 1, 1]
        ([(0, 0), (1, 1), (2, 2), (3, 3)] : List (Nat × Nat))
        ([(0, 0), (1, 1)] : List (Int × Int)) true 3 =
      some ([], [], [], [], []) ∧
    graph_normalize ([] : List Int) [] [] ([] : List (Nat × Nat))
      ([] : List (Int × Int)) true 3 = none := by
  constructor
  · with_unfolding_all rfl
  · rfl

theorem getD_all_true (m : List Bool) (h : countTrue m = m.length) (i : Nat)
    (hi : i < m.length) : m.getD i false = true := by
  rw [getD_eq_getElem_of_lt m false i hi]
  exact (countTrue_eq_length_iff m).1 h _ (List.getElem_mem hi)

theorem trueIdxs_all_true (m : List Bool) (h : countTrue m = m.length) :
    trueIdxs m = List.range m.length := by
  induction m with
  | nil => rfl
  | cons b m ih =>
    cases b
    · rw [countTrue] at h
      have := countTrue_le_length m
      simp at h
      omega
    · rw [countTrue] at h
      simp only [List.length_cons] at h
      rw [trueIdxs, if_pos rfl, ih (by omega), List.length_cons,
        List.range_succ_eq_map]

theorem oldIdx_all_true (m : List Bool) (h : countTrue m = m.length) (k : Nat)
    (hk : k < countTrue m) : oldIdx m k = k := by
  rw [oldIdx, trueIdxs_all_true m h,
    getD_eq_getElem_of_lt _ 0 k (by rw [List.length_range]; omega),
    List.getElem_range]

theorem maskRank_all_true (m : List Bool) (h : countTrue m = m.length)
    (i : Nat) (hi : i < m.length) : maskRank m i = i := by
  rw [maskRank]
  have h1 : ∀ b ∈ m.take i, b = true :=
    fun b hb => (countTrue_eq_length_iff m).1 h b (List.take_subset i m hb)
  rw [(countTrue_eq_length_iff (m.take i)).2 h1, List.length_take]
  omega

theorem maskFilter_all_true {α : Type} (m : List Bool) :
    ∀ l : List α, countTrue m = m.length → m.length = l.length →
      maskFilter m l = l := by
  induction m with
  | nil =>
    intro l _ h2
    cases l
    · rfl
    · simp at h2
  | cons b m ih =>
    intro l h1 h2
    cases l with
    | nil => simp at h2
    | cons a l =>
      cases b
      · rw [countTrue] at h1
        have := countTrue_le_length m
        simp at h1
        omega
      · rw [countTrue] at h1
        simp only [List.length_cons] at h1 h2
        show a :: maskFilter m l = a :: l
        rw [ih l (by omega) (by omega)]

theorem selectV2i_all_true {V : Type} (m : List Bool) (v2i : List (V × Nat))
    (h : countTrue m = m.length) (hwf : ∀ p ∈ v2i, p.2 < m.length) :
    selectV2i m v2i = v2i := by
  rw [selectV2i]
  have h1 : ∀ p ∈ v2i, (if m.getD p.2 false = true
      then some (p.1, maskRank m p.2) else none) = some p := by
    intro p hp
    rw [if_pos (getD_all_true m h p.2 (hwf p hp)),
      maskRank_all_true m h p.2 (hwf p hp)]
  rw [List.filterMap_congr h1, List.filterMap_some]

theorem selectEdges_eq_of_trueIdxs (m m' : List Bool)
    (h : trueIdxs m = trueIdxs m') (es : List (Nat × Nat)) :
    selectEdges m es = selectEdges m' es := by
  have hc : countTrue m = countTrue m' := by
    rw [← length_trueIdxs, ← length_trueIdxs, h]
  rw [selectEdges, selectEdges, hc]
  simp only [oldIdx, h]

theorem selectEdges_congr_edges (m : List Bool) (es es' : List (Nat × Nat))
    (h : ∀ p : Nat × Nat, p ∈ es ↔ p ∈ es') :
    selectEdges m es = selectEdges m es' := by
  rw [selectEdges, selectEdges]
  refine List.flatMap_congr ?_
  intro j _
  refine List.filterMap_congr ?_
  intro i _
  by_cases hc : (oldIdx m i, oldIdx m j) ∈ es
  · rw [if_pos hc, if_pos ((h _).1 hc)]
  · rw [if_neg hc, if_neg (fun hc2 => hc ((h _).2 hc2))]

theorem selectEdges_canon_idem (m m' : List Bool) (es : List (Nat × Nat))
    (hK : countTrue m' = countTrue m) (hAT : countTrue m' = m'.length) :
    selectEdges m' (selectEdges m es) = selectEdges m es := by
  conv_lhs => rw [selectEdges, hK]
  conv_rhs => rw [selectEdges]
  refine List.flatMap_congr ?_
  intro j hj
  refine List.filterMap_congr ?_
  intro i hi
  rw [List.mem_range] at hj hi
  rw [oldIdx_all_true m' hAT i (by omega), oldIdx_all_true m' hAT j (by omega)]
  by_cases hc : (oldIdx m i, oldIdx m j) ∈ es
  · rw [if_pos ((mem_selectEdges m es i j).2 ⟨hi, hj, hc⟩), if_pos hc]
  · rw [if_neg (fun h2 => hc ((mem_selectEdges m es i j).1 h2).2.2), if_neg hc]

theorem selectEdges_symm (m : List Bool) (es : List (Nat × Nat))
    (h : ∀ a b : Nat, (a, b) ∈ es → (b, a) ∈ es) :
    ∀ a b : Nat, (a, b) ∈ selectEdges m es → (b, a) ∈ selectEdges m es := by
  intro a b hab
  rcases (mem_selectEdges m es a b).1 hab with ⟨ha, hb, hc⟩
  exact (mem_selectEdges m es b a).2 ⟨hb, ha, h _ _ hc⟩

theorem countEq_le_length {A : Type} [DecidableEq A] (ls : List A) (a : A) :
    countEq ls a ≤ ls.length := by
  induction ls with
  | nil => simp [countEq]
  | cons w l ih =>
    rw [countEq, List.length_cons]
    by_cases h : w = a
    · rw [if_pos h]; omega
    · rw [if_neg h]; omega

theorem countEq_eq_length {A : Type} [DecidableEq A] (ls : List A) (a : A)
    (h : countEq ls a = ls.length) : ∀ b ∈ ls, b = a := by
  induction ls with
  | nil => intro b hb; cases hb
  | cons w l ih =>
    intro b hb
    rw [countEq, List.length_cons] at h
    have hle := countEq_le_length l a
    by_cases hw : w = a
    · rw [if_pos hw] at h
      rcases List.mem_cons.1 hb with rfl | hb2
      · exact hw
      · exact ih (by omega) b hb2
    · rw [if_neg hw] at h
      omega

theorem countEq_of_all {A : Type} [DecidableEq A] (ls : List A) (a : A)
    (h : ∀ b ∈ ls, b = a) : countEq ls a = ls.length := by
  induction ls with
  | nil => rfl
  | cons w l ih =>
    rw [countEq, List.length_cons, if_pos (h w (List.mem_cons_self _ _)),
      ih (fun b hb => h b (List.mem_cons_of_mem _ hb))]
    omega

theorem lccLabel_const (ls : List Nat) (l : Nat) (hne : ls ≠ [])
    (hall : ∀ a ∈ ls, a = l) : lccLabel ls = some l := by
  have hmem : l ∈ ls := by
    cases ls with
    | nil => exact absurd rfl hne
    | cons a t =>
      rw [← hall a (List.mem_cons_self _ _)]
      exact List.mem_cons_self _ _
  have h1 : l ∈ uniqueSorted ls := (mem_uniqueSorted _ _).2 hmem
  have h2 : ∀ b ∈ uniqueSorted ls, b = l :=
    fun b hb => hall b ((mem_uniqueSorted _ _).1 hb)
  have hlen1 : (uniqueSorted ls).length = 1 :=
    nodup_all_eq_length_one _ l (nodup_uniqueSorted ls) h1 h2
  have hus : uniqueSorted ls = [l] := by
    cases hu : uniqueSorted ls with
    | nil => rw [hu] at hlen1; simp at hlen1
    | cons u us =>
      cases us with
      | nil =>
        have hu2 : u ∈ uniqueSorted ls := by
          rw [hu]
          exact List.mem_cons_self _ _
        rw [h2 u hu2]
      | cons v vs =>
        rw [hu] at hlen1
        simp at hlen1
  unfold lccLabel
  rw [hus]
  rfl

theorem select_idxs_all_true {α V : Type} (m : List Bool) (x : List α)
    (es : List (Nat × Nat)) (y : List Int) (v2i : List (V × Nat))
    (hAT : countTrue m = m.length) (hmx : m.length = x.length)
    (hmy : m.length = y.length) (hwfv : ∀ p ∈ v2i, p.2 < m.length) :
    graph_select_idxs m x es y v2i = (x, selectEdges m es, y, v2i) := by
  rw [graph_select_idxs, maskFilter_all_true m x hAT hmx,
    maskFilter_all_true m y hAT hmy, selectV2i_all_true m v2i hAT hwfv]

theorem body_fixedpoint_stable {α V : Type} (x : List α)
    (es : List (Nat × Nat)) (y : List Int) (v2i : List (V × Nat)) (mcc : ℚ)
    (S : List α × List (Nat × Nat) × List Int × List (V × Nat))
    (hx : x.length ≠ 0) (hylen : y.length = x.length)
    (hwfes : ∀ e ∈ es, e.1 < x.length ∧ e.2 < x.length)
    (hwfv : ∀ p ∈ v2i, p.2 < x.length)
    (hb : normalizeBody x es y v2i mcc = some S)
    (hlen : S.1.length = x.length) :
    S = (x, S.2.1, y, v2i) ∧
    (∀ p : Nat × Nat, p ∈ S.2.1 ↔ p ∈ es) ∧
    (∀ (E : List (Nat × Nat)) (y' : List Int),
      (∀ p : Nat × Nat, p ∈ E ↔ p ∈ S.2.1) → y'.length = x.length →
      pruneMask y' mcc = pruneMask y mcc →
      normalizeBody x E y' v2i mcc = some (x, S.2.1, y', v2i)) := by
  obtain ⟨l, hl⟩ := lccLabel_isSome _ (compLabels_ne_nil x.length es hx)
  rw [normalizeBody_eval x es y v2i mcc l hl] at hb
  injection hb with hb
  have hml : (lccMask x.length es l).length = x.length := lccMask_length _ _ _
  have hmidy_len : (maskFilter (lccMask x.length es l) y).length =
      countTrue (lccMask x.length es l) :=
    maskFilter_length _ _ (by rw [hml]; omega)
  have hmidx_len : (maskFilter (lccMask x.length es l) x).length =
      countTrue (lccMask x.length es l) :=
    maskFilter_length _ _ (by rw [hml])
  have hpm_len : (pruneMask (maskFilter (lccMask x.length es l) y) mcc).length =
      countTrue (lccMask x.length es l) := by
    rw [pruneMask, List.length_map, hmidy_len]
  have hbx : maskFilter (pruneMask (maskFilter (lccMask x.length es l) y) mcc)
      (maskFilter (lccMask x.length es l) x) = S.1 := congrArg Prod.fst hb
  have hS1len : S.1.length =
      countTrue (pruneMask (maskFilter (lccMask x.length es l) y) mcc) := by
    rw [← hbx]
    exact maskFilter_length _ _ (by rw [hpm_len, hmidx_len])
  have hc1 := countTrue_le_length
    (pruneMask (maskFilter (lccMask x.length es l) y) mcc)
  have hc2 := countTrue_le_length (lccMask x.length es l)
  have hATl : countTrue (lccMask x.length es l) =
      (lccMask x.length es l).length := by omega
  have hmy : maskFilter (lccMask x.length es l) y = y :=
    maskFilter_all_true _ y hATl (by rw [hml]; omega)
  have hmx : maskFilter (lccMask x.length es l) x = x :=
    maskFilter_all_true _ x hATl hml
  have hmv : selectV2i (lccMask x.length es l) v2i = v2i :=
    selectV2i_all_true _ v2i hATl (by rw [hml]; exact hwfv)
  rw [hmx, hmy, hmv] at hb
  rw [hmy] at hpm_len hS1len hc1
  have hATp : countTrue (pruneMask y mcc) = (pruneMask y mcc).length := by
    omega
  have hpmK : countTrue (pruneMask y mcc) =
      countTrue (lccMask x.length es l) := by omega
  have hb2 : S = (x, selectEdges (lccMask x.length es l) es, y, v2i) := by
    rw [← hb, select_idxs_all_true (pruneMask y mcc) x _ y v2i hATp
      (by rw [hpm_len]; omega) (by rw [hpm_len]; omega)
      (by intro p hp; have h3 := hwfv p hp; rw [hpm_len]; omega),
      selectEdges_canon_idem (lccMask x.length es l) (pruneMask y mcc) es
        hpmK hATp]
  have hmemS : ∀ p : Nat × Nat,
      p ∈ selectEdges (lccMask x.length es l) es ↔ p ∈ es := by
    rintro ⟨a, b⟩
    rw [mem_selectEdges]
    constructor
    · rintro ⟨ha, hb', hc⟩
      rw [oldIdx_all_true _ hATl a ha, oldIdx_all_true _ hATl b hb'] at hc
      exact hc
    · intro hc
      have hab := hwfes (a, b) hc
      have haK : a < countTrue (lccMask x.length es l) := by
        rw [hATl, hml]; exact hab.1
      have hbK : b < countTrue (lccMask x.length es l) := by
        rw [hATl, hml]; exact hab.2
      refine ⟨haK, hbK, ?_⟩
      rw [oldIdx_all_true _ hATl a haK, oldIdx_all_true _ hATl b hbK]
      exact hc
  refine ⟨by rw [hb2], by rw [hb2]; exact hmemS, ?_⟩
  intro E y' hE hy'len hpm'
  have hEes : ∀ p : Nat × Nat, p ∈ E ↔ p ∈ es := by
    intro p
    rw [hE p, hb2]
    exact hmemS p
  have hallcomp : ∀ a ∈ compLabels x.length es, a = l := by
    apply countEq_eq_length
    rw [compLabels_length, ← countTrue_lccMask, hATl, hml]
  have hcompE : ∀ i, i < x.length → compRep E x.length i = l := by
    intro i hi
    rw [compRep_congr_edges E es x.length i hEes]
    exact hallcomp _ ((mem_compLabels _ _ _).2 ⟨i, hi, rfl⟩)
  have hlE : lccLabel (compLabels x.length E) = some l := by
    apply lccLabel_const _ _ (compLabels_ne_nil _ _ hx)
    intro a ha
    rcases (mem_compLabels _ _ _).1 ha with ⟨i, hi, he⟩
    rw [← he]
    exact hcompE i hi
  have hmlE : (lccMask x.length E l).length = x.length := lccMask_length _ _ _
  have hca : countEq (compLabels x.length E) l =
      (compLabels x.length E).length := by
    apply countEq_of_all
    intro b hbm
    rcases (mem_compLabels _ _ _).1 hbm with ⟨i, hi, he⟩
    rw [← he]
    exact hcompE i hi
  have hATlE : countTrue (lccMask x.length E l) =
      (lccMask x.length E l).length := by
    rw [countTrue_lccMask, hmlE, hca, compLabels_length]
  rw [normalizeBody_eval x E y' v2i mcc l hlE]
  have hmyE : maskFilter (lccMask x.length E l) y' = y' :=
    maskFilter_all_true _ y' hATlE (by rw [hmlE]; omega)
  have hmxE : maskFilter (lccMask x.length E l) x = x :=
    maskFilter_all_true _ x hATlE hmlE
  have hmvE : selectV2i (lccMask x.length E l) v2i = v2i :=
    selectV2i_all_true _ v2i hATlE (by rw [hmlE]; exact hwfv)
  rw [hmxE, hmyE, hmvE]
  have htiq : trueIdxs (lccMask x.length E l) =
      trueIdxs (lccMask x.length es l) := by
    rw [trueIdxs_all_true _ hATlE, trueIdxs_all_true _ hATl, hmlE, hml]
  have hedgesE : selectEdges (lccMask x.length E l) E =
      selectEdges (lccMask x.length es l) es := by
    rw [selectEdges_eq_of_trueIdxs _ _ htiq E,
      selectEdges_congr_edges _ E es hEes]
  rw [hedgesE, hpm']
  rw [select_idxs_all_true (pruneMask y mcc) x _ y' v2i hATp
    (by rw [hpm_len]; omega) (by rw [hpm_len]; omega)
    (by intro p hp; have h3 := hwfv p hp; rw [hpm_len]; omega),
    selectEdges_canon_idem (lccMask x.length es l) (pruneMask y mcc) es
      hpmK hATp, hb2]

theorem normalizeLoop_zero {α V : Type} (x : List α) (es : List (Nat × Nat))
    (y : List Int) (v2i : List (V × Nat)) (mcc : ℚ) (h : x.length = 0) :
    normalizeLoop x es y v2i mcc = some (x, es, y, v2i) := by
  unfold normalizeLoop
  rw [if_pos h]

theorem normalizeLoop_some {α V : Type} (x : List α) (es : List (Nat × Nat))
    (y : List Int) (v2i : List (V × Nat)) (mcc : ℚ)
    (g2 : List α × List (Nat × Nat) × List Int × List (V × Nat))
    (hx : x.length ≠ 0) (hb : normalizeBody x es y v2i mcc = some g2) :
    normalizeLoop x es y v2i mcc =
      (if g2.1.length = x.length then some g2
       else normalizeLoop g2.1 g2.2.1 g2.2.2.1 g2.2.2.2 mcc) := by
  conv_lhs => unfold normalizeLoop
  rw [if_neg hx]
  split
  · rename_i heq
    rw [heq] at hb
    cases hb
  · rename_i g2' heq
    rw [heq] at hb
    injection hb with hb
    rw [hb]

theorem normalizeLoop_none {α V : Type} (x : List α) (es : List (Nat × Nat))
    (y : List Int) (v2i : List (V × Nat)) (mcc : ℚ)
    (hx : x.length ≠ 0) (hb : normalizeBody x es y v2i mcc = none) :
    normalizeLoop x es y v2i mcc = none := by
  conv_lhs => unfold normalizeLoop
  rw [if_neg hx]
  split
  · rfl
  · rename_i g2' heq
    rw [heq] at hb
    cases hb

theorem normalizeLoop_out {α V : Type} (mcc : ℚ)
    (P : (List α × List (Nat × Nat) × List Int × List (V × Nat)) → Prop)
    (hstep : ∀ A B, normalizeBody A.1 A.2.1 A.2.2.1 A.2.2.2 mcc = some B →
      P A → P B) :
    ∀ (N : Nat) (x : List α) (es : List (Nat × Nat)) (y : List Int)
      (v2i : List (V × Nat))
      (S : List α × List (Nat × Nat) × List Int × List (V × Nat)),
      x.length ≤ N → P (x, es, y, v2i) →
      normalizeLoop x es y v2i mcc = some S →
      (x.length = 0 ∧ S = (x, es, y, v2i) ∧ P S) ∨
      (∃ A, P A ∧ A.1.length ≠ 0 ∧
        normalizeBody A.1 A.2.1 A.2.2.1 A.2.2.2 mcc = some S ∧ P S ∧
        (S.1.length = A.1.length ∨ S.1.length = 0)) := by
  intro N
  induction N with
  | zero =>
    intro x es y v2i S hN hP h
    have hx : x.length = 0 := by omega
    rw [normalizeLoop_zero x es y v2i mcc hx] at h
    injection h with h
    exact Or.inl ⟨hx, h.symm, h ▸ hP⟩
  | succ N ih =>
    intro x es y v2i S hN hP h
    by_cases hx : x.length = 0
    · rw [normalizeLoop_zero x es y v2i mcc hx] at h
      injection h with h
      exact Or.inl ⟨hx, h.symm, h ▸ hP⟩
    · cases hbm : normalizeBody x es y v2i mcc with
      | none =>
        rw [normalizeLoop_none x es y v2i mcc hx hbm] at h
        cases h
      | some g2 =>
        rw [normalizeLoop_some x es y v2i mcc g2 hx hbm] at h
        have hPg2 : P g2 := hstep (x, es, y, v2i) g2 hbm hP
        by_cases hfix : g2.1.length = x.length
        · rw [if_pos hfix] at h
          injection h with h
          subst h
          exact Or.inr ⟨(x, es, y, v2i), hP, hx, hbm, hPg2, Or.inl hfix⟩
        · rw [if_neg hfix] at h
          have hshr := normalizeBody_shrink x es y v2i mcc g2 hbm
          rcases ih g2.1 g2.2.1 g2.2.2.1 g2.2.2.2 S (by omega)
              (by
                have : g2 = (g2.1, g2.2.1, g2.2.2.1, g2.2.2.2) := rfl
                rw [← this]
                exact hPg2) h with
            ⟨hz, hs, hPS⟩ | ⟨A, hA⟩
          · refine Or.inr ⟨(x, es, y, v2i), hP, hx, ?_, hPS, Or.inr ?_⟩
            · rw [hs]
              exact hbm
            · rw [hs]
              exact hz
          · exact Or.inr ⟨A, hA⟩

theorem lastIdxPos_none {L : Type} (l : List (L × Int)) (v : Int)
    (h : ∀ r ∈ l, r.2 ≠ v) : lastIdxPos l v = none := by
  induction l with
  | nil => rfl
  | cons p t ih =>
    rw [lastIdxPos, ih (fun r hr => h r (List.mem_cons_of_mem _ hr)),
      if_neg (h p (List.mem_cons_self _ _))]

theorem lastIdxPos_getElem {L : Type} (l : List (L × Int)) (v : Int) (k : Nat)
    (h : lastIdxPos l v = some k) : ∃ q, l[k]? = some q ∧ q.2 = v := by
  induction l generalizing k with
  | nil => cases h
  | cons p t ih =>
    rw [lastIdxPos] at h
    cases ht : lastIdxPos t v with
    | some k' =>
      rw [ht] at h
      injection h with h
      rcases ih k' ht with ⟨q, hq1, hq2⟩
      refine ⟨q, ?_, hq2⟩
      rw [← h, List.getElem?_cons_succ]
      exact hq1
    | none =>
      rw [ht] at h
      by_cases hp : p.2 = v
      · rw [if_pos hp] at h
        injection h with h
        rw [← h]
        exact ⟨p, List.getElem?_cons_zero, hp⟩
      · rw [if_neg hp] at h
        cases h

theorem lastIdxPos_eq_of_getElem {L : Type} (l : List (L × Int))
    (hnd : (l.map Prod.snd).Nodup) (k : Nat) (q : L × Int)
    (hk : l[k]? = some q) : lastIdxPos l q.2 = some k := by
  induction l generalizing k with
  | nil => cases hk
  | cons p t ih =>
    have hnd2 : (t.map Prod.snd).Nodup := (List.nodup_cons.1 hnd).2
    cases k with
    | zero =>
      rw [List.getElem?_cons_zero] at hk
      injection hk with hk
      rw [← hk]
      have hnm : ∀ r ∈ t, r.2 ≠ p.2 := by
        intro r hr hc
        exact (List.nodup_cons.1 hnd).1
          (hc ▸ List.mem_map.2 ⟨r, hr, rfl⟩)
      rw [lastIdxPos, lastIdxPos_none t p.2 hnm, if_pos rfl]
    | succ k' =>
      rw [List.getElem?_cons_succ] at hk
      rw [lastIdxPos, ih hnd2 k' hk]

theorem recompress_some {L : Type} (y : List Int) (l2i : List (L × Int))
    (y2 : List Int) (l2i2 : List (L × Int))
    (hr : recompressLabels y l2i = some (y2, l2i2)) :
    y2 = y.map (fun v =>
      match lastIdxPos (l2i.filter (fun p => decide (p.2 ∈ y))) v with
      | some k => (k : Int)
      | none => -1) ∧
    l2i2 = (l2i.filter (fun p => decide (p.2 ∈ y))).enum.map
      (fun p => (p.2.1, (p.1 : Int))) ∧
    (∀ v ∈ y2, 0 ≤ v) := by
  unfold recompressLabels at hr
  simp only [] at hr
  by_cases hg : ∀ v ∈ y.map (fun v =>
      match lastIdxPos (l2i.filter (fun p => decide (p.2 ∈ y))) v with
      | some k => (k : Int)
      | none => -1), 0 ≤ v
  · rw [if_pos hg] at hr
    injection hr with hr
    injection hr with h1 h2
    exact ⟨h1.symm, h2.symm, h1 ▸ hg⟩
  · rw [if_neg hg] at hr
    cases hr

theorem countEq_map {A B : Type} [DecidableEq A] [DecidableEq B] (l : List A)
    (f : A → B) (v : A) (h : ∀ a ∈ l, (f a = f v ↔ a = v)) :
    countEq (l.map f) (f v) = countEq l v := by
  induction l with
  | nil => rfl
  | cons a t ih =>
    rw [List.map_cons, countEq, countEq,
      if_congr (h a (List.mem_cons_self _ _)) rfl rfl,
      ih (fun b hb => h b (List.mem_cons_of_mem _ hb))]

theorem recompress_prune {L : Type} (y : List Int) (l2i : List (L × Int))
    (y2 : List Int) (l2i2 : List (L × Int)) (mcc : ℚ)
    (hr : recompressLabels y l2i = some (y2, l2i2)) :
    y2.length = y.length ∧ pruneMask y2 mcc = pruneMask y mcc := by
  rcases recompress_some y l2i y2 l2i2 hr with ⟨hy2, _, hg⟩
  have hinj : ∀ a ∈ y, ∀ b ∈ y,
      (fun v => match lastIdxPos (l2i.filter (fun p => decide (p.2 ∈ y))) v with
        | some k => (k : Int)
        | none => -1) a =
      (fun v => match lastIdxPos (l2i.filter (fun p => decide (p.2 ∈ y))) v with
        | some k => (k : Int)
        | none => -1) b → a = b := by
    intro a ha b hbm hfe
    have hga := hg _ (hy2 ▸ List.mem_map.2 ⟨a, ha, rfl⟩)
    have hgb := hg _ (hy2 ▸ List.mem_map.2 ⟨b, hbm, rfl⟩)
    simp only [] at hga hgb hfe
    cases hla : lastIdxPos (l2i.filter (fun p => decide (p.2 ∈ y))) a with
    | none =>
      rw [hla] at hga
      norm_num at hga
    | some ka =>
      cases hlb : lastIdxPos (l2i.filter (fun p => decide (p.2 ∈ y))) b with
      | none =>
        rw [hlb] at hgb
        norm_num at hgb
      | some kb =>
        rw [hla, hlb] at hfe
        simp only [] at hfe
        have hkk : ka = kb := by exact_mod_cast hfe
        rcases lastIdxPos_getElem _ a ka hla with ⟨qa, hqa1, hqa2⟩
        rcases lastIdxPos_getElem _ b kb hlb with ⟨qb, hqb1, hqb2⟩
        rw [hkk, hqb1] at hqa1
        injection hqa1 with hqa1
        rw [← hqa2, ← hqb2, hqa1]
  constructor
  · rw [hy2, List.length_map]
  · rw [pruneMask, pruneMask, hy2, List.map_map]
    refine List.map_congr_left ?_
    intro a ha
    have hce : countEq y2 ((fun v =>
        match lastIdxPos (l2i.filter (fun p => decide (p.2 ∈ y))) v with
        | some k => (k : Int)
        | none => -1) a) = countEq y a := by
      rw [hy2]
      exact countEq_map y _ a (fun b hbm =>
        ⟨fun hfe => hinj b hbm a ha hfe, fun hb => by rw [hb]⟩)
    simp only [Function.comp]
    rw [← hy2, hce]

theorem recompress_idem {L : Type} (y : List Int) (l2i : List (L × Int))
    (y2 : List Int) (l2i2 : List (L × Int))
    (hnd : (l2i.map Prod.snd).Nodup)
    (hr : recompressLabels y l2i = some (y2, l2i2)) :
    recompressLabels y2 l2i2 = some (y2, l2i2) := by
  rcases recompress_some y l2i y2 l2i2 hr with ⟨hy2, hl2i2, hg⟩
  have hksnd : ((l2i.filter (fun p => decide (p.2 ∈ y))).map Prod.snd).Nodup :=
    ((List.filter_sublist l2i).map Prod.snd).nodup hnd
  have hval : ∀ k : Nat, l2i2[k]? =
      ((l2i.filter (fun p => decide (p.2 ∈ y)))[k]?).map
        (fun a => (a.1, (k : Int))) := by
    intro k
    rw [hl2i2, List.getElem?_map, List.getElem?_enum]
    cases (l2i.filter (fun p => decide (p.2 ∈ y)))[k]? with
    | none => rfl
    | some a => rfl
  have hy2mem : ∀ w ∈ y2, ∃ k : Nat,
      k < (l2i.filter (fun p => decide (p.2 ∈ y))).length ∧ w = (k : Int) := by
    intro w hw
    have hge := hg w hw
    rw [hy2] at hw
    rcases List.mem_map.1 hw with ⟨v, hv, he⟩
    cases hlv : lastIdxPos (l2i.filter (fun p => decide (p.2 ∈ y))) v with
    | none =>
      rw [hlv] at he
      rw [← he] at hge
      norm_num at hge
    | some k =>
      rw [hlv] at he
      rcases lastIdxPos_getElem _ v k hlv with ⟨q, hq1, _⟩
      rcases List.getElem?_eq_some.1 hq1 with ⟨hlt, _⟩
      exact ⟨k, hlt, he.symm⟩
  have hmemy2 : ∀ k : Nat,
      k < (l2i.filter (fun p => decide (p.2 ∈ y))).length → (k : Int) ∈ y2 := by
    intro k hk
    obtain ⟨q, hq⟩ : ∃ q, (l2i.filter (fun p => decide (p.2 ∈ y)))[k]? = some q :=
      ⟨_, List.getElem?_eq_getElem hk⟩
    have hqm : q ∈ l2i.filter (fun p => decide (p.2 ∈ y)) :=
      List.mem_iff_getElem?.2 ⟨k, hq⟩
    have hq2 : q.2 ∈ y := of_decide_eq_true (List.mem_filter.1 hqm).2
    have hlp : lastIdxPos (l2i.filter (fun p => decide (p.2 ∈ y))) q.2 =
        some k := lastIdxPos_eq_of_getElem _ hksnd k q hq
    rw [hy2]
    refine List.mem_map.2 ⟨q.2, hq2, ?_⟩
    rw [hlp]
  have hkept2 : l2i2.filter (fun p => decide (p.2 ∈ y2)) = l2i2 := by
    rw [List.filter_eq_self]
    intro p hp
    rcases List.mem_iff_getElem?.1 hp with ⟨k, hk⟩
    rw [hval k] at hk
    cases hq : (l2i.filter (fun p => decide (p.2 ∈ y)))[k]? with
    | none =>
      rw [hq] at hk
      cases hk
    | some a =>
      rw [hq] at hk
      injection hk with hk
      rcases List.getElem?_eq_some.1 hq with ⟨hklen, _⟩
      rw [← hk]
      exact decide_eq_true (hmemy2 k hklen)
  have hl2i2snd : l2i2.map Prod.snd =
      (List.range (l2i.filter (fun p => decide (p.2 ∈ y))).length).map
        (fun k : Nat => (k : Int)) := by
    apply List.ext_getElem?
    intro i
    rw [List.getElem?_map, hval i, List.getElem?_map]
    by_cases hi : i < (l2i.filter (fun p => decide (p.2 ∈ y))).length
    · rw [List.getElem?_eq_getElem hi, List.getElem?_range hi]
      rfl
    · rw [List.getElem?_eq_none (by omega),
        List.getElem?_eq_none (by rw [List.length_range]; omega)]
      rfl
  have hndl2i2 : (l2i2.map Prod.snd).Nodup := by
    rw [hl2i2snd]
    exact (List.nodup_range _).map (fun a b h => by omega)
  have hlen22 : l2i2.length = (l2i.filter (fun p => decide (p.2 ∈ y))).length := by
    rw [hl2i2, List.length_map, List.enum_length]
  have hy2fix : y2.map (fun v =>
      match lastIdxPos l2i2 v with
      | some k => (k : Int)
      | none => -1) = y2 := by
    have hpt : ∀ w ∈ y2, (match lastIdxPos l2i2 w with
        | some k => ((k : Nat) : Int)
        | none => -1) = w := by
      intro w hw
      rcases hy2mem w hw with ⟨k, hk, hwk⟩
      obtain ⟨q, hq⟩ : ∃ q, (l2i.filter (fun p => decide (p.2 ∈ y)))[k]? =
          some q := ⟨_, List.getElem?_eq_getElem hk⟩
      have hq2 : l2i2[k]? = some (q.1, (k : Int)) := by
        rw [hval k, hq]
        rfl
      have hlp : lastIdxPos l2i2 (k : Int) = some k :=
        lastIdxPos_eq_of_getElem l2i2 hndl2i2 k (q.1, (k : Int)) hq2
      rw [hwk, hlp]
    calc y2.map (fun v => match lastIdxPos l2i2 v with
          | some k => (k : Int)
          | none => -1)
        = y2.map id := List.map_congr_left hpt
      _ = y2 := List.map_id y2
  have hrebuild : l2i2.enum.map (fun p => (p.2.1, (p.1 : Int))) = l2i2 := by
    apply List.ext_getElem?
    intro i
    rw [List.getElem?_map, List.getElem?_enum]
    by_cases hi : i < l2i2.length
    · have hi2 : i < (l2i.filter (fun p => decide (p.2 ∈ y))).length := by
        rw [← hlen22]
        exact hi
      obtain ⟨q, hq⟩ : ∃ q, (l2i.filter (fun p => decide (p.2 ∈ y)))[i]? =
          some q := ⟨_, List.getElem?_eq_getElem hi2⟩
      have hq2 : l2i2[i]? = some (q.1, (i : Int)) := by
        rw [hval i, hq]
        rfl
      rw [hq2]
      rfl
    · have hnone : l2i2[i]? = none := List.getElem?_eq_none (by omega)
      rw [hnone]
      rfl
  unfold recompressLabels
  simp only []
  rw [hkept2, hy2fix, hrebuild, if_pos ?hgg]
  case hgg =>
    intro w hw
    rcases hy2mem w hw with ⟨k, _, hwk⟩
    rw [hwk]
    exact_mod_cast Nat.zero_le k

theorem recompress_nil {L : Type} (l2i : List (L × Int)) :
    recompressLabels [] l2i = some ([], []) := by
  unfold recompressLabels
  simp only []
  have hf : l2i.filter (fun p => decide (p.2 ∈ ([] : List Int))) = [] := by
    rw [List.filter_eq_nil_iff]
    intro p _
    simp
  rw [hf]
  rw [if_pos (by intro v hv; cases hv)]
  rfl

theorem graph_normalize_eq {α V L : Type} (x : List α) (es : List (Nat × Nat))
    (y : List Int) (v2i : List (V × Nat)) (l2i : List (L × Int)) (ms : Bool)
    (mcc : ℚ) (es0 : List (Nat × Nat)) (x1 : List α) (es1 : List (Nat × Nat))
    (y1 : List Int) (v2i1 : List (V × Nat)) (y2 : List Int)
    (l2i2 : List (L × Int))
    (hsym : (if ms then graph_make_symmetric es else some es) = some es0)
    (hloop : normalizeLoop x es0 y v2i mcc = some (x1, es1, y1, v2i1))
    (hrec : recompressLabels y1 l2i = some (y2, l2i2)) :
    graph_normalize x es y v2i l2i ms mcc = some (x1, es1, y2, v2i1, l2i2) := by
  unfold graph_normalize
  rw [hsym]
  simp only []
  rw [hloop]
  simp only []
  rw [hrec]

theorem normalizeBody_preserves {α V : Type} (mcc : ℚ) (ms : Bool)
    (A B : List α × List (Nat × Nat) × List Int × List (V × Nat))
    (hb : normalizeBody A.1 A.2.1 A.2.2.1 A.2.2.2 mcc = some B)
    (hy : A.2.2.1.length = A.1.length)
    (hsym : ms = true → ∀ a b : Nat, (a, b) ∈ A.2.1 → (b, a) ∈ A.2.1) :
    B.2.2.1.length = B.1.length ∧
    (∀ e ∈ B.2.1, e.1 < B.1.length ∧ e.2 < B.1.length) ∧
    (∀ p ∈ B.2.2.2, p.2 < B.1.length) ∧
    (ms = true → ∀ a b : Nat, (a, b) ∈ B.2.1 → (b, a) ∈ B.2.1) := by
  by_cases hA0 : A.1.length = 0
  · rw [normalizeBody_empty _ _ _ _ _ hA0] at hb
    cases hb
  · obtain ⟨l, hl⟩ := lccLabel_isSome _ (compLabels_ne_nil A.1.length A.2.1 hA0)
    rw [normalizeBody_eval A.1 A.2.1 A.2.2.1 A.2.2.2 mcc l hl] at hb
    injection hb with hb
    have hml : (lccMask A.1.length A.2.1 l).length = A.1.length :=
      lccMask_length _ _ _
    have hmidyl : (maskFilter (lccMask A.1.length A.2.1 l) A.2.2.1).length =
        countTrue (lccMask A.1.length A.2.1 l) :=
      maskFilter_length _ _ (by rw [hml, hy])
    have hmidxl : (maskFilter (lccMask A.1.length A.2.1 l) A.1).length =
        countTrue (lccMask A.1.length A.2.1 l) :=
      maskFilter_length _ _ (by rw [hml])
    have hpml : (pruneMask (maskFilter (lccMask A.1.length A.2.1 l) A.2.2.1)
        mcc).length = countTrue (lccMask A.1.length A.2.1 l) := by
      rw [pruneMask, List.length_map, hmidyl]
    have hB1 : maskFilter (pruneMask (maskFilter (lccMask A.1.length A.2.1 l)
        A.2.2.1) mcc) (maskFilter (lccMask A.1.length A.2.1 l) A.1) = B.1 :=
      congrArg Prod.fst hb
    have hB21 : selectEdges (pruneMask (maskFilter (lccMask A.1.length A.2.1 l)
        A.2.2.1) mcc) (selectEdges (lccMask A.1.length A.2.1 l) A.2.1) =
        B.2.1 := congrArg (fun t => t.2.1) hb
    have hB221 : maskFilter (pruneMask (maskFilter (lccMask A.1.length A.2.1 l)
        A.2.2.1) mcc) (maskFilter (lccMask A.1.length A.2.1 l) A.2.2.1) =
        B.2.2.1 := congrArg (fun t => t.2.2.1) hb
    have hB222 : selectV2i (pruneMask (maskFilter (lccMask A.1.length A.2.1 l)
        A.2.2.1) mcc) (selectV2i (lccMask A.1.length A.2.1 l) A.2.2.2) =
        B.2.2.2 := congrArg (fun t => t.2.2.2) hb
    have hB1len : B.1.length = countTrue (pruneMask
        (maskFilter (lccMask A.1.length A.2.1 l) A.2.2.1) mcc) := by
      rw [← hB1]
      exact maskFilter_length _ _ (by rw [hpml, hmidxl])
    refine ⟨?_, ?_, ?_, ?_⟩
    · rw [← hB221, hB1len]
      exact maskFilter_length _ _ (by rw [hpml, hmidyl])
    · intro e he
      obtain ⟨a, b⟩ := e
      rw [← hB21] at he
      rcases (mem_selectEdges _ _ a b).1 he with ⟨ha, hbb, _⟩
      rw [hB1len]
      exact ⟨ha, hbb⟩
    · intro p hp
      rw [← hB222, selectV2i] at hp
      rcases List.mem_filterMap.1 hp with ⟨q, _, he⟩
      by_cases hm : (pruneMask (maskFilter (lccMask A.1.length A.2.1 l)
          A.2.2.1) mcc).getD q.2 false = true
      · rw [if_pos hm] at he
        injection he with he
        rw [← he, hB1len]
        exact maskRank_lt _ _ hm
      · rw [if_neg hm] at he
        cases he
    · intro hms a b hab
      rw [← hB21] at hab ⊢
      exact selectEdges_symm _ _ (selectEdges_symm _ _ (hsym hms)) a b hab

/-- **C2 (amended).** Under the GraphView well-formedness invariants
(label vector as long as the attribute matrix, in-range edge endpoints and
vertex ids, duplicate-free label ids), if `graph_normalize` returns a graph
`g1` — and, when `make_symmetric` is set, `g1` has at least one edge
(otherwise the second call raises in `edge_index.max()`) — then applying
`graph_normalize` with the same arguments to `g1` returns exactly `g1`:
same attribute matrix, same edge list, same label vector, same
vertex-to-index mapping and same label-to-index mapping. -/
theorem graph_normalize_idempotent {α V L : Type} (x : List α)
    (es : List (Nat × Nat)) (y : List Int) (v2i : List (V × Nat))
    (l2i : List (L × Int)) (ms : Bool) (mcc : ℚ)
    (hwfy : y.length = x.length)
    (hwfes : ∀ e ∈ es, e.1 < x.length ∧ e.2 < x.length)
    (hwfv : ∀ p ∈ v2i, p.2 < x.length)
    (hndl : (l2i.map Prod.snd).Nodup)
    (g1 : List α × List (Nat × Nat) × List Int × List (V × Nat) ×
      List (L × Int))
    (h1 : graph_normalize x es y v2i l2i ms mcc = some g1)
    (hes1 : ms = true → g1.2.1 ≠ []) :
    graph_normalize g1.1 g1.2.1 g1.2.2.1 g1.2.2.2.1 g1.2.2.2.2 ms mcc =
      some g1 := by
  unfold graph_normalize at h1
  split at h1
  · cases h1
  · rename_i es0 hsym
    split at h1
    · cases h1
    · rename_i x1 es1 y1 v2i1 hloop
      split at h1
      · cases h1
      · rename_i y2 l2i2 hrec
        injection h1 with h1
        subst h1
        have hes0wf : ∀ e ∈ es0, e.1 < x.length ∧ e.2 < x.length := by
          cases hms : ms
          · rw [hms, if_neg (by simp)] at hsym
            injection hsym with hsym
            rw [← hsym]
            exact hwfes
          · rw [hms, if_pos rfl] at hsym
            intro e he
            obtain ⟨a, b⟩ := e
            rcases (mem_graph_make_symmetric es es0 hsym (a, b)).1 he with
              h | h
            · exact hwfes _ h
            · have := hwfes _ h
              exact ⟨this.2, this.1⟩
        have hes0sym : ms = true → ∀ a b : Nat, (a, b) ∈ es0 →
            (b, a) ∈ es0 := by
          intro hms a b hab
          rw [hms, if_pos rfl] at hsym
          rw [mem_graph_make_symmetric es es0 hsym (b, a)]
          rcases (mem_graph_make_symmetric es es0 hsym (a, b)).1 hab with
            h | h
          · exact Or.inr h
          · exact Or.inl h
        have hstep : ∀ A B : List α × List (Nat × Nat) × List Int ×
            List (V × Nat),
            normalizeBody A.1 A.2.1 A.2.2.1 A.2.2.2 mcc = some B →
            (A.2.2.1.length = A.1.length ∧
              (∀ e ∈ A.2.1, e.1 < A.1.length ∧ e.2 < A.1.length) ∧
              (∀ p ∈ A.2.2.2, p.2 < A.1.length) ∧
              (ms = true → ∀ a b : Nat, (a, b) ∈ A.2.1 → (b, a) ∈ A.2.1)) →
            (B.2.2.1.length = B.1.length ∧
              (∀ e ∈ B.2.1, e.1 < B.1.length ∧ e.2 < B.1.length) ∧
              (∀ p ∈ B.2.2.2, p.2 < B.1.length) ∧
              (ms = true → ∀ a b : Nat, (a, b) ∈ B.2.1 → (b, a) ∈ B.2.1)) := by
          intro A B hbAB hPA
          exact normalizeBody_preserves mcc ms A B hbAB hPA.1 hPA.2.2.2
        rcases normalizeLoop_out mcc _ hstep x.length x es0 y v2i
            (x1, es1, y1, v2i1) le_rfl ⟨hwfy, hes0wf, hwfv, hes0sym⟩ hloop with
          ⟨hz, hSeq, _⟩ | ⟨A, hPA, hA0, hbody, hPS, hlen⟩
        · injection hSeq with hx1 hSeq
          injection hSeq with hes1e hSeq
          injection hSeq with hy1 hv2i1
          have hxnil : x = [] := List.length_eq_zero.1 hz
          have hesnil : es = [] := by
            rw [List.eq_nil_iff_forall_not_mem]
            intro e he
            have := hwfes e he
            omega
          have hmsf : ms = false := by
            cases hms : ms
            · rfl
            · rw [hms, if_pos rfl, hesnil, graph_make_symmetric_empty]
                at hsym
              cases hsym
          have hes0nil : es0 = es := by
            rw [hmsf, if_neg (by simp)] at hsym
            injection hsym with hsym
            rw [hsym]
          have hynil : y = [] := by
            rw [← List.length_eq_zero, hwfy, hz]
          have hvnil : v2i = [] := by
            rw [List.eq_nil_iff_forall_not_mem]
            intro p hp
            have := hwfv p hp
            omega
          have hy1nil : y1 = [] := by rw [hy1, hynil]
          have hy2nil : y2 = [] ∧ l2i2 = [] := by
            have h2 := hrec
            rw [hy1nil, recompress_nil] at h2
            injection h2 with h2
            injection h2 with h2a h2b
            exact ⟨h2a.symm, h2b.symm⟩
          rw [hx1, hxnil, hes1e, hes0nil, hesnil, hy2nil.1, hy2nil.2,
            hv2i1, hvnil, hmsf]
          exact graph_normalize_eq [] [] [] [] [] false mcc [] [] [] [] [] [] []
            (by rw [if_neg (by simp)]) (normalizeLoop_zero _ _ _ _ _ rfl)
            (recompress_nil [])
        · obtain ⟨xA, esA, yA, v2iA⟩ := A
          rcases hlen with hfix | hzero
          · rcases body_fixedpoint_stable xA esA yA v2iA mcc
                (x1, es1, y1, v2i1) hA0 hPA.1 hPA.2.1 hPA.2.2.1 hbody hfix with
              ⟨hSeq, hSmem, hstable⟩
            injection hSeq with hx1 hSeq
            injection hSeq with _ hSeq
            injection hSeq with hy1 hv2i1
            subst hx1
            subst hy1
            subst hv2i1
            rcases recompress_prune y1 l2i y2 l2i2 mcc hrec with
              ⟨hy2len, hy2prune⟩
            have hrec2 : recompressLabels y2 l2i2 = some (y2, l2i2) :=
              recompress_idem y1 l2i y2 l2i2 hndl hrec
            have hy2len2 : y2.length = x1.length := by
              rw [hy2len]
              exact hPA.1
            cases hms : ms
            · have hbody2 := hstable es1 y2 (fun p => Iff.rfl) hy2len2 hy2prune
              have hloop2 : normalizeLoop x1 es1 y2 v2i1 mcc =
                  some (x1, es1, y2, v2i1) := by
                rw [normalizeLoop_some x1 es1 y2 v2i1 mcc (x1, es1, y2, v2i1)
                  hA0 hbody2, if_pos rfl]
              exact graph_normalize_eq x1 es1 y2 v2i1 l2i2 false mcc es1
                x1 es1 y2 v2i1 y2 l2i2 (by rw [if_neg (by simp)]) hloop2 hrec2
            · have hsymS : ∀ a b : Nat, (a, b) ∈ es1 → (b, a) ∈ es1 :=
                hPS.2.2.2 hms
              have hne1 : es1 ≠ [] := hes1 hms
              obtain ⟨m', hm'⟩ := maxEndpoint_isSome es1 hne1
              have hsym2 : graph_make_symmetric es1 =
                  some (gridSym es1 m') := graph_make_symmetric_eq es1 m' hm'
              have hE : ∀ p : Nat × Nat, p ∈ gridSym es1 m' ↔
                  p ∈ (x1, es1, y1, v2i1).2.1 := by
                intro p
                rw [mem_graph_make_symmetric es1 _ hsym2 p]
                constructor
                · rintro (h | h)
                  · exact h
                  · obtain ⟨a, b⟩ := p
                    exact hsymS b a h
                · exact Or.inl
              have hbody2 := hstable (gridSym es1 m') y2 hE hy2len2 hy2prune
              have hloop2 : normalizeLoop x1 (gridSym es1 m') y2 v2i1 mcc =
                  some (x1, es1, y2, v2i1) := by
                rw [normalizeLoop_some x1 _ y2 v2i1 mcc (x1, es1, y2, v2i1)
                  hA0 hbody2, if_pos rfl]
              exact graph_normalize_eq x1 es1 y2 v2i1 l2i2 true mcc
                (gridSym es1 m') x1 es1 y2 v2i1 y2 l2i2
                (by rw [if_pos rfl]; exact hsym2) hloop2 hrec2
          · have hzero2 : x1.length = 0 := hzero
            have hPSy : y1.length = x1.length := hPS.1
            have hPSe : ∀ e ∈ es1, e.1 < x1.length ∧ e.2 < x1.length :=
              hPS.2.1
            have hPSv : ∀ p ∈ v2i1, p.2 < x1.length := hPS.2.2.1
            have hx1nil : x1 = [] := List.length_eq_zero.1 hzero2
            have hes1nil : es1 = [] := by
              rw [List.eq_nil_iff_forall_not_mem]
              intro e he
              have := hPSe e he
              omega
            have hy1nil : y1 = [] := by
              rw [← List.length_eq_zero]
              omega
            have hv1nil : v2i1 = [] := by
              rw [List.eq_nil_iff_forall_not_mem]
              intro p hp
              have := hPSv p hp
              omega
            have hy2nil : y2 = [] ∧ l2i2 = [] := by
              have h2 := hrec
              rw [hy1nil, recompress_nil] at h2
              injection h2 with h2
              injection h2 with h2a h2b
              exact ⟨h2a.symm, h2b.symm⟩
            have hmsf : ms = false := by
              cases hms : ms
              · rfl
              · exact absurd (hes1 hms) (by rw [hes1nil]; simp)
            rw [hx1nil, hes1nil, hy2nil.1, hy2nil.2, hv1nil, hmsf]
            exact graph_normalize_eq [] [] [] [] [] false mcc [] [] [] [] [] []
              [] (by rw [if_neg (by simp)]) (normalizeLoop_zero _ _ _ _ _ rfl)
              (recompress_nil [])

/-- Witness for C2: a two-vertex connected graph whose label index holds an
unused label.  The first call symmetrizes the edges and drops the unused
label; the theorem applies to its output and the second call returns it
unchanged. -/
theorem graph_normalize_idempotent_witness :
    graph_normalize ([5, 6] : List Int) [(0, 1)] [0, 0]
        ([(0, 0), (1, 1)] : List (Nat × Nat))
        ([(0, 0), (1, 1)] : List (Int × Int)) true 0 =
      some ([5, 6], [(1, 0), (0, 1)], [0, 0], [(0, 0), (1, 1)], [(0, 0)]) ∧
    graph_normalize ([5, 6] : List Int) [(1, 0), (0, 1)] [0, 0]
        ([(0, 0), (1, 1)] : List (Nat × Nat))
        ([(0, 0)] : List (Int × Int)) true 0 =
      some ([5, 6], [(1, 0), (0, 1)], [0, 0], [(0, 0), (1, 1)], [(0, 0)]) := by
  constructor
  · with_unfolding_all rfl
  · exact graph_normalize_idempotent [5, 6] [(0, 1)] [0, 0] [(0, 0), (1, 1)]
      [(0, 0), (1, 1)] true 0 (by decide) (by decide) (by decide) (by decide)
      ([5, 6], [(1, 0), (0, 1)], [0, 0], [(0, 0), (1, 1)], [(0, 0)])
      (by with_unfolding_all rfl) (by decide)

end DataUtil
